import Mathlib

/-! # micro-lisp (`mlisp89.c`): a shallow embedding and its verified properties

The C program is embedded as follows.

* A `struct Object *` is a value of `Obj`.  `Obj.null` is the null pointer; every
  other constructor carries the address `tagalloc` returned for it, so that the
  pointer comparisons of the source (`==`) are comparisons of addresses.
  Objects are never written after they have been linked into a structure (the
  only writes are the tail patches `*args = ...` of the list builders, which
  finish before the list is handed out), so an object is determined by its
  address and the tree below it.
* The globals (`symbols`, `look`, `token`), the allocator and the two standard
  streams form the `World`; a C function of result type `T` is a `Run T`,
  a function from the world to a result and a new world, or to a `Fault`.
* `calloc` and `strdup` are assumed to succeed.  Reading a member of
  `union Value` is modelled where the C standard defines it: the member that
  was stored, and the common initial sequence `next`/`params`, `data`/`body`
  shared by `struct List` and `struct Closure`.  Any other read is the fault
  `badUnion`; a dereference of the null pointer is the fault `nullDeref`.
* `eval` may run forever, and so may the reader at end of input; both take
  fuel, and `outOfFuel` is the third fault.
* Where C leaves the order of evaluation of the arguments of one call open,
  they are evaluated left to right.  Only the numbering of addresses depends
  on that choice.
-/

namespace MicroLisp

/-- The constant `SYMBOL_MAX`. -/
def SYMBOL_MAX : Nat := 32

/-- The terminating character of a C string. -/
def NUL : Char := Char.ofNat 0

/-- The enumeration `tag` of `struct Object`. -/
inductive Tag where
  | _Symbol | _Pair | _Primitive | _Closure | _Macro | _Syntax
deriving DecidableEq, Repr

/-- The functions stored in `value.pfn`. -/
inductive PrimFn where
  | fcons | fcar | fcdr | feq | fpair | fatom | fnull | freadobj | fwriteobj
deriving DecidableEq, Repr

/-- The functions stored in `value.psyn`. -/
inductive SynFn where
  | fapply | fquote | flambda | fcond | flet | fmacro
deriving DecidableEq, Repr

/-- A `struct Object *`: the null pointer, or an allocated object with its
address, its tag (the constructor) and the member of the union stored in it. -/
inductive Obj where
  | null
  | Symbol (addr : Nat) (string : List Char)
  | Pair (addr : Nat) (data next : Obj)
  | Primitive (addr : Nat) (pfn : PrimFn)
  | Closure (addr : Nat) (params body env : Obj)
  | Macro (addr : Nat) (params body env : Obj)
  | Syntax (addr : Nat) (psyn : SynFn)
deriving DecidableEq, Repr

/-- The value of a pointer: `none` for the null pointer, else the address of
the object. -/
def Obj.ptr : Obj → Option Nat
  | .null => none
  | .Symbol a _ => some a
  | .Pair a _ _ => some a
  | .Primitive a _ => some a
  | .Closure a _ _ _ => some a
  | .Macro a _ _ _ => some a
  | .Syntax a _ => some a

/-- The comparison `x == y` of two object pointers. -/
def ptrEq (x y : Obj) : Bool := x.ptr == y.ptr

/-- The test `x == 0`, the negation of the condition `x`. -/
def Obj.isNull : Obj → Bool
  | .null => true
  | _ => false

/-- The global variables, the allocator and the standard streams. -/
structure World where
  /-- `Object * symbols` -/
  symbols : Obj
  /-- `static int look`; `none` is `EOF` -/
  look : Option Char
  /-- `static char token[SYMBOL_MAX]`, the characters before the terminator -/
  token : List Char
  /-- what `getchar` has not yet returned -/
  stdin : List Char
  /-- what has been printed so far -/
  stdout : List Char
  /-- the address the next `calloc` returns -/
  brk : Nat
deriving DecidableEq, Repr

/-- The ways a run leaves the behaviour the embedding defines. -/
inductive Fault where
  | nullDeref | badUnion | outOfFuel
deriving DecidableEq, Repr

/-- The outcome of running a C function in a world. -/
inductive Res (α : Type) where
  | ok (val : α) (w : World)
  | fail (f : Fault)
deriving DecidableEq, Repr

/-- Sequencing of outcomes. -/
def Res.bind {α β : Type} : Res α → (α → World → Res β) → Res β
  | .ok a w, f => f a w
  | .fail e, _ => .fail e

/-- A C function of result type `α`. -/
def Run (α : Type) : Type := World → Res α

instance : Monad Run where
  pure a := fun w => .ok a w
  bind m f := fun w => (m w).bind f

/-- Leave the defined behaviour. -/
def fault {α : Type} (f : Fault) : Run α := fun _ => .fail f

/-- The state the program starts in: zero-initialised globals, an empty heap. -/
def World.init (input : List Char) : World :=
  { symbols := .null, look := some NUL, token := [], stdin := input, stdout := [], brk := 1 }

/-! ## Characters, strings and the standard streams -/

/-- `int is_space(char x)` -/
def is_space (x : Char) : Bool := x == ' ' || x == '\n'

/-- `int is_parens(char x)` -/
def is_parens (x : Char) : Bool := x == '(' || x == ')'

/-- The character a `char *` points at: the list is the memory up to, and
without, the terminator that ends it. -/
def deref (s : List Char) : Char := s.headD NUL

/-- `strncmp(s1, s2, n)`: the difference at the first position, among the first
`n`, where the strings differ, and 0 when there is none before a terminator. -/
def strncmp : List Char → List Char → Nat → Int
  | _, _, 0 => 0
  | s1, s2, n + 1 =>
    if deref s1 ≠ deref s2 then (deref s1).toNat - (deref s2).toNat
    else if deref s1 = NUL then 0
    else strncmp s1.tail s2.tail n

/-- `strdup(s)`: a copy of the characters before the first terminator. -/
def strdup (s : List Char) : List Char := s.takeWhile (· ≠ NUL)

/-- `getchar()`: the next character of the input, `EOF` when there is none. -/
def getchar : Run (Option Char) := fun w =>
  match w.stdin with
  | [] => .ok none w
  | c :: cs => .ok (some c) { w with stdin := cs }

/-- `printf("%s", s)` for a string without conversion, also `printf(s)`. -/
def printf (s : List Char) : Run Unit := fun w =>
  .ok () { w with stdout := w.stdout ++ strdup s }

/-- `puts(s)`: the string and a newline. -/
def puts (s : List Char) : Run Unit := fun w =>
  .ok () { w with stdout := w.stdout ++ strdup s ++ ['\n'] }

/-! ## Objects -/

/-- `tagalloc(type)`: a fresh zeroed object; the result is its address. -/
def tagalloc : Run Nat := fun w => .ok w.brk { w with brk := w.brk + 1 }

/-- `car(x)`: `x ? x->value.pair.data : 0`. -/
def car : Obj → Run Obj
  | .null => pure .null
  | .Pair _ data _ => pure data
  | .Closure _ _ body _ => pure body
  | .Macro _ _ body _ => pure body
  | _ => fault .badUnion

/-- `cdr(x)`: `x ? x->value.pair.next : 0`. -/
def cdr : Obj → Run Obj
  | .null => pure .null
  | .Pair _ _ next => pure next
  | .Closure _ params _ _ => pure params
  | .Macro _ params _ _ => pure params
  | _ => fault .badUnion

/-- `cons(_car, _cdr)` -/
def cons (_car _cdr : Obj) : Run Obj := do
  let _pair ← tagalloc
  pure (.Pair _pair _car _cdr)

/-- `newsymbol(str)` -/
def newsymbol (str : List Char) : Run Obj := do
  let obj ← tagalloc
  pure (.Symbol obj (strdup str))

/-- `newprimop(fn)` -/
def newprimop (fn : PrimFn) : Run Obj := do
  let obj ← tagalloc
  pure (.Primitive obj fn)

/-- `newclosure(params, body, env)` -/
def newclosure (params body env : Obj) : Run Obj := do
  let obj ← tagalloc
  pure (.Closure obj params body env)

/-- `newsyntax(fn)` -/
def newsyntax (fn : SynFn) : Run Obj := do
  let obj ← tagalloc
  pure (.Syntax obj fn)

/-- `newmacro(params, body, env)` -/
def newmacro (params body env : Obj) : Run Obj := do
  let obj ← tagalloc
  pure (.Macro obj params body env)

/-- The assignment `cell->value.pair.next = rest` that the list builders make
through `*args` to the cell they allocated last. -/
def setNext : Obj → Obj → Obj
  | .Pair a data _, rest => .Pair a data rest
  | cell, _ => cell

/-! ## The symbol table -/

/-- One round of the loop of `intern`, at a cell whose `data` is `entry`;
`rest` is the loop from the next cell on. -/
def internStep (sym : List Char) (entry : Obj) (rest : Run (Option Obj)) : Run (Option Obj) :=
  match entry with
  | .null => fault .nullDeref
  | .Symbol _ string => if strncmp sym string SYMBOL_MAX = 0 then pure (some entry) else rest
  | _ => fault .badUnion

/-- The loop of `intern` from the cell `_pair` on: the entry it returns, or
`none` when it runs off the end of the table. -/
def internLoop (sym : List Char) : Obj → Run (Option Obj)
  | .null => pure none
  | .Pair _ data next => internStep sym data (internLoop sym next)
  | .Closure _ params body _ => internStep sym body (internLoop sym params)
  | .Macro _ params body _ => internStep sym body (internLoop sym params)
  | _ => fault .badUnion

/-- `intern(sym)` -/
def intern (sym : List Char) : Run Obj := fun w =>
  (internLoop sym w.symbols w).bind fun found w =>
    match found with
    | some entry => .ok entry w
    | none =>
      (newsymbol sym w).bind fun s w =>
        (cons s w.symbols w).bind fun table w =>
          car table { w with symbols := table }

/-! ## The reader -/

/-- The conversion of `look` to `char` at a call `is_space(look)`; `EOF` is -1. -/
def toChar : Option Char → Char
  | some c => c
  | none => Char.ofNat 255

/-- The loop `while(is_space(look)) { look = getchar(); }` on `look` and the
input; the result is `look` and the input after it. -/
def skipSpaces : Option Char → List Char → Option Char × List Char
  | none, input => (none, input)
  | some c, [] => if is_space c then (none, []) else (some c, [])
  | some c, d :: ds => if is_space c then skipSpaces (some d) ds else (some c, d :: ds)

/-- The loop of `gettoken` that collects an atom, entered with `index`
characters stored: the characters it stores, then `look` and the input. -/
def tokenLoop (index : Nat) : Option Char → List Char → List Char × Option Char × List Char
  | none, input => ([], none, input)
  | some c, [] =>
    if index < SYMBOL_MAX - 1 ∧ !is_space c ∧ !is_parens c then ([c], none, [])
    else ([], some c, [])
  | some c, d :: ds =>
    if index < SYMBOL_MAX - 1 ∧ !is_space c ∧ !is_parens c then
      (c :: (tokenLoop (index + 1) (some d) ds).1, (tokenLoop (index + 1) (some d) ds).2)
    else ([], some c, d :: ds)

/-- `gettoken()` -/
def gettoken : Run Unit := fun w =>
  let s := skipSpaces w.look w.stdin
  if is_parens (toChar s.1) then
    (getchar { w with stdin := s.2 }).bind fun look w =>
      .ok () { w with look := look, token := [toChar s.1] }
  else
    let r := tokenLoop 0 s.1 s.2
    .ok () { w with token := r.1, look := r.2.1, stdin := r.2.2 }

/-- `getobj()`, given `getlist()`. -/
def getobjWith (getlist : Run Obj) : Run Obj := fun w =>
  if deref w.token = '(' then getlist w else intern w.token w

/-- `getlist()`, with `fuel` bounding the depth of the calls. -/
def getlist : Nat → Run Obj
  | 0 => fault .outOfFuel
  | fuel + 1 => fun w =>
    (gettoken w).bind fun _ w =>
      if deref w.token = ')' then .ok .null w
      else
        (getobjWith (getlist fuel) w).bind fun tmp w =>
          (getlist fuel w).bind fun rest w =>
            cons tmp rest w

/-- `getobj()`, with `fuel` bounding the depth of the calls. -/
def getobj (fuel : Nat) : Run Obj := getobjWith (getlist fuel)

/-! ## The printer -/

/-- `print_obj(ob, head_of_list)` -/
def print_obj : Obj → Bool → Run Unit
  | .null, _ => printf "null".toList
  | .Symbol _ string, _ => printf string
  | .Pair _ data next, head_of_list => do
    if head_of_list then printf "(".toList
    print_obj data true
    match next with
    | .null => printf ")".toList
    | .Pair _ _ _ => do
      printf " ".toList
      print_obj next false
    | _ => do
      printf " . ".toList
      print_obj next false
      printf ")".toList
  | .Closure _ _ _ _, _ => printf "<CLOSURE>".toList
  | _, _ => pure ()

/-! ## The evaluator -/

/-- The assignment `look = c`. -/
def setLook (c : Option Char) : Run Unit := fun w => .ok () { w with look := c }

/-- The read `x->tag`. -/
def tagOf : Obj → Run Tag
  | .null => fault .nullDeref
  | .Symbol _ _ => pure ._Symbol
  | .Pair _ _ _ => pure ._Pair
  | .Primitive _ _ => pure ._Primitive
  | .Closure _ _ _ _ => pure ._Closure
  | .Macro _ _ _ _ => pure ._Macro
  | .Syntax _ _ => pure ._Syntax

/-- The read `x->value.closure.params`. -/
def closureParams : Obj → Run Obj
  | .null => fault .nullDeref
  | .Closure _ params _ _ => pure params
  | .Macro _ params _ _ => pure params
  | .Pair _ _ next => pure next
  | _ => fault .badUnion

/-- The read `x->value.closure.body`. -/
def closureBody : Obj → Run Obj
  | .null => fault .nullDeref
  | .Closure _ _ body _ => pure body
  | .Macro _ _ body _ => pure body
  | .Pair _ data _ => pure data
  | _ => fault .badUnion

/-- The read `x->value.closure.env`. -/
def closureEnv : Obj → Run Obj
  | .null => fault .nullDeref
  | .Closure _ _ _ env => pure env
  | .Macro _ _ _ env => pure env
  | _ => fault .badUnion

/-- The expression `e_true`: `cons(intern("quote"), cons(intern("t"), 0))`. -/
def e_true : Run Obj := do
  cons (← intern "quote".toList) (← cons (← intern "t".toList) .null)

/-- The expression `e_false`. -/
def e_false : Obj := .null

/-- One round of the loop of `map` at the cell `list`; `rest` is the loop
from the next cell on. -/
def mapStep (list : Obj) (fn : Obj → Obj → Run Obj) (context : Obj) (rest : Run Obj) :
    Run Obj := do
  let cell ← cons (← fn (← car list) context) .null
  pure (setNext cell (← rest))

/-- `map(list, fn, context)` -/
def map (list : Obj) (fn : Obj → Obj → Run Obj) (context : Obj) : Run Obj :=
  match list with
  | .null => pure .null
  | .Pair _ _ next => mapStep list fn context (map next fn context)
  | .Closure _ params _ _ => mapStep list fn context (map params fn context)
  | .Macro _ params _ _ => mapStep list fn context (map params fn context)
  | _ => mapStep list fn context (fault .badUnion)

/-- `fcons(a)` -/
def fcons (a : Obj) : Run Obj := do
  cons (← car a) (← car (← cdr a))

/-- `fcar(a)` -/
def fcar (a : Obj) : Run Obj := do
  car (← car a)

/-- `fcdr(a)` -/
def fcdr (a : Obj) : Run Obj := do
  cdr (← car a)

/-- `feq(a)` -/
def feq (a : Obj) : Run Obj := do
  if ptrEq (← car a) (← car (← cdr a)) then e_true else pure e_false

/-- `fpair(a)` -/
def fpair (a : Obj) : Run Obj := do
  if (← tagOf (← car a)) = ._Pair then e_true else pure e_false

/-- `fatom(a)` -/
def fatom (a : Obj) : Run Obj := do
  if (← tagOf (← car a)) = ._Symbol then e_true else pure e_false

/-- `fnull(a)` -/
def fnull (a : Obj) : Run Obj := do
  if (← car a).isNull then e_true else pure e_false

/-- `freadobj(a)`; `fuel` bounds the depth of the reader. -/
def freadobj (fuel : Nat) (_a : Obj) : Run Obj := do
  setLook (← getchar)
  gettoken
  getobj fuel

/-- `fwriteobj(a)` -/
def fwriteobj (a : Obj) : Run Obj := do
  print_obj (← car a) true
  puts "".toList
  e_true

/-- The call `fun->value.pfn(args)` through the stored pointer. -/
def callPrim (fuel : Nat) : PrimFn → Obj → Run Obj
  | .fcons => fcons
  | .fcar => fcar
  | .fcdr => fcdr
  | .feq => feq
  | .fpair => fpair
  | .fatom => fatom
  | .fnull => fnull
  | .freadobj => freadobj fuel
  | .fwriteobj => fwriteobj

/-- One round of the loop of `bind_append` at the cell `values`; `rest` is the
loop from the next cell on, given the advanced `names`. -/
def bindStep (names values tail : Obj) (rest : Obj → Run Obj) : Run Obj := do
  if ptrEq (← car names) (← intern ".".toList) then
    let names ← cdr names
    cons (← cons (← car names) (← cons values .null)) tail
  else
    let cell ← cons (← cons (← car names) (← cons (← car values) .null)) tail
    pure (setNext cell (← rest (← cdr names)))

/-- `bind_append(names, values, tail)` -/
def bind_append (names values tail : Obj) : Run Obj :=
  match values with
  | .null => pure tail
  | .Pair _ _ next => bindStep names values tail fun names => bind_append names next tail
  | .Closure _ params _ _ => bindStep names values tail fun names => bind_append names params tail
  | .Macro _ params _ _ => bindStep names values tail fun names => bind_append names params tail
  | _ => bindStep names values tail fun _ => fault .badUnion

/-- `_apply(fun, args)`, given `eval`. -/
def _apply (eval : Obj → Obj → Run Obj) (fuel : Nat) (fn args : Obj) : Run Obj :=
  match fn with
  | .null => fault .nullDeref
  | .Primitive _ pfn => callPrim fuel pfn args
  | .Closure _ params body cenv => do
    let env ← bind_append params args cenv
    eval body env
  | _ => do
    puts "not applicable: ".toList
    print_obj fn true
    printf "\n".toList
    pure .null

/-- One round of the loop of `fapply` at the cell `tmp`, whose `next` is not
null; `rest` is the loop from the next cell on. -/
def fapplyStep (eval : Obj → Obj → Run Obj) (tmp env : Obj) (rest : Run Obj) : Run Obj := do
  let cell ← cons (← eval (← car tmp) env) .null
  pure (setNext cell (← rest))

/-- The loop of `fapply` from the cell `tmp` on, with the assignment
`*args = eval(car(tmp), env)` that follows it: the list `head`. -/
def fapplyLoop (eval : Obj → Obj → Run Obj) (tmp env : Obj) : Run Obj :=
  match tmp with
  | .null => eval .null env
  | .Pair _ data next =>
    if next.isNull then eval data env else fapplyStep eval tmp env (fapplyLoop eval next env)
  | .Closure _ params body _ =>
    if params.isNull then eval body env else fapplyStep eval tmp env (fapplyLoop eval params env)
  | .Macro _ params body _ =>
    if params.isNull then eval body env else fapplyStep eval tmp env (fapplyLoop eval params env)
  | _ => fault .badUnion

/-- `fapply(exp, env)`, given `eval`. -/
def fapply (eval : Obj → Obj → Run Obj) (fuel : Nat) (exp env : Obj) : Run Obj := do
  let head ← fapplyLoop eval (← cdr (← cdr exp)) env
  _apply eval fuel (← eval (← car (← cdr exp)) env) head

/-- `fquote(exp, env)` -/
def fquote (exp _env : Obj) : Run Obj := do
  car (← cdr exp)

/-- `flambda(exp, env)` -/
def flambda (exp env : Obj) : Run Obj := do
  newclosure (← car (← cdr exp)) (← car (← cdr (← cdr exp))) env

/-- One round of the loop of `fcond` at the cell `exp`; `rest` is the loop
from the next cell on. -/
def fcondStep (eval : Obj → Obj → Run Obj) (exp env : Obj) (rest : Run Obj) : Run Obj := do
  if !(← eval (← car (← car exp)) env).isNull then
    eval (← car (← cdr (← car exp))) env
  else rest

/-- The loop of `fcond` from the cell `exp` on, with the `return 0` after it. -/
def fcondLoop (eval : Obj → Obj → Run Obj) (exp env : Obj) : Run Obj :=
  match exp with
  | .null => pure .null
  | .Pair _ _ next => fcondStep eval exp env (fcondLoop eval next env)
  | .Closure _ params _ _ => fcondStep eval exp env (fcondLoop eval params env)
  | .Macro _ params _ _ => fcondStep eval exp env (fcondLoop eval params env)
  | _ => fcondStep eval exp env (fault .badUnion)

/-- `fcond(exp, env)`, given `eval`. -/
def fcond (eval : Obj → Obj → Run Obj) (exp env : Obj) : Run Obj := do
  fcondLoop eval (← cdr exp) env

/-- `fmacro(exp, env)`, given `eval`. -/
def fmacro (eval : Obj → Obj → Run Obj) (exp env : Obj) : Run Obj := do
  let m ← eval (← car (← cdr exp)) env
  newmacro (← closureParams m) (← closureBody m) (← closureEnv m)

/-- One round of the loop of `flet` at the cell `exp`; `rest` is the loop from
the next cell on.  The result is `names_head` and `values_head`. -/
def fletStep (exp : Obj) (rest : Run (Obj × Obj)) : Run (Obj × Obj) := do
  let name ← cons (← car (← car exp)) .null
  let value ← cons (← car (← cdr (← car exp))) .null
  let tails ← rest
  pure (setNext name tails.1, setNext value tails.2)

/-- The loop of `flet` from the cell `exp` on. -/
def fletLoop (exp : Obj) : Run (Obj × Obj) :=
  match exp with
  | .null => pure (.null, .null)
  | .Pair _ _ next => fletStep exp (fletLoop next)
  | .Closure _ params _ _ => fletStep exp (fletLoop params)
  | .Macro _ params _ _ => fletStep exp (fletLoop params)
  | _ => fletStep exp (fault .badUnion)

/-- `flet(exp, env)`, given `eval`. -/
def flet (eval : Obj → Obj → Run Obj) (exp env : Obj) : Run Obj := do
  let body ← car (← cdr (← cdr exp))
  let heads ← fletLoop (← car (← cdr exp))
  eval (← cons (← cons (← intern "lambda".toList) (← cons heads.1 (← cons body .null))) heads.2) env

/-- The call `fun->value.psyn(exp, env)` through the stored pointer. -/
def callSyn (eval : Obj → Obj → Run Obj) (fuel : Nat) : SynFn → Obj → Obj → Run Obj
  | .fapply => fapply eval fuel
  | .fquote => fquote
  | .flambda => flambda
  | .fcond => fcond eval
  | .flet => flet eval
  | SynFn.fmacro => fmacro eval

/-- `apply(fun, exp, env)`, given `eval`. -/
def apply (eval : Obj → Obj → Run Obj) (fuel : Nat) (fn exp env : Obj) : Run Obj := do
  let args ← cdr exp
  match fn with
  | .null => fault .nullDeref
  | .Macro _ params body cenv => do
    let env ← bind_append params args cenv
    eval body env
  | .Syntax _ psyn => callSyn eval fuel psyn exp env
  | _ => do
    let arg_values ← map args eval env
    _apply eval fuel fn arg_values

/-- One round of the lookup loop of `eval` at the cell `env`; `rest` is the
loop from the next cell on.  `none` is leaving the loop without `return`. -/
def lookupStep (exp env : Obj) (rest : Run (Option Obj)) : Run (Option Obj) := do
  if ptrEq exp (← car (← car env)) then
    pure (some (← car (← cdr (← car env))))
  else rest

/-- The lookup loop of `eval` from the cell `env` on. -/
def lookup (exp env : Obj) : Run (Option Obj) :=
  match env with
  | .null => pure none
  | .Pair _ _ next => lookupStep exp env (lookup exp next)
  | .Closure _ params _ _ => lookupStep exp env (lookup exp params)
  | .Macro _ params _ _ => lookupStep exp env (lookup exp params)
  | _ => lookupStep exp env (fault .badUnion)

/-- The body of `eval(exp, env)`, given `eval` for the calls it makes. -/
def evalBody (eval : Obj → Obj → Run Obj) (fuel : Nat) (exp env : Obj) : Run Obj :=
  match exp with
  | .null => fault .nullDeref
  | .Symbol _ _ => do
    match ← lookup exp env with
    | some value => pure value
    | none =>
      printf "unbound variable: ".toList
      print_obj exp true
      printf "\n".toList
      pure .null
  | .Closure _ _ body _ => eval body env
  | .Pair _ data _ => do
    apply eval fuel (← eval data env) exp env
  | _ => do
    puts "cannot evaluate expression: ".toList
    print_obj exp true
    printf "\n".toList
    pure .null

/-- `eval(exp, env)`, with `fuel` bounding the depth of the calls of `eval`
(and of the reader, when `read` is called). -/
def eval : Nat → Obj → Obj → Run Obj
  | 0 => fun _ _ => fault .outOfFuel
  | fuel + 1 => evalBody (eval fuel) fuel

/-- One frame of the initial environment: `cons(intern(name), cons(value, 0))`. -/
def frame (name : String) (value : Run Obj) : Run Obj := do
  cons (← intern name.toList) (← cons (← value) .null)

/-- The initial environment built by `main`. -/
def initEnv : Run Obj := do
  let f1 ← frame "car" (newprimop .fcar)
  let f2 ← frame "cdr" (newprimop .fcdr)
  let f3 ← frame "cons" (newprimop .fcons)
  let f4 ← frame "eq?" (newprimop .feq)
  let f5 ← frame "pair?" (newprimop .fpair)
  let f6 ← frame "symbol?" (newprimop .fatom)
  let f7 ← frame "null?" (newprimop .fnull)
  let f8 ← frame "read" (newprimop .freadobj)
  let f9 ← frame "write" (newprimop .fwriteobj)
  let f10 ← frame "null" (pure .null)
  let f11 ← frame "apply" ( newsyntax .fapply)
  let f12 ← frame "quote" ( newsyntax .fquote)
  let f13 ← frame "lambda" ( newsyntax .flambda)
  let f14 ← frame "cond" ( newsyntax .fcond)
  let f15 ← frame "let" ( newsyntax .flet)
  let f16 ← frame "macro" ( newsyntax SynFn.fmacro)
  let e16 ← cons f16 .null
  let e15 ← cons f15 e16
  let e14 ← cons f14 e15
  let e13 ← cons f13 e14
  let e12 ← cons f12 e13
  let e11 ← cons f11 e12
  let e10 ← cons f10 e11
  let e9 ← cons f9 e10
  let e8 ← cons f8 e9
  let e7 ← cons f7 e8
  let e6 ← cons f6 e7
  let e5 ← cons f5 e6
  let e4 ← cons f4 e5
  let e3 ← cons f3 e4
  let e2 ← cons f2 e3
  cons f1 e2

/-- `main()`: read one expression, evaluate it, print the value. -/
def main (fuel : Nat) : Run Unit := do
  let env ← initEnv
  setLook (← getchar)
  gettoken
  print_obj (← eval fuel (← getobj fuel) env) true
  printf "\n".toList

/-- The output of the program on `input`, when it ends within `fuel`. -/
def output (fuel : Nat) (input : String) : Option String :=
  match main fuel (World.init input.toList) with
  | .ok _ w => some (String.mk w.stdout)
  | .fail _ => none

/-! ## Predicates used in the statements -/

/-- A well-formed symbol table below the address `bound`: a chain of `Pair`
cells whose entries are `Symbol`s with terminator-free names, the addresses
of the entries strictly decreasing along the chain. -/
def TableInv : Nat → Obj → Prop
  | _, .null => True
  | bound, .Pair _ (.Symbol a name) next => a < bound ∧ NUL ∉ name ∧ TableInv a next
  | _, _ => False

/-- The object `x` is an entry of the symbol table `t`. -/
def InTable (x : Obj) : Obj → Prop
  | .Pair _ entry next => x = entry ∨ InTable x next
  | _ => False

/-- The entry the loop of `intern` returns on a well-formed table: the first
one whose name compares equal to `sym`. -/
def findEntry (sym : List Char) : Obj → Option Obj
  | .Pair _ (.Symbol a name) next =>
    if strncmp sym name SYMBOL_MAX = 0 then some (.Symbol a name) else findEntry sym next
  | _ => none

/-- The world after `intern(sym)` has added a symbol to the table. -/
def World.withSymbol (w : World) (sym : List Char) : World :=
  { w with symbols := .Pair (w.brk + 1) (.Symbol w.brk (strdup sym)) w.symbols,
           brk := w.brk + 1 + 1 }

/-- The states of the symbol table the program can be in: it starts empty,
grows by calls of `intern`, and is left alone by everything else the program
does (which may allocate, read and print). -/
inductive Reachable : World → Prop where
  | start (w : World) : w.symbols = .null → Reachable w
  | intern (w : World) (sym : List Char) (o : Obj) (w1 : World) :
      Reachable w → intern sym w = .ok o w1 → Reachable w1
  | other (w w1 : World) : Reachable w → w1.symbols = w.symbols → w.brk ≤ w1.brk → Reachable w1

/-- The value is the canonical true: a fresh list `(quote t)` of the two
interned symbols. -/
def IsCanonicalTrue (r : Obj) : Prop :=
  ∃ p1 p2 q t, r = .Pair p1 (.Symbol q "quote".toList) (.Pair p2 (.Symbol t "t".toList) .null)

/-- A data value: absent, a symbol (its name a C string), or a pair of data
values. -/
def isData : Obj → Bool
  | .null => true
  | .Symbol _ name => !name.contains NUL
  | .Pair _ data next => isData data && isData next
  | _ => false

mutual
/-- The reference renderer `r` of a data value: `null` for absent, the name
for a symbol, and for a chain of pairs with elements `e1 … en` the text
`(`, then `r(e1) … r(en)` separated by single spaces, then what `renderEnd`
gives for the terminal rest of the chain. -/
def render : Obj → List Char
  | .null => "null".toList
  | .Symbol _ name => name
  | .Pair _ data next =>
    "(".toList ++ " ".toList.intercalate (render data :: renderElems next) ++ renderEnd next
  | _ => []
/-- The renderings `r(e2), …, r(en)` of the elements of the chain from the
cell `next` on. -/
def renderElems : Obj → List (List Char)
  | .Pair _ data next => render data :: renderElems next
  | _ => []
/-- The closing text of a chain, by its terminal rest `t`: `)` when `t` is
absent, and ` . `, `r(t)`, `)` when it is a symbol. -/
def renderEnd : Obj → List Char
  | .Pair _ _ next => renderEnd next
  | .null => ")".toList
  | .Symbol a name => " . ".toList ++ render (.Symbol a name) ++ ")".toList
  | _ => []
end

/-- What `print_obj(v, head_of_list)` prints of a data value: the rendering,
without the opening parenthesis when `head_of_list` is 0. -/
def renderAs (head_of_list : Bool) : Obj → List Char
  | .Pair _ data next =>
    (if head_of_list then "(".toList else []) ++
      " ".toList.intercalate (render data :: renderElems next) ++ renderEnd next
  | v => render v

/-- The world after `s` has been printed. -/
def World.emit (w : World) (s : List Char) : World := { w with stdout := w.stdout ++ s }

/-- The reader stands before the text `s`: `look` holds its first character
(`EOF` when there is none) and the input the characters after it. -/
def AtStream (w : World) (s : List Char) : Prop := w.look = s.head? ∧ w.stdin = s.tail

/-- A name the reader produces as it stands: not empty, at most
`SYMBOL_MAX - 1` characters, none of them a space, a newline, a parenthesis
or the string terminator. -/
def validName (name : List Char) : Bool :=
  !name.isEmpty && decide (name.length ≤ SYMBOL_MAX - 1) &&
    name.all fun c => !is_space c && !is_parens c && decide (c ≠ NUL)

/-- A value the reader produces: a symbol with a valid name, or a non-empty
proper list of such values.  With `asTail`, the rest of such a list after one
of its elements, which may be empty. -/
def readable (asTail : Bool) : Obj → Bool
  | .null => asTail
  | .Symbol _ name => !asTail && validName name
  | .Pair _ data next => readable false data && readable true next
  | _ => false

/-- The fuel `getlist` needs to read the rest of a list, and `getobj` a value. -/
def readFuel : Obj → Nat
  | .null => 1
  | .Pair _ data next => 1 + max (readFuel data) (readFuel next)
  | _ => 0

/-- The structure of a value: the value with every address set to 0. -/
def Obj.erase : Obj → Obj
  | .null => .null
  | .Symbol _ name => .Symbol 0 name
  | .Pair _ data next => .Pair 0 data.erase next.erase
  | .Primitive _ pfn => .Primitive 0 pfn
  | .Closure _ params body env => .Closure 0 params.erase body.erase env.erase
  | .Macro _ params body env => .Macro 0 params.erase body.erase env.erase
  | .Syntax _ psyn => .Syntax 0 psyn

/-- Every symbol of the data value is an entry of the symbol table. -/
def Interned (table : Obj) : Obj → Prop
  | .null => True
  | .Symbol a name => InTable (.Symbol a name) table
  | .Pair _ data next => Interned table data ∧ Interned table next
  | _ => False

/-- The text of the rest of a list after one of its elements. -/
def tailText : Obj → List Char
  | .Pair _ data next => " ".toList ++ render data ++ tailText next
  | _ => ")".toList

/-- The text of a list from one of its elements on. -/
def elemsText : Obj → List Char
  | .Pair _ data next => render data ++ tailText next
  | _ => ")".toList

/-- The chain of `Pair` cells `o` holds the elements `xs` and then continues
with the object `tl`. -/
def Chain : Obj → List Obj → Obj → Prop
  | o, [], tl => o = tl
  | .Pair _ data next, x :: xs, tl => data = x ∧ Chain next xs tl
  | _, _ :: _, _ => False

/-- The chain `o` holds two-element lists `(k v)`, one for each pair of `fs`,
in order, and then continues with the object `tl`: an environment that
extends `tl` by the frames `fs`. -/
def Extends : Obj → List (Obj × Obj) → Obj → Prop
  | o, [], tl => o = tl
  | .Pair _ (.Pair _ key (.Pair _ value .null)) next, f :: fs, tl =>
    key = f.1 ∧ value = f.2 ∧ Extends next fs tl
  | _, _ :: _, _ => False

/-- The object is a proper list of two-element lists `(k v)`: an environment
with the frames `fs`, a list of `cond` clauses, a list of `let` bindings. -/
def Assoc (o : Obj) (fs : List (Obj × Obj)) : Prop := Extends o fs .null

/-- The first frame of `fs` whose key is the object `s`. -/
def firstFrame (s : Obj) (fs : List (Obj × Obj)) : Option (Obj × Obj) :=
  fs.find? fun f => ptrEq s f.1

/-- The outcome with the world replaced by `w`. -/
def Res.withWorld {α : Type} : Res α → World → Res α
  | .ok a _, w => .ok a w
  | .fail e, _ => .fail e

/-- An environment with the frames `(x a)` and `(x b)`, the first shadowing
the second. -/
def shadowEnv : Obj :=
  .Pair 9 (.Pair 8 (.Symbol 1 ['x']) (.Pair 7 (.Symbol 2 ['a']) .null))
    (.Pair 6 (.Pair 5 (.Symbol 1 ['x']) (.Pair 4 (.Symbol 3 ['b']) .null)) .null)

/-- The frames `bind_append` allocates from the address `b` on for the pairs
`fs`, linked in front of `tl`: for each pair the cell of the value, the cell
of the key, and the cell of the frame. -/
def mkFrames (b : Nat) : List (Obj × Obj) → Obj → Obj
  | [], tl => tl
  | f :: fs, tl =>
    .Pair (b + 2) (.Pair (b + 1) f.1 (.Pair b f.2 .null)) (mkFrames (b + 3) fs tl)

/-- The world after `n` more objects have been allocated. -/
def World.alloc (w : World) (n : Nat) : World := { w with brk := w.brk + n }

/-- A parent environment with one frame `(z c)`, for the examples. -/
def parentEnv : Obj :=
  .Pair 29 (.Pair 28 (.Symbol 21 ['z']) (.Pair 27 (.Symbol 22 ['c']) .null)) .null

/-- Every expression of the list evaluates to absent in `env`, one after the
other, taking the world from `w` to `w1`. -/
inductive AllAbsent (ev : Obj → Obj → Run Obj) (env : Obj) : List Obj → World → World → Prop where
  | nil (w : World) : AllAbsent ev env [] w w
  | cons (t : Obj) (ts : List Obj) (w w1 w2 : World) :
      ev t env w = .ok .null w1 → AllAbsent ev env ts w1 w2 → AllAbsent ev env (t :: ts) w w2

/-- An environment for the examples: `cond` is the builtin, `nil` is bound to
absent and `yes` to itself. -/
def condEnv : Obj :=
  mkFrames 10 [(.Symbol 1 "cond".toList, .Syntax 5 .fcond), (.Symbol 2 "nil".toList, .null),
    (.Symbol 3 "yes".toList, .Symbol 3 "yes".toList)] .null

/-- The form `(cond (nil no) (cond yes))` for the examples. -/
def condForm : Obj :=
  .Pair 50 (.Symbol 1 "cond".toList)
    (mkFrames 30 [(.Symbol 2 "nil".toList, .Symbol 4 "no".toList),
      (.Symbol 1 "cond".toList, .Symbol 3 "yes".toList)] .null)

/-- The world `w1` comes after `w`: its symbol table is well-formed and holds
the entries of `w`, and its allocator has not gone back. -/
def Grows (w w1 : World) : Prop :=
  TableInv w1.brk w1.symbols ∧ (∀ x, InTable x w.symbols → InTable x w1.symbols) ∧
    w.brk ≤ w1.brk

/-- The run keeps the symbol table well-formed and only adds to it. -/
structure Safe {α : Type} (m : Run α) : Prop where
  grows : ∀ (w : World) (a : α) (w1 : World), TableInv w.brk w.symbols → m w = .ok a w1 →
    Grows w w1

/-- The evaluation of argument expressions as `map` makes it: each expression
once, in order, in `env`, a cell allocated after each; the result is the list
of the values. -/
def evalList (ev : Obj → Obj → Run Obj) (env : Obj) : List Obj → Run (List Obj)
  | [] => pure []
  | e :: es => do
    let v ← ev e env
    let _ ← tagalloc
    let vs ← evalList ev env es
    pure (v :: vs)

/-- A world whose symbol table holds `let`, `lambda`, `quote`, `x` and `a`,
with the allocator past the objects of the examples. -/
def letWorld : World :=
  ((((((World.init []).withSymbol "let".toList).withSymbol "lambda".toList).withSymbol
    "quote".toList).withSymbol "x".toList).withSymbol "a".toList).alloc 200

/-- The bindings `((x (quote a)))` for the examples. -/
def letBindings : Obj :=
  .Pair 50 (.Pair 49 (.Symbol 7 ['x']) (.Pair 48 (.Pair 47 (.Symbol 5 "quote".toList)
    (.Pair 46 (.Symbol 9 ['a']) .null)) .null)) .null

/-- The form `(let ((x (quote a))) x)` for the examples. -/
def letForm : Obj :=
  .Pair 53 (.Symbol 1 "let".toList) (.Pair 52 letBindings (.Pair 51 (.Symbol 7 ['x']) .null))

/-- An environment in which `let`, `lambda` and `quote` are the builtins. -/
def letEnv : Obj :=
  mkFrames 20 [(.Symbol 1 "let".toList, .Syntax 11 .flet),
    (.Symbol 3 "lambda".toList, .Syntax 12 .flambda),
    (.Symbol 5 "quote".toList, .Syntax 13 .fquote)] .null

/-- An environment in which `let` and `quote` are the builtins and `lambda`
is bound to the symbol `a`. -/
def letEnvShadowed : Obj :=
  mkFrames 30 [(.Symbol 3 "lambda".toList, .Symbol 9 ['a'])] letEnv
/-- The form `((macro (lambda (x) x)) e)` for an expression `e`. -/
def identityMacroForm (mac lam x e : Obj) : Obj :=
  .Pair 69 (.Pair 68 mac (.Pair 67 (.Pair 66 lam (.Pair 65 (.Pair 64 x .null)
    (.Pair 63 x .null))) .null)) (.Pair 62 e .null)

/-- A world whose symbol table holds `macro`, `lambda`, `quote` and `x`, with
the allocator past the objects of the examples. -/
def macroWorld : World :=
  (((((World.init []).withSymbol "macro".toList).withSymbol "lambda".toList).withSymbol
    "quote".toList).withSymbol "x".toList).alloc 200

/-- An environment in which `macro`, `lambda` and `quote` are the builtins. -/
def macroEnv : Obj :=
  mkFrames 20 [(.Symbol 1 "macro".toList, .Syntax 11 SynFn.fmacro),
    (.Symbol 3 "lambda".toList, .Syntax 12 .flambda),
    (.Symbol 5 "quote".toList, .Syntax 13 .fquote)] .null

/-- A world whose symbol table holds `apply`, `quote`, `cons`, `a` and `b`,
with the allocator past the objects of the examples. -/
def applyWorld : World :=
  ((((((World.init []).withSymbol "apply".toList).withSymbol "quote".toList).withSymbol
    "cons".toList).withSymbol "a".toList).withSymbol "b".toList).alloc 200

/-- An environment in which `apply`, `quote` and `cons` are the builtins. -/
def applyEnv : Obj :=
  mkFrames 20 [(.Symbol 1 "apply".toList, .Syntax 11 .fapply),
    (.Symbol 3 "quote".toList, .Syntax 12 .fquote),
    (.Symbol 5 "cons".toList, .Primitive 13 .fcons)] .null

/-- The expression `(quote a)` for the examples. -/
def quoteA : Obj := .Pair 41 (.Symbol 3 "quote".toList) (.Pair 40 (.Symbol 7 ['a']) .null)

/-- The expression `(quote (b))` for the examples. -/
def quoteListB : Obj :=
  .Pair 44 (.Symbol 3 "quote".toList) (.Pair 43 (.Pair 42 (.Symbol 9 ['b']) .null) .null)

/-- The form `(apply cons (quote a) (quote (b)))` for the examples. -/
def applyForm : Obj :=
  .Pair 49 (.Symbol 1 "apply".toList) (.Pair 48 (.Symbol 5 "cons".toList)
    (.Pair 47 quoteA (.Pair 46 quoteListB .null)))

/-- A character of an atom: neither a space, a newline nor a parenthesis. -/
def isAtomChar (c : Char) : Bool := !is_space c && !is_parens c

/-- The layout of an expression in the input, or of the rest of a list: an
atom; the end of a list, spaces and then `)`; or, inside a list, spaces, an
expression and the rest of the list.  The last two, taken as an expression,
are the list that starts with `(`. -/
inductive Src where
  | atom (name : List Char)
  | close (sp : List Char)
  | item (sp : List Char) (e rest : Src)
deriving DecidableEq, Repr

/-- The characters of the layout; with `asTail` those of the rest of a list,
without the opening parenthesis. -/
def Src.text : Bool → Src → List Char
  | _, .atom name => name
  | asTail, .close sp => (if asTail then [] else ['(']) ++ sp ++ [')']
  | asTail, .item sp e rest =>
    (if asTail then [] else ['(']) ++ sp ++ Src.text false e ++ Src.text true rest

/-- The rest of a list begins, without a space, with an atom. -/
def Src.startsAtom : Src → Bool
  | .item [] (.atom _) _ => true
  | _ => false

/-- A layout the input can have: the atoms are non-empty runs of at most
`SYMBOL_MAX - 1` atom characters, what stands between the elements of a list
is spaces and newlines, and an atom is followed by a space, a newline or a
parenthesis unless it has `SYMBOL_MAX - 1` characters: a longer run of atom
characters is a sequence of atoms of that length and a last one.  With
`asTail` the layout is the rest of a list, else an expression. -/
def Src.wf : Bool → Src → Bool
  | asTail, .atom name =>
    !asTail && !name.isEmpty && decide (name.length ≤ SYMBOL_MAX - 1) && name.all isAtomChar
  | _, .close sp => sp.all is_space
  | _, .item sp e rest =>
    sp.all is_space && Src.wf false e && Src.wf true rest &&
      (match e with
       | .atom name => decide (name.length = SYMBOL_MAX - 1) || !rest.startsAtom
       | _ => true)

/-- The structure of the value the layout denotes: the symbol named by the
atom, absent for the end of a list, a pair for an element and the rest. -/
def Src.value : Src → Obj
  | .atom name => .Symbol 0 (strdup name)
  | .close _ => .null
  | .item _ e rest => .Pair 0 e.value rest.value

/-- The fuel `getlist` needs for the rest of a list, and `getobj` for an
expression. -/
def Src.fuel : Src → Nat
  | .atom _ => 0
  | .close _ => 1
  | .item _ e rest => 1 + max e.fuel rest.fuel

/-- The condition on what follows an expression in the input: after an atom
of fewer than `SYMBOL_MAX - 1` characters, a delimiter or nothing. -/
def Src.endsBefore : Src → List Char → Prop
  | .atom name, s =>
    name.length = SYMBOL_MAX - 1 ∨ ∀ c ∈ s.head?, is_space c = true ∨ is_parens c = true
  | _, _ => True

/-- A value made only of symbols, absent and proper lists. -/
def isSExp : Obj → Bool
  | .null => true
  | .Symbol _ _ => true
  | .Pair _ data next =>
    isSExp data && isSExp next &&
      (match next with
       | .null => true
       | .Pair _ _ _ => true
       | _ => false)
  | _ => false

/-- The layout of `( a (b)` newline `)` for the examples. -/
def exampleSrc : Src :=
  .item [' '] (.atom ['a']) (.item [' '] (.item [] (.atom ['b']) (.close [])) (.close ['\n']))

/-! ## The monad -/

@[simp] theorem run_pure {α : Type} (a : α) (w : World) : (pure a : Run α) w = .ok a w := rfl

@[simp] theorem run_bind {α β : Type} (m : Run α) (f : α → Run β) (w : World) :
    (m >>= f) w = (m w).bind f := rfl

@[simp] theorem Res.bind_ok {α β : Type} (a : α) (w : World) (f : α → World → Res β) :
    (Res.ok a w).bind f = f a w := rfl

@[simp] theorem Res.bind_fail {α β : Type} (e : Fault) (f : α → World → Res β) :
    (Res.fail e : Res α).bind f = .fail e := rfl

@[simp] theorem run_fault {α : Type} (e : Fault) (w : World) : (fault e : Run α) w = .fail e := rfl

/-! ## Strings -/

theorem strncmp_succ (s1 s2 : List Char) (n : Nat) :
    strncmp s1 s2 (n + 1) =
      if deref s1 ≠ deref s2 then ((deref s1).toNat : Int) - (deref s2).toNat
      else if deref s1 = NUL then 0
      else strncmp s1.tail s2.tail n := by
  rw [strncmp]

theorem strdup_nil : strdup [] = [] := rfl

theorem strdup_cons (c : Char) (cs : List Char) :
    strdup (c :: cs) = if c = NUL then [] else c :: strdup cs := by
  unfold strdup
  rw [List.takeWhile_cons]
  by_cases hc : c = NUL <;> simp [hc]

theorem strncmp_strdup (n : Nat) : ∀ s : List Char, strncmp s (strdup s) n = 0 := by
  induction n with
  | zero => intro s; simp [strncmp]
  | succ n ih =>
    intro s
    rw [strncmp_succ]
    cases s with
    | nil => simp [strdup_nil, deref]
    | cons c cs =>
      by_cases hc : c = NUL
      · simp [strdup_cons, deref, hc]
      · simp [strdup_cons, deref, hc, ih cs]

theorem strdup_of_not_mem : ∀ s : List Char, NUL ∉ s → strdup s = s := by
  intro s
  induction s with
  | nil => intro _; rfl
  | cons c cs ih =>
    intro h
    simp only [List.mem_cons, not_or] at h
    have h1 : c ≠ NUL := fun e => h.1 e.symm
    rw [strdup_cons, if_neg h1, ih h.2]

theorem nul_not_mem_strdup (s : List Char) : NUL ∉ strdup s := by
  intro h
  have := List.mem_takeWhile_imp h
  simp at this

theorem char_eq_of_toNat_sub (c d : Char) (h : ((c.toNat : Int) - d.toNat) = 0) : c = d := by
  have h1 : c.toNat = d.toNat := by omega
  rw [← Char.ofNat_toNat c, ← Char.ofNat_toNat d, h1]

theorem deref_eq_nul_of_not_mem (b : List Char) (hb : NUL ∉ b) (h : deref b = NUL) : b = [] := by
  cases b with
  | nil => rfl
  | cons d ds =>
    simp only [deref, List.headD_cons] at h
    simp [h] at hb

/-- On terminator-free strings, the first shorter than the bound, `strncmp`
returns 0 only for equal strings. -/
theorem eq_of_strncmp_eq_zero (n : Nat) : ∀ a b : List Char,
    strncmp a b n = 0 → a.length < n → NUL ∉ a → NUL ∉ b → a = b := by
  induction n with
  | zero => intro a b _ h; omega
  | succ n ih =>
    intro a b h hlen ha hb
    rw [strncmp_succ] at h
    by_cases hd : deref a = deref b
    · cases a with
      | nil =>
        have : deref b = NUL := by rw [← hd]; rfl
        exact (deref_eq_nul_of_not_mem b hb this).symm
      | cons c cs =>
        simp only [List.mem_cons, not_or] at ha
        have hc : c ≠ NUL := fun e => ha.1 e.symm
        cases b with
        | nil => exact absurd hd hc
        | cons d ds =>
          simp only [deref, List.headD_cons] at hd
          subst hd
          simp only [List.mem_cons, not_or] at hb
          simp only [deref, List.headD_cons, ne_eq, not_true_eq_false, if_false, hc,
            List.tail_cons] at h
          have := ih cs ds h (by simpa using hlen) ha.2 hb.2
          rw [this]
    · simp only [ne_eq, hd, not_false_eq_true, if_true] at h
      exact absurd (char_eq_of_toNat_sub _ _ h) hd

/-! ## The symbol table -/

theorem TableInv.mono {b b1 : Nat} (hb : b ≤ b1) : ∀ {t : Obj}, TableInv b t → TableInv b1 t := by
  intro t h
  cases t with
  | Pair p d n =>
    cases d with
    | Symbol a name =>
      simp only [TableInv] at h ⊢
      exact ⟨by omega, h.2⟩
    | _ => simp [TableInv] at h
  | null => simp [TableInv]
  | _ => simp [TableInv] at h

theorem internLoop_eq (sym : List Char) (w : World) :
    ∀ (t : Obj) (b : Nat), TableInv b t → internLoop sym t w = .ok (findEntry sym t) w := by
  intro t
  induction t with
  | Pair p d n _ ih =>
    intro b h
    cases d with
    | Symbol a name =>
      simp only [TableInv] at h
      simp only [internLoop, internStep, findEntry]
      by_cases hc : strncmp sym name SYMBOL_MAX = 0
      · simp [hc]
      · simp only [hc, if_false]
        exact ih a h.2.2
    | _ => simp [TableInv] at h
  | null => intro b _; rfl
  | _ => intro b h; simp [TableInv] at h

theorem intern_eq (sym : List Char) (w : World) (h : TableInv w.brk w.symbols) :
    intern sym w =
      match findEntry sym w.symbols with
      | some entry => .ok entry w
      | none => .ok (.Symbol w.brk (strdup sym)) (w.withSymbol sym) := by
  unfold intern
  rw [internLoop_eq sym w w.symbols w.brk h]
  cases findEntry sym w.symbols with
  | some e => rfl
  | none => rfl

theorem findEntry_inTable (sym : List Char) : ∀ (t : Obj) (e : Obj),
    findEntry sym t = some e → InTable e t ∧ ∃ a name, e = .Symbol a name ∧
      strncmp sym name SYMBOL_MAX = 0 := by
  intro t
  induction t with
  | Pair p d n _ ih =>
    intro e h
    cases d with
    | Symbol a name =>
      simp only [findEntry] at h
      by_cases hc : strncmp sym name SYMBOL_MAX = 0
      · simp only [hc, if_true, Option.some.injEq] at h
        subst h
        exact ⟨Or.inl rfl, a, name, rfl, hc⟩
      · simp only [hc, if_false] at h
        have := ih e h
        exact ⟨Or.inr this.1, this.2⟩
    | _ => simp [findEntry] at h
  | _ => intro e h; simp [findEntry] at h

theorem inTable_symbol : ∀ (t : Obj) (b : Nat) (x : Obj), TableInv b t → InTable x t →
    ∃ a name, x = .Symbol a name ∧ a < b ∧ NUL ∉ name := by
  intro t
  induction t with
  | Pair p d n _ ih =>
    intro b x h hx
    cases d with
    | Symbol a name =>
      simp only [TableInv] at h
      rcases hx with hx | hx
      · exact ⟨a, name, hx, h.1, h.2.1⟩
      · obtain ⟨a1, n1, h1, h2, h3⟩ := ih a x h.2.2 hx
        exact ⟨a1, n1, h1, by omega, h3⟩
    | _ => simp [TableInv] at h
  | _ => intro b x _ hx; simp [InTable] at hx

/-- No two entries of a well-formed table have the same address. -/
theorem inTable_unique : ∀ (t : Obj) (b : Nat) (x y : Obj), TableInv b t → InTable x t →
    InTable y t → x.ptr = y.ptr → x = y := by
  intro t
  induction t with
  | Pair p d n _ ih =>
    intro b x y h hx hy hp
    cases d with
    | Symbol a name =>
      simp only [TableInv] at h
      rcases hx with hx | hx <;> rcases hy with hy | hy
      · rw [hx, hy]
      · obtain ⟨a1, n1, h1, h2, _⟩ := inTable_symbol n a y h.2.2 hy
        subst hx h1
        simp only [Obj.ptr, Option.some.injEq] at hp
        omega
      · obtain ⟨a1, n1, h1, h2, _⟩ := inTable_symbol n a x h.2.2 hx
        subst hy h1
        simp only [Obj.ptr, Option.some.injEq] at hp
        omega
      · exact ih a x y h.2.2 hx hy hp
    | _ => simp [TableInv] at h
  | _ => intro b x y _ hx; simp [InTable] at hx

theorem tableInv_withSymbol (sym : List Char) (w : World) (h : TableInv w.brk w.symbols) :
    TableInv (w.withSymbol sym).brk (w.withSymbol sym).symbols := by
  simp only [World.withSymbol, TableInv]
  exact ⟨by omega, nul_not_mem_strdup sym, h⟩

theorem intern_preserves (sym : List Char) (w : World) (o : Obj) (w1 : World)
    (h : TableInv w.brk w.symbols) (hi : intern sym w = .ok o w1) :
    TableInv w1.brk w1.symbols := by
  rw [intern_eq sym w h] at hi
  cases hf : findEntry sym w.symbols with
  | some e =>
    simp only [hf, Res.ok.injEq] at hi
    rw [← hi.2]; exact h
  | none =>
    simp only [hf, Res.ok.injEq] at hi
    rw [← hi.2]; exact tableInv_withSymbol sym w h

theorem Reachable.tableInv {w : World} (h : Reachable w) : TableInv w.brk w.symbols := by
  induction h with
  | start w h0 => rw [h0]; simp [TableInv]
  | intern w sym o w1 _ hi ih => exact intern_preserves sym w o w1 ih hi
  | other w w1 _ hs hb ih => rw [hs]; exact TableInv.mono hb ih

theorem findEntry_withSymbol (sym : List Char) (w : World) :
    findEntry sym (w.withSymbol sym).symbols = some (.Symbol w.brk (strdup sym)) := by
  simp [World.withSymbol, findEntry, strncmp_strdup]

/-- On a well-formed table `intern` returns, and a second call returns the
same object and changes nothing. -/
theorem intern_twice (sym : List Char) (w : World) (h : TableInv w.brk w.symbols) :
    ∃ o w1, intern sym w = .ok o w1 ∧ intern sym w1 = .ok o w1 ∧
      TableInv w1.brk w1.symbols ∧ InTable o w1.symbols ∧
      (∀ x, InTable x w.symbols → InTable x w1.symbols) ∧
      ∃ a name, o = .Symbol a name ∧ strncmp sym name SYMBOL_MAX = 0 := by
  cases hf : findEntry sym w.symbols with
  | some e =>
    have h1 : intern sym w = .ok e w := by rw [intern_eq sym w h, hf]
    exact ⟨e, w, h1, h1, h, (findEntry_inTable sym _ e hf).1, fun _ hx => hx,
      (findEntry_inTable sym _ e hf).2⟩
  | none =>
    have h1 : intern sym w = .ok (.Symbol w.brk (strdup sym)) (w.withSymbol sym) := by
      rw [intern_eq sym w h, hf]
    have h2 := tableInv_withSymbol sym w h
    refine ⟨_, _, h1, ?_, h2, Or.inl rfl, fun _ hx => Or.inr hx, w.brk, strdup sym, rfl,
      strncmp_strdup _ _⟩
    rw [intern_eq sym _ h2, findEntry_withSymbol]

/-- C1. `intern` is idempotent and reference-stable: in every state of the
symbol table the program can reach, and for a name of any length, `intern`
returns, and a second call returns the same object and leaves the world, the
symbol table included, as the first call left it. -/
theorem intern_idempotent (w : World) (h : Reachable w) (s : List Char) :
    ∃ o w1, intern s w = .ok o w1 ∧ intern s w1 = .ok o w1 := by
  obtain ⟨o, w1, h1, h2, _⟩ := intern_twice s w h.tableInv
  exact ⟨o, w1, h1, h2⟩

/-- C1 at a name of 40 characters, in the table after `intern("lambda")`. -/
theorem intern_idempotent_witness :
    Reachable ((World.init []).withSymbol "lambda".toList) ∧
    ∃ o w1,
      intern (List.replicate 40 'x') ((World.init []).withSymbol "lambda".toList) = .ok o w1 ∧
      intern (List.replicate 40 'x') w1 = .ok o w1 :=
  ⟨Reachable.intern (World.init []) "lambda".toList (.Symbol 1 "lambda".toList) _
      (Reachable.start _ rfl) (by decide!),
   intern_idempotent _
    (Reachable.intern (World.init []) "lambda".toList (.Symbol 1 "lambda".toList) _
      (Reachable.start _ rfl) (by decide!)) _⟩

/-- On a well-formed table, `intern` of a terminator-free name shorter than
`SYMBOL_MAX` returns a symbol with exactly that name. -/
theorem intern_exact (s : List Char) (w : World) (h : TableInv w.brk w.symbols)
    (hlen : s.length < SYMBOL_MAX) (h0 : NUL ∉ s) :
    ∃ p w1, intern s w = .ok (.Symbol p s) w1 ∧ intern s w1 = .ok (.Symbol p s) w1 ∧
      TableInv w1.brk w1.symbols ∧ InTable (.Symbol p s) w1.symbols ∧
      (∀ x, InTable x w.symbols → InTable x w1.symbols) ∧
      (InTable (.Symbol p s) w.symbols ∨ p = w.brk) := by
  obtain ⟨o, w1, h1, h2, h3, h4, h5, a, name, rfl, hc⟩ := intern_twice s w h
  obtain ⟨a1, n1, e, _, hn⟩ := inTable_symbol _ _ _ h3 h4
  simp only [Obj.Symbol.injEq] at e
  obtain ⟨rfl, rfl⟩ := e
  have := eq_of_strncmp_eq_zero SYMBOL_MAX s name hc hlen h0 hn
  subst this
  refine ⟨a, w1, h1, h2, h3, h4, h5, ?_⟩
  rw [intern_eq s w h] at h1
  cases hf : findEntry s w.symbols with
  | some e =>
    simp only [hf, Res.ok.injEq] at h1
    left; rw [← h1.1]; exact (findEntry_inTable s _ e hf).1
  | none =>
    simp only [hf, Res.ok.injEq, Obj.Symbol.injEq] at h1
    right; exact h1.1.1.symm

theorem cons_run (x y : Obj) (w : World) :
    cons x y w = .ok (.Pair w.brk x y) { w with brk := w.brk + 1 } := rfl

/-- On a well-formed table `e_true` returns the canonical true. -/
theorem e_true_run (w : World) (h : TableInv w.brk w.symbols) :
    ∃ r w1, e_true w = .ok r w1 ∧ IsCanonicalTrue r ∧ TableInv w1.brk w1.symbols := by
  obtain ⟨q, w1, hq, _, hw1, _⟩ := intern_exact "quote".toList w h (by decide) (by decide)
  obtain ⟨t, w2, ht, _, hw2, _⟩ := intern_exact "t".toList w1 hw1 (by decide) (by decide)
  have he : e_true w = .ok (.Pair (w2.brk + 1) (.Symbol q "quote".toList)
      (.Pair w2.brk (.Symbol t "t".toList) .null)) { w2 with brk := w2.brk + 1 + 1 } := by
    simp only [e_true, run_bind, hq, Res.bind_ok, ht, cons_run]
  exact ⟨_, _, he, ⟨_, _, q, t, rfl⟩, TableInv.mono (by simp only; omega) hw2⟩

/-- C2. Symbol identity is name equality within the bound: in every reachable
state of the symbol table, for names `a` and `b` of at most 31 characters,
`intern(a)` and then `intern(b)` return symbols named `a` and `b` that are the
same object (equal as pointers) exactly when `a = b`; and `eq?` applied to the
two returns the canonical true `(quote t)` when `a = b` and absent when not. -/
theorem symbol_identity_is_name_equality (w : World) (h : Reachable w) (a b : List Char)
    (ha : a.length ≤ 31) (hb : b.length ≤ 31) (ha0 : NUL ∉ a) (hb0 : NUL ∉ b) :
    ∃ pa w1 pb w2, intern a w = .ok (.Symbol pa a) w1 ∧ intern b w1 = .ok (.Symbol pb b) w2 ∧
      (ptrEq (.Symbol pa a) (.Symbol pb b) = true ↔ a = b) ∧
      ∀ c1 c2, ∃ r w3,
        feq (.Pair c1 (.Symbol pa a) (.Pair c2 (.Symbol pb b) .null)) w2 = .ok r w3 ∧
        (a = b → IsCanonicalTrue r) ∧ (a ≠ b → r = .null) := by
  obtain ⟨pa, w1, ha1, ha2, hw1, hin1, _, _⟩ :=
    intern_exact a w h.tableInv (by simp only [SYMBOL_MAX]; omega) ha0
  obtain ⟨pb, w2, hb1, _, hw2, hin2, hsub, _⟩ :=
    intern_exact b w1 hw1 (by simp only [SYMBOL_MAX]; omega) hb0
  have key : ptrEq (.Symbol pa a) (.Symbol pb b) = true ↔ a = b := by
    constructor
    · intro hp
      have hp1 : (Obj.Symbol pa a).ptr = (Obj.Symbol pb b).ptr := by
        simpa [ptrEq] using hp
      have := inTable_unique _ _ _ _ hw2 (hsub _ hin1) hin2 hp1
      simp only [Obj.Symbol.injEq] at this
      exact this.2
    · intro e
      subst e
      rw [ha2] at hb1
      simp only [Res.ok.injEq, Obj.Symbol.injEq] at hb1
      simp [ptrEq, Obj.ptr, hb1.1.1]
  refine ⟨pa, w1, pb, w2, ha1, hb1, key, ?_⟩
  intro c1 c2
  by_cases e : a = b
  · obtain ⟨r, w3, hr, ht, _⟩ := e_true_run w2 hw2
    refine ⟨r, w3, ?_, fun _ => ht, fun ne => absurd e ne⟩
    simp only [feq, run_bind, car, cdr, run_pure, Res.bind_ok, key.2 e, if_true, hr]
  · have hne : ptrEq (.Symbol pa a) (.Symbol pb b) = false := by
      cases hp : ptrEq (.Symbol pa a) (.Symbol pb b) with
      | true => exact absurd (key.1 hp) e
      | false => rfl
    refine ⟨.null, w2, ?_, fun e1 => absurd e1 e, fun _ => rfl⟩
    simp only [feq, run_bind, car, cdr, run_pure, Res.bind_ok, hne, e_false]
    rfl

/-- C2 at the names `a` and `b`, in the initial state. -/
theorem symbol_identity_is_name_equality_witness :
    Reachable (World.init []) ∧ ['a'].length ≤ 31 ∧ ['b'].length ≤ 31 ∧ NUL ∉ ['a'] ∧
    NUL ∉ ['b'] ∧
    ∃ pa w1 pb w2, intern ['a'] (World.init []) = .ok (.Symbol pa ['a']) w1 ∧
      intern ['b'] w1 = .ok (.Symbol pb ['b']) w2 ∧
      (ptrEq (.Symbol pa ['a']) (.Symbol pb ['b']) = true ↔ ['a'] = ['b']) ∧
      ∀ c1 c2, ∃ r w3,
        feq (.Pair c1 (.Symbol pa ['a']) (.Pair c2 (.Symbol pb ['b']) .null)) w2 = .ok r w3 ∧
        (['a'] = ['b'] → IsCanonicalTrue r) ∧ (['a'] ≠ ['b'] → r = .null) :=
  ⟨Reachable.start _ rfl, by decide, by decide, by decide, by decide,
   symbol_identity_is_name_equality _ (Reachable.start _ rfl) ['a'] ['b']
    (by decide) (by decide) (by decide) (by decide)⟩

/-! ## The printer -/

theorem printf_run (s : List Char) (w : World) : printf s w = .ok () (w.emit (strdup s)) := rfl

theorem World.emit_emit (w : World) (s t : List Char) : (w.emit s).emit t = w.emit (s ++ t) := by
  simp [World.emit, List.append_assoc]

theorem World.emit_nil (w : World) : w.emit [] = w := by
  simp [World.emit]

theorem intercalate_two (sep x y : List Char) (ys : List (List Char)) :
    sep.intercalate (x :: y :: ys) = x ++ sep ++ sep.intercalate (y :: ys) := by
  simp [List.intercalate]

theorem intercalate_one (sep x : List Char) : sep.intercalate [x] = x := by
  simp [List.intercalate]

theorem strdup_name {name : List Char} (h : (!name.contains NUL) = true) : strdup name = name := by
  apply strdup_of_not_mem
  simpa using h

theorem strdup_lit_open : strdup "(".toList = "(".toList := by decide

theorem strdup_lit_close : strdup ")".toList = ")".toList := by decide

theorem strdup_lit_space : strdup " ".toList = " ".toList := by decide

theorem strdup_lit_dot : strdup " . ".toList = " . ".toList := by decide

theorem strdup_lit_null : strdup "null".toList = "null".toList := by decide

theorem renderAs_true (v : Obj) : renderAs true v = render v := by
  cases v <;> simp [renderAs, render]

/-- On data values `print_obj` prints the rendering, for either value of
`head_of_list`, and does nothing else. -/
theorem print_obj_run (v : Obj) : isData v = true → ∀ (h : Bool) (w : World),
    print_obj v h w = .ok () (w.emit (renderAs h v)) := by
  induction v with
  | null =>
    intro _ h w
    simp only [print_obj, printf_run, renderAs, render, strdup_lit_null]
  | Symbol a name =>
    intro hv h w
    simp only [isData] at hv
    simp only [print_obj, printf_run, renderAs, render, strdup_name hv]
  | Pair p d n ihd ihn =>
    intro hv h w
    simp only [isData, Bool.and_eq_true] at hv
    have hd : ∀ w : World, print_obj d true w = .ok () (w.emit (render d)) := fun w => by
      rw [ihd hv.1 true w, renderAs_true]
    cases n with
    | null =>
      rw [print_obj.eq_3]
      cases h <;>
      simp only [run_bind, Res.bind_ok, hd, printf_run, World.emit_emit, run_pure,
        renderAs, renderElems, renderEnd, intercalate_one, if_true, if_false,
        Bool.false_eq_true, strdup_lit_open, strdup_lit_close, List.nil_append,
        List.append_assoc, World.emit_nil]
    | Pair q d2 n2 =>
      have hn := ihn hv.2 false
      rw [print_obj.eq_4]
      cases h <;>
      simp only [run_bind, Res.bind_ok, hd, hn, printf_run, World.emit_emit, run_pure,
        renderAs, renderElems, renderEnd, intercalate_two, if_true, if_false,
        Bool.false_eq_true, strdup_lit_open, strdup_lit_space, List.nil_append,
        List.append_assoc, World.emit_nil]
    | Symbol a name =>
      have hname := hv.2
      simp only [isData] at hname
      rw [print_obj.eq_5 _ _ _ _ (by intro e; cases e) (by intro _ _ _ e; cases e)]
      cases h <;>
      simp only [run_bind, Res.bind_ok, hd, print_obj.eq_2, printf_run, World.emit_emit,
        run_pure, renderAs, renderElems, renderEnd, intercalate_one, render, if_true,
        if_false, Bool.false_eq_true, strdup_lit_open, strdup_lit_close, strdup_lit_dot,
        strdup_name hname, List.nil_append, List.append_assoc, World.emit_nil]
    | _ => simp [isData] at hv
  | _ => intro hv; simp [isData] at hv

/-- C4. `print_obj` equals the reference renderer on data values: it prints
`render v` (absent as `null`, a symbol as its name, a chain of pairs as its
elements between parentheses separated by spaces, with ` . ` and the terminal
rest before the closing parenthesis when that is a symbol) and changes nothing
else; and the program prints the value of `(cons (quote a) (quote b))` as
`(a . b)`. -/
theorem print_obj_eq_render (v : Obj) (hv : isData v = true) (w : World) :
    print_obj v true w = .ok () { w with stdout := w.stdout ++ render v } ∧
    output 20 "(cons (quote a) (quote b))" = some "(a . b)\n" := by
  refine ⟨?_, by decide!⟩
  rw [print_obj_run v hv true w]
  cases v <;> simp [renderAs, render, World.emit]

/-- C4 at the list `(a (b) c . d)`. -/
theorem print_obj_eq_render_witness :
    render (.Pair 9 (.Symbol 1 ['a']) (.Pair 8 (.Pair 7 (.Symbol 2 ['b']) .null)
        (.Pair 6 (.Symbol 3 ['c']) (.Symbol 4 ['d'])))) = "(a (b) c . d)".toList ∧
    print_obj (.Pair 9 (.Symbol 1 ['a']) (.Pair 8 (.Pair 7 (.Symbol 2 ['b']) .null)
        (.Pair 6 (.Symbol 3 ['c']) (.Symbol 4 ['d'])))) true (World.init []) =
      .ok () { (World.init []) with stdout := ((World.init []).stdout ++
        render (.Pair 9 (.Symbol 1 ['a']) (.Pair 8 (.Pair 7 (.Symbol 2 ['b']) .null)
          (.Pair 6 (.Symbol 3 ['c']) (.Symbol 4 ['d']))))) } :=
  ⟨by simp only [render, renderElems, renderEnd, intercalate_two, intercalate_one]; decide,
   (print_obj_eq_render _ (by simp [isData, NUL]) (World.init [])).1⟩

/-! ## The reader -/

theorem skipSpaces_spec : ∀ (sp s : List Char), (∀ x ∈ sp, is_space x = true) →
    (∀ c ∈ s.head?, is_space c = false) →
    skipSpaces (sp ++ s).head? (sp ++ s).tail = (s.head?, s.tail) := by
  intro sp
  induction sp with
  | nil =>
    intro s _ hs
    cases s with
    | nil => rfl
    | cons c cs =>
      have hc : is_space c = false := hs c (by simp)
      cases cs <;> simp [skipSpaces, hc]
  | cons x sp ih =>
    intro s hsp hs
    have hx : is_space x = true := hsp x (by simp)
    have ih1 := ih s (fun y hy => hsp y (by simp [hy])) hs
    cases h : sp ++ s with
    | nil =>
      simp only [List.append_eq_nil] at h
      simp [h.1, h.2, skipSpaces, hx]
    | cons d ds =>
      rw [h] at ih1
      simp only [List.cons_append, List.head?_cons, List.tail_cons, h]
      simp only [List.head?_cons, List.tail_cons] at ih1
      simp [skipSpaces, hx, ih1]

theorem tokenLoop_spec : ∀ (name : List Char) (index : Nat) (s : List Char),
    (∀ c ∈ name, is_space c = false ∧ is_parens c = false) →
    index + name.length ≤ SYMBOL_MAX - 1 →
    (∀ c ∈ s.head?, is_space c = true ∨ is_parens c = true) →
    tokenLoop index (name ++ s).head? (name ++ s).tail = (name, s.head?, s.tail) := by
  intro name
  induction name with
  | nil =>
    intro index s _ _ hs
    cases s with
    | nil => rfl
    | cons c cs =>
      have hc := hs c (by simp)
      cases cs <;> rcases hc with hc | hc <;> simp [tokenLoop, hc]
  | cons x name ih =>
    intro index s hn hlen hs
    have hx := hn x (by simp)
    have hi : index < SYMBOL_MAX - 1 := by simp only [List.length_cons] at hlen; omega
    have ih1 := ih (index + 1) s (fun y hy => hn y (by simp [hy]))
      (by simp only [List.length_cons] at hlen; omega) hs
    cases h : name ++ s with
    | nil =>
      simp only [List.append_eq_nil] at h
      simp [h.1, h.2, tokenLoop, hx, hi]
    | cons d ds =>
      rw [h] at ih1
      simp only [List.cons_append, List.head?_cons, List.tail_cons, h]
      simp only [List.head?_cons, List.tail_cons] at ih1
      simp [tokenLoop, hx, hi, ih1]

theorem not_space_of_parens {c : Char} (h : is_parens c = true) : is_space c = false := by
  simp only [is_parens, Bool.or_eq_true, beq_iff_eq] at h
  rcases h with h | h <;> subst h <;> decide

theorem validName_spec {name : List Char} (h : validName name = true) :
    name ≠ [] ∧ name.length ≤ SYMBOL_MAX - 1 ∧
      ∀ c ∈ name, is_space c = false ∧ is_parens c = false ∧ c ≠ NUL := by
  simp only [validName, Bool.and_eq_true, Bool.not_eq_true', List.isEmpty_eq_false,
    decide_eq_true_eq, List.all_eq_true] at h
  refine ⟨h.1.1, h.1.2, fun c hc => ?_⟩
  have := h.2 c hc
  simp only [Bool.and_eq_true, Bool.not_eq_true', decide_eq_true_eq] at this
  exact ⟨this.1.1, this.1.2, this.2⟩

/-- `gettoken` before a parenthesis, after any spaces: the token is the
parenthesis, and one character of lookahead is read. -/
theorem gettoken_paren (w : World) (sp : List Char) (c : Char) (s : List Char)
    (hsp : ∀ x ∈ sp, is_space x = true) (hc : is_parens c = true)
    (h : AtStream w (sp ++ c :: s)) :
    gettoken w = .ok () { w with token := [c], look := s.head?, stdin := s.tail } := by
  have hsk := skipSpaces_spec sp (c :: s) hsp
    (by intro d hd; simp only [List.head?_cons, Option.mem_def, Option.some.injEq] at hd
        subst hd; exact not_space_of_parens hc)
  unfold gettoken
  rw [h.1, h.2, hsk]
  simp only [List.head?_cons, toChar, hc, if_true, List.tail_cons]
  cases s <;> rfl

/-- `gettoken` before an atom, after any spaces: the token is the name, and
the reader stands at the delimiter that follows it. -/
theorem gettoken_atom (w : World) (sp name s : List Char)
    (hsp : ∀ x ∈ sp, is_space x = true) (hn : validName name = true)
    (hs : ∀ c ∈ s.head?, is_space c = true ∨ is_parens c = true)
    (h : AtStream w (sp ++ name ++ s)) :
    gettoken w = .ok () { w with token := name, look := s.head?, stdin := s.tail } := by
  obtain ⟨hne, hlen, hch⟩ := validName_spec hn
  obtain ⟨x, xs, rfl⟩ := List.exists_cons_of_ne_nil hne
  have hx := hch x (by simp)
  have hsk := skipSpaces_spec sp (x :: xs ++ s) hsp
    (by intro d hd; simp only [List.cons_append, List.head?_cons, Option.mem_def,
          Option.some.injEq] at hd
        subst hd; exact hx.1)
  have htl := tokenLoop_spec (x :: xs) 0 s (fun c hc => ⟨(hch c hc).1, (hch c hc).2.1⟩)
    (by omega) hs
  unfold gettoken
  rw [List.append_assoc] at h
  rw [h.1, h.2, hsk]
  simp only [List.cons_append, List.head?_cons, toChar, hx.2.1, Bool.false_eq_true, if_false,
    List.tail_cons]
  simp only [List.cons_append, List.head?_cons, List.tail_cons] at htl
  rw [htl]

theorem tailText_eq (n : Obj) :
    ∃ sp : List Char, (∀ x ∈ sp, is_space x = true) ∧ tailText n = sp ++ elemsText n := by
  cases n with
  | Pair p d n => exact ⟨[' '], by simp [is_space], by simp [tailText, elemsText]⟩
  | _ => exact ⟨[], by simp, by simp [tailText, elemsText]⟩

theorem tailText_head (n : Obj) (s : List Char) :
    ∀ c ∈ (tailText n ++ s).head?, is_space c = true ∨ is_parens c = true := by
  cases n <;> simp [tailText, is_space, is_parens]

theorem intercalate_tailText : ∀ (n : Obj), readable true n = true → ∀ x : List Char,
    " ".toList.intercalate (x :: renderElems n) ++ renderEnd n = x ++ tailText n := by
  intro n
  induction n with
  | null => intro _ x; simp [renderElems, renderEnd, tailText, intercalate_one]
  | Pair p d n _ ihn =>
    intro h x
    simp only [readable, Bool.and_eq_true] at h
    rw [renderElems, renderEnd, intercalate_two, List.append_assoc, ihn h.2, tailText]
    simp
  | _ => intro h; simp [readable] at h

theorem render_pair (p : Nat) (d n : Obj) (h : readable true n = true) :
    render (.Pair p d n) = '(' :: (render d ++ tailText n) := by
  rw [render, List.append_assoc, intercalate_tailText n h]
  rfl

theorem intern_io (s : List Char) (w : World) (o : Obj) (w1 : World)
    (h : TableInv w.brk w.symbols) (hi : intern s w = .ok o w1) :
    w1.look = w.look ∧ w1.token = w.token ∧ w1.stdin = w.stdin ∧ w1.stdout = w.stdout := by
  rw [intern_eq s w h] at hi
  cases hf : findEntry s w.symbols with
  | some e =>
    simp only [hf, Res.ok.injEq] at hi
    rw [← hi.2]; exact ⟨rfl, rfl, rfl, rfl⟩
  | none =>
    simp only [hf, Res.ok.injEq] at hi
    rw [← hi.2]; exact ⟨rfl, rfl, rfl, rfl⟩

theorem interned_mono {t t1 : Obj} (ht : ∀ x, InTable x t → InTable x t1) :
    ∀ v : Obj, Interned t v → Interned t1 v := by
  intro v
  induction v with
  | null => intro _; trivial
  | Symbol a name => intro h; exact ht _ h
  | Pair p d n ihd ihn => intro h; exact ⟨ihd h.1, ihn h.2⟩
  | _ => intro h; exact h.elim


theorem getlist_succ (fuel : Nat) (w : World) :
    getlist (fuel + 1) w =
      (gettoken w).bind fun _ w =>
        if deref w.token = ')' then .ok .null w
        else
          (getobjWith (getlist fuel) w).bind fun tmp w =>
            (getlist fuel w).bind fun rest w =>
              cons tmp rest w := rfl

/-- `getlist` reads the rest of a list: standing, after any spaces, before
the text of the remaining elements and the closing parenthesis, it returns the
list of these elements, all symbols interned, and stands after the
parenthesis. -/
theorem getlist_spec (c : Obj) : readable true c = true → ∀ (fuel : Nat), readFuel c ≤ fuel →
    ∀ (w : World) (sp s : List Char), TableInv w.brk w.symbols →
    (∀ x ∈ sp, is_space x = true) → AtStream w (sp ++ elemsText c ++ s) →
    ∃ c1 w1, getlist fuel w = .ok c1 w1 ∧ c1.erase = c.erase ∧
      TableInv w1.brk w1.symbols ∧ AtStream w1 s ∧ w1.stdout = w.stdout ∧
      Interned w1.symbols c1 ∧ (∀ x, InTable x w.symbols → InTable x w1.symbols) := by
  induction c with
  | null =>
    intro _ fuel hf w sp s hw hsp hst
    obtain ⟨k, rfl⟩ : ∃ k, fuel = k + 1 := ⟨fuel - 1, by simp only [readFuel] at hf; omega⟩
    have hg := gettoken_paren w sp ')' s hsp (by decide) (by simpa [elemsText] using hst)
    refine ⟨.null, { w with token := [')'], look := s.head?, stdin := s.tail }, ?_, rfl, hw,
      ⟨rfl, rfl⟩, rfl, trivial, fun _ hx => hx⟩
    rw [getlist_succ, hg]
    simp [deref]
  | Pair p d n ihd ihn =>
    intro hr fuel hf w sp s hw hsp hst
    simp only [readable, Bool.and_eq_true] at hr
    obtain ⟨k, rfl⟩ : ∃ k, fuel = k + 1 := ⟨fuel - 1, by simp only [readFuel] at hf; omega⟩
    have hkd : readFuel d ≤ k := by simp only [readFuel] at hf; omega
    have hkn : readFuel n ≤ k := by simp only [readFuel] at hf; omega
    obtain ⟨sp1, hsp1, htl⟩ := tailText_eq n
    cases d with
    | Symbol a name =>
      have hv : validName name = true := by simpa [readable] using hr.1
      obtain ⟨hne, hlen, hch⟩ := validName_spec hv
      obtain ⟨x, xs, hxs⟩ := List.exists_cons_of_ne_nil hne
      have hx := hch x (by simp [hxs])
      have hg := gettoken_atom w sp name (tailText n ++ s) hsp hv (tailText_head n s)
        (by simpa [elemsText, render, List.append_assoc] using hst)
      obtain ⟨q, w1, hi, _, hw1, hin1, _, _⟩ := intern_exact name
        { w with token := name, look := (tailText n ++ s).head?, stdin := (tailText n ++ s).tail }
        hw (by simp only [SYMBOL_MAX] at hlen ⊢; omega) (fun h0 => (hch _ h0).2.2 rfl)
      have hio := intern_io name
        { w with token := name, look := (tailText n ++ s).head?, stdin := (tailText n ++ s).tail }
        _ _ hw hi
      have hsub1 := (intern_twice name
        { w with token := name, look := (tailText n ++ s).head?, stdin := (tailText n ++ s).tail }
        hw)
      obtain ⟨n1, w2, hn1, he, hw2, hst2, hout2, hint2, hsub2⟩ := ihn hr.2 k hkn w1 sp1 s hw1 hsp1
        (by rw [← htl]; exact ⟨hio.1, hio.2.2.1⟩)
      refine ⟨.Pair w2.brk (.Symbol q name) n1, { w2 with brk := w2.brk + 1 }, ?_, ?_,
        TableInv.mono (by simp) hw2, hst2, ?_, ⟨hsub2 _ hin1, hint2⟩, ?_⟩
      · rw [getlist_succ, hg]
        have hd1 : deref name ≠ ')' := by
          rw [hxs]; intro e; simp only [deref, List.headD_cons] at e
          rw [e] at hx; simp [is_parens] at hx
        have hd2 : deref name ≠ '(' := by
          rw [hxs]; intro e; simp only [deref, List.headD_cons] at e
          rw [e] at hx; simp [is_parens] at hx
        simp only [Res.bind_ok, hd1, if_false, getobjWith, hd2, hi, hn1, cons_run]
      · simp only [Obj.erase, he]
      · simp only [hout2, hio.2.2.2]
      · intro y hy
        obtain ⟨o, w1b, h1, _, _, _, hsubb, _⟩ := hsub1
        rw [hi] at h1
        simp only [Res.ok.injEq] at h1
        rw [← h1.2] at hsubb
        exact hsub2 _ (hsubb _ hy)
    | Pair p1 d1 n3 =>
      have hrd : readable true (.Pair p1 d1 n3) = true := by
        simpa [readable] using hr.1
      have hrn3 : readable true n3 = true := by
        simp only [readable, Bool.and_eq_true] at hrd; exact hrd.2
      have hg := gettoken_paren w sp '(' (elemsText (.Pair p1 d1 n3) ++ tailText n ++ s) hsp
        (by decide) (by simpa [elemsText, render_pair _ _ _ hrn3, List.append_assoc] using hst)
      obtain ⟨c1, w1, hc1, he1, hw1, hst1, hout1, hint1, hsub1⟩ := ihd hrd k hkd
        { w with token := ['('],
                 look := (elemsText (.Pair p1 d1 n3) ++ tailText n ++ s).head?,
                 stdin := (elemsText (.Pair p1 d1 n3) ++ tailText n ++ s).tail }
        [] (tailText n ++ s) hw (by simp)
        (by simp only [List.nil_append, List.append_assoc]; exact ⟨rfl, rfl⟩)
      obtain ⟨n1, w2, hn1, he, hw2, hst2, hout2, hint2, hsub2⟩ := ihn hr.2 k hkn w1 sp1 s hw1 hsp1
        (by rw [← htl]; exact hst1)
      refine ⟨.Pair w2.brk c1 n1, { w2 with brk := w2.brk + 1 }, ?_, ?_,
        TableInv.mono (by simp) hw2, hst2, ?_, ⟨interned_mono hsub2 _ hint1, hint2⟩, ?_⟩
      · rw [getlist_succ, hg]
        simp only [Res.bind_ok, deref, List.headD_cons, getobjWith, if_true, hc1, hn1, cons_run]
        simp
      · simp only [Obj.erase, he, he1]
      · simp only [hout2, hout1]
      · intro y hy
        exact hsub2 _ (hsub1 _ hy)
    | _ => simp [readable] at hr
  | _ => intro h; simp [readable] at h

theorem render_erase (v : Obj) : render v.erase = render v ∧
    renderElems v.erase = renderElems v ∧ renderEnd v.erase = renderEnd v := by
  induction v with
  | Pair p d n ihd ihn =>
    simp only [Obj.erase, render, renderElems, renderEnd, ihd.1, ihn.2.1, ihn.2.2, and_self]
  | _ => simp [Obj.erase, render, renderElems, renderEnd]

theorem isData_erase (v : Obj) : isData v.erase = isData v := by
  induction v with
  | Pair p d n ihd ihn => simp only [Obj.erase, isData, ihd, ihn]
  | _ => simp [Obj.erase, isData]

theorem isData_of_readable (v : Obj) : ∀ b : Bool, readable b v = true → isData v = true := by
  induction v with
  | null => intro _ _; rfl
  | Symbol a name =>
    intro b h
    simp only [readable, Bool.and_eq_true] at h
    have := (validName_spec h.2).2.2
    simp only [isData, Bool.not_eq_true', List.contains_eq_any_beq, List.any_eq_false,
      beq_iff_eq]
    intro x hx e
    exact (this x hx).2.2 e.symm
  | Pair p d n ihd ihn =>
    intro b h
    simp only [readable, Bool.and_eq_true] at h
    simp only [isData, Bool.and_eq_true]
    exact ⟨ihd _ h.1, ihn _ h.2⟩
  | _ => intro b h; simp [readable] at h

/-- C3. Reader/printer round trip: for a value `v` built from symbols with
valid names and non-empty proper lists, when the input holds the canonical
rendering of `v`, followed by nothing or by a delimiter, then reading with
`getchar`, `gettoken`, `getobj` (with the fuel the depth of `v` needs) returns
a value with the structure of `v` whose symbols are entries of the symbol
table, consumes the text and one character of lookahead, prints nothing, and
`print_obj` of the value read prints exactly the text. -/
theorem read_print_roundtrip (v : Obj) (hv : readable false v = true) (w : World)
    (hw : Reachable w) (rest : List Char)
    (hrest : ∀ c ∈ rest.head?, is_space c = true ∨ is_parens c = true)
    (hin : w.stdin = render v ++ rest) (fuel : Nat) (hf : readFuel v ≤ fuel) (a : Obj) :
    ∃ v1 w1, freadobj fuel a w = .ok v1 w1 ∧ v1.erase = v.erase ∧ Interned w1.symbols v1 ∧
      AtStream w1 rest ∧ w1.stdout = w.stdout ∧
      print_obj v1 true w1 = .ok () { w1 with stdout := w1.stdout ++ render v } := by
  have hT := hw.tableInv
  have key : ∃ v1 w1, freadobj fuel a w = .ok v1 w1 ∧ v1.erase = v.erase ∧
      Interned w1.symbols v1 ∧ AtStream w1 rest ∧ w1.stdout = w.stdout := by
    cases v with
    | Symbol p name =>
      have hn : validName name = true := by simpa [readable] using hv
      obtain ⟨hne, hlen, hch⟩ := validName_spec hn
      obtain ⟨x, xs, hxs⟩ := List.exists_cons_of_ne_nil hne
      have hx := hch x (by simp [hxs])
      have hg := gettoken_atom
        { w with stdin := (name ++ rest).tail, look := (name ++ rest).head? } [] name rest
        (by simp) hn hrest ⟨rfl, rfl⟩
      obtain ⟨q, w1, hi, _, hw1, hin1, _, _⟩ := intern_exact name
        { w with token := name, look := rest.head?, stdin := rest.tail }
        hT (by simp only [SYMBOL_MAX] at hlen ⊢; omega) (fun h0 => (hch _ h0).2.2 rfl)
      have hio := intern_io name { w with token := name, look := rest.head?, stdin := rest.tail }
        _ _ hT hi
      have hd2 : deref name ≠ '(' := by
        rw [hxs]; intro e; simp only [deref, List.headD_cons] at e
        rw [e] at hx; simp [is_parens] at hx
      refine ⟨.Symbol q name, w1, ?_, rfl, hin1, ⟨hio.1, hio.2.2.1⟩, hio.2.2.2⟩
      simp only [render] at hin
      simp only [freadobj, run_bind, getchar, hin, hxs, List.cons_append, Res.bind_ok, setLook]
      simp only [hxs, List.cons_append, List.head?_cons, List.tail_cons] at hg
      simp only [hg, Res.bind_ok, getobj, getobjWith]
      rw [← hxs]
      simp only [hd2, if_false]
      rw [hxs] at hi ⊢
      exact hi
    | Pair p d n =>
      have hr : readable true (.Pair p d n) = true := by simpa [readable] using hv
      have hrn : readable true n = true := by
        simp only [readable, Bool.and_eq_true] at hr; exact hr.2
      have hg := gettoken_paren
        { w with stdin := (elemsText (.Pair p d n) ++ rest), look := some '(' } [] '('
        (elemsText (.Pair p d n) ++ rest) (by simp) (by decide) ⟨rfl, rfl⟩
      obtain ⟨c1, w1, hc1, he1, hw1, hst1, hout1, hint1, _⟩ := getlist_spec (.Pair p d n) hr fuel hf
        { w with token := ['('], look := (elemsText (.Pair p d n) ++ rest).head?,
                 stdin := (elemsText (.Pair p d n) ++ rest).tail }
        [] rest hT (by simp) ⟨rfl, rfl⟩
      refine ⟨c1, w1, ?_, he1, hint1, hst1, hout1⟩
      rw [render_pair p d n hrn] at hin
      simp only [freadobj, run_bind, getchar, hin, List.cons_append, Res.bind_ok, setLook]
      simp only [elemsText] at hg hc1 ⊢
      simp only [hg, Res.bind_ok, getobj, getobjWith, deref, List.headD_cons, if_true, hc1]
    | _ => simp [readable] at hv
  obtain ⟨v1, w1, h1, h2, h3, h4, h5⟩ := key
  refine ⟨v1, w1, h1, h2, h3, h4, h5, ?_⟩
  have hd : isData v1 = true := by
    rw [← isData_erase, h2, isData_erase]; exact isData_of_readable v _ hv
  have hrender : render v1 = render v := by
    rw [← (render_erase v1).1, h2, (render_erase v).1]
  rw [← hrender, print_obj_run v1 hd true w1, renderAs_true]
  rfl

/-- C3 at the list `(a b c)`, read in the initial state. -/
theorem read_print_roundtrip_witness :
    readable false (.Pair 0 (.Symbol 0 ['a']) (.Pair 0 (.Symbol 0 ['b'])
      (.Pair 0 (.Symbol 0 ['c']) .null))) = true ∧
    Reachable (World.init "(a b c)".toList) ∧
    (World.init "(a b c)".toList).stdin = render (.Pair 0 (.Symbol 0 ['a'])
      (.Pair 0 (.Symbol 0 ['b']) (.Pair 0 (.Symbol 0 ['c']) .null))) ++ [] ∧
    ∃ v1 w1, freadobj 4 .null (World.init "(a b c)".toList) = .ok v1 w1 ∧
      v1.erase = (Obj.Pair 0 (.Symbol 0 ['a']) (.Pair 0 (.Symbol 0 ['b'])
        (.Pair 0 (.Symbol 0 ['c']) .null))).erase ∧
      Interned w1.symbols v1 ∧ AtStream w1 [] ∧
      w1.stdout = (World.init "(a b c)".toList).stdout ∧
      print_obj v1 true w1 = .ok () { w1 with stdout := (w1.stdout ++
        render (.Pair 0 (.Symbol 0 ['a']) (.Pair 0 (.Symbol 0 ['b'])
          (.Pair 0 (.Symbol 0 ['c']) .null)))) } :=
  ⟨by decide!, Reachable.start _ rfl,
   by simp only [render, renderElems, renderEnd, intercalate_two, intercalate_one]; decide,
   read_print_roundtrip _ (by decide!) _ (Reachable.start _ rfl) []
    (by simp)
    (by simp only [render, renderElems, renderEnd, intercalate_two, intercalate_one]; decide)
    4 (by decide!) .null⟩


/-! ## Environments -/

theorem car_pair (a : Nat) (d n : Obj) (w : World) : car (.Pair a d n) w = .ok d w := rfl

theorem cdr_pair (a : Nat) (d n : Obj) (w : World) : cdr (.Pair a d n) w = .ok n w := rfl

theorem car_null (w : World) : car .null w = .ok .null w := rfl

theorem cdr_null (w : World) : cdr .null w = .ok .null w := rfl

/-- The lookup loop of `eval` on an environment that extends `tl` by the
frames `fs`: the value of the first frame with the key, else the loop on `tl`. -/
theorem lookup_extends (s : Obj) (w : World) : ∀ (fs : List (Obj × Obj)) (env tl : Obj),
    Extends env fs tl →
    lookup s env w =
      match firstFrame s fs with
      | some f => .ok (some f.2) w
      | none => lookup s tl w := by
  intro fs
  induction fs with
  | nil => intro env tl h; simp only [Extends] at h; subst h; rfl
  | cons f fs ih =>
    intro env tl h
    cases env with
    | Pair a d n =>
      cases d with
      | Pair b key rest =>
        cases rest with
        | Pair c value r2 =>
          cases r2 with
          | null =>
            simp only [Extends] at h
            obtain ⟨hk, hv, hn⟩ := h
            subst hk hv
            simp only [lookup, lookupStep, run_bind, car_pair, cdr_pair, Res.bind_ok, firstFrame,
              List.find?_cons]
            cases hp : ptrEq s f.1 with
            | true => simp only [if_true, run_bind, car_pair, cdr_pair, Res.bind_ok, run_pure]
            | false =>
              simp only [Bool.false_eq_true, if_false]
              exact ih n tl hn
          | _ => simp [Extends] at h
        | _ => simp [Extends] at h
      | _ => simp [Extends] at h
    | _ => simp [Extends] at h

theorem lookup_assoc (s : Obj) (w : World) (fs : List (Obj × Obj)) (env : Obj)
    (h : Assoc env fs) :
    lookup s env w = .ok ((firstFrame s fs).map (·.2)) w := by
  rw [lookup_extends s w fs env .null h]
  cases firstFrame s fs <;> rfl

theorem eval_succ (fuel : Nat) : eval (fuel + 1) = evalBody (eval fuel) fuel := rfl

/-- C5. Lookup with shadowing: in an environment with the frames `fs`,
evaluating a symbol returns the value of the first frame whose key is that
symbol, whatever frames follow it, and leaves the world as it was; when no
frame has the key it prints the diagnostic and returns absent, changing
nothing but the output.  The environment is a value no evaluation writes to,
and the equation holds in every world, so later evaluations in it behave as
before. -/
theorem eval_symbol_lookup (fuel a : Nat) (name : List Char) (env : Obj)
    (fs : List (Obj × Obj)) (henv : Assoc env fs) (w : World) :
    eval (fuel + 1) (.Symbol a name) env w =
      match firstFrame (.Symbol a name) fs with
      | some f => .ok f.2 w
      | none => .ok .null
          (w.emit ("unbound variable: ".toList ++ strdup name ++ "\n".toList)) := by
  rw [eval_succ]
  simp only [evalBody, run_bind, lookup_assoc _ w fs env henv, Res.bind_ok]
  cases firstFrame (.Symbol a name) fs with
  | some f => rfl
  | none =>
    simp only [Option.map_none', print_obj, printf_run, run_bind, Res.bind_ok, run_pure,
      World.emit_emit]
    rfl

/-- C5 in an environment that binds `x` twice, and for a symbol it does not bind. -/
theorem eval_symbol_lookup_witness :
    Assoc shadowEnv [(.Symbol 1 ['x'], .Symbol 2 ['a']), (.Symbol 1 ['x'], .Symbol 3 ['b'])] ∧
    eval 1 (.Symbol 1 ['x']) shadowEnv (World.init []) =
      .ok (.Symbol 2 ['a']) (World.init []) ∧
    eval 1 (.Symbol 10 ['y']) shadowEnv (World.init []) =
      .ok .null ((World.init []).emit "unbound variable: y\n".toList) :=
  ⟨by simp [Assoc, Extends, shadowEnv],
   (eval_symbol_lookup 0 1 ['x'] shadowEnv
     [(.Symbol 1 ['x'], .Symbol 2 ['a']), (.Symbol 1 ['x'], .Symbol 3 ['b'])]
     (by simp [Assoc, Extends, shadowEnv]) (World.init [])).trans (by decide!),
   (eval_symbol_lookup 0 10 ['y'] shadowEnv
     [(.Symbol 1 ['x'], .Symbol 2 ['a']), (.Symbol 1 ['x'], .Symbol 3 ['b'])]
     (by simp [Assoc, Extends, shadowEnv]) (World.init [])).trans (by decide!)⟩


theorem extends_mkFrames (tl : Obj) : ∀ (fs : List (Obj × Obj)) (b : Nat),
    Extends (mkFrames b fs tl) fs tl := by
  intro fs
  induction fs with
  | nil => intro b; simp [mkFrames, Extends]
  | cons f fs ih => intro b; exact ⟨rfl, rfl, ih (b + 3)⟩

theorem extends_append : ∀ (fs gs : List (Obj × Obj)) (env mid tl : Obj),
    Extends env fs mid → Extends mid gs tl → Extends env (fs ++ gs) tl := by
  intro fs
  induction fs with
  | nil => intro gs env mid tl h1 h2; simp only [Extends] at h1; subst h1; exact h2
  | cons f fs ih =>
    intro gs env mid tl h1 h2
    cases env with
    | Pair a d n =>
      cases d with
      | Pair b key rest =>
        cases rest with
        | Pair c value r2 =>
          cases r2 with
          | null =>
            simp only [Extends] at h1
            exact ⟨h1.1, h1.2.1, ih gs n mid tl h1.2.2 h2⟩
          | _ => simp [Extends] at h1
        | _ => simp [Extends] at h1
      | _ => simp [Extends] at h1
    | _ => simp [Extends] at h1

theorem Res.bind_ok_eta {α : Type} (r : Res α) : (r.bind fun a w => .ok a w) = r := by
  cases r <;> rfl

theorem World.alloc_zero (w : World) : w.alloc 0 = w := rfl

theorem World.alloc_alloc (w : World) (m n : Nat) : (w.alloc m).alloc n = w.alloc (m + n) := by
  simp [World.alloc, Nat.add_assoc]

theorem tagalloc_run (w : World) : tagalloc w = .ok w.brk (w.alloc 1) := rfl

theorem cons_alloc (x y : Obj) (w : World) : cons x y w = .ok (.Pair w.brk x y) (w.alloc 1) := rfl

/-- After `intern(sym)` the symbol it returned is the entry found for `sym`. -/
theorem findEntry_after_intern (sym : List Char) (w : World) (o : Obj) (w1 : World)
    (h : TableInv w.brk w.symbols) (hi : intern sym w = .ok o w1) :
    findEntry sym w1.symbols = some o := by
  rw [intern_eq sym w h] at hi
  cases hf : findEntry sym w.symbols with
  | some e =>
    simp only [hf, Res.ok.injEq] at hi
    rw [← hi.2, ← hi.1]; exact hf
  | none =>
    simp only [hf, Res.ok.injEq] at hi
    rw [← hi.2, ← hi.1]; exact findEntry_withSymbol sym w

theorem intern_of_findEntry (sym : List Char) (w : World) (o : Obj)
    (h : TableInv w.brk w.symbols) (hf : findEntry sym w.symbols = some o) :
    intern sym w = .ok o w := by
  rw [intern_eq sym w h, hf]

theorem bind_append_pair (names tail : Obj) (a : Nat) (d n : Obj) :
    bind_append names (.Pair a d n) tail =
      bindStep names (.Pair a d n) tail fun names => bind_append names n tail := by
  rw [bind_append]

/-- The first call of `intern(".")` apart, `bind_append` on a non-empty list of
values runs as it does once the marker is interned. -/
theorem bind_append_interned (names tail : Obj) (a : Nat) (d n : Obj) (w : World) (dot : Obj)
    (w1 : World) (hdot : intern ".".toList w = .ok dot w1)
    (hw : TableInv w.brk w.symbols) :
    bind_append names (.Pair a d n) tail w = bind_append names (.Pair a d n) tail w1 := by
  have h1 : intern ".".toList w1 = .ok dot w1 :=
    intern_of_findEntry _ _ _ (intern_preserves _ _ _ _ hw hdot)
      (findEntry_after_intern _ _ _ _ hw hdot)
  rw [bind_append_pair]
  simp only [bindStep, run_bind]
  cases hc : car names w with
  | fail e =>
    have : car names w1 = .fail e := by
      cases names <;> simp_all [car]
    simp [this]
  | ok x w0 =>
    have h0 : w0 = w := by cases names <;> simp_all [car]
    have : car names w1 = .ok x w1 := by
      cases names <;> simp_all [car]
    subst h0
    simp only [this, Res.bind_ok, run_bind, hdot, h1]

/-- The rounds of the loop of `bind_append` over parameters `ps`, none of them
the marker, and as many values `as`: they allocate the frames `(p a)` in
front of what the loop returns from there on. -/
theorem bind_append_prefix (tail dot : Obj) : ∀ (as ps : List Obj)
    (names values nrest vrest : Obj) (w : World),
    ps.length = as.length → Chain names ps nrest → Chain values as vrest →
    TableInv w.brk w.symbols → findEntry ".".toList w.symbols = some dot →
    (∀ p ∈ ps, ptrEq p dot = false) →
    bind_append names values tail w =
      (bind_append nrest vrest tail (w.alloc (3 * as.length))).bind fun env w2 =>
        .ok (mkFrames w.brk (ps.zip as) env) w2 := by
  intro as
  induction as with
  | nil =>
    intro ps names values nrest vrest w hlen hn hv _ _ _
    have : ps = [] := by cases ps with
      | nil => rfl
      | cons _ _ => simp at hlen
    subst this
    simp only [Chain] at hn hv
    subst hn hv
    simp only [List.length_nil, Nat.mul_zero, World.alloc_zero, List.zip_nil_right, mkFrames,
      Res.bind_ok_eta]
  | cons a as ih =>
    intro ps names values nrest vrest w hlen hn hv hw hdot hnot
    cases ps with
    | nil => simp at hlen
    | cons p ps =>
      cases names with
      | Pair na nd nn =>
        cases values with
        | Pair va vd vn =>
          simp only [Chain] at hn hv
          obtain ⟨rfl, hn⟩ := hn
          obtain ⟨rfl, hv⟩ := hv
          have hp : ptrEq nd dot = false := hnot nd (by simp)
          have hi : ∀ k, intern ".".toList (w.alloc k) = .ok dot (w.alloc k) := fun k =>
            intern_of_findEntry _ _ _ (TableInv.mono (Nat.le_add_right _ _) hw) hdot
          have hi0 := hi 0
          rw [World.alloc_zero] at hi0
          have ih1 := ih ps nn vn nrest vrest (w.alloc 3) (by simpa using hlen) hn hv
            (TableInv.mono (Nat.le_add_right _ _) hw) hdot
            (fun q hq => hnot q (by simp [hq]))
          rw [bind_append_pair]
          simp only [bindStep, run_bind, car_pair, cdr_pair, Res.bind_ok, hi0, hp,
            Bool.false_eq_true, if_false, cons_alloc, World.alloc_alloc, run_pure]
          rw [ih1]
          simp only [World.alloc_alloc, List.length_cons]
          have e : 3 + 3 * as.length = 3 * (as.length + 1) := by omega
          rw [e]
          cases bind_append nrest vrest tail (w.alloc (3 * (as.length + 1))) with
          | ok env w2 =>
            simp [Res.bind, setNext, mkFrames, World.alloc]
            rfl
          | fail e => rfl
        | _ => simp [Chain] at hv
      | _ => simp [Chain] at hn


theorem chain_take : ∀ (ps : List Obj) (names : Obj) (m : Nat), Chain names ps .null →
    m ≤ ps.length → ∃ nrest, Chain names (ps.take m) nrest := by
  intro ps
  induction ps with
  | nil => intro names m h _; exact ⟨names, by simp [Chain]⟩
  | cons p ps ih =>
    intro names m h hm
    cases m with
    | zero => exact ⟨names, by simp [Chain]⟩
    | succ m =>
      cases names with
      | Pair a d n =>
        simp only [Chain] at h
        obtain ⟨nrest, hr⟩ := ih n m h.2 (by simpa using hm)
        exact ⟨nrest, by simp only [List.take_succ_cons, Chain]; exact ⟨h.1, hr⟩⟩
      | _ => simp [Chain] at h

theorem zip_take_left : ∀ (as ps : List Obj), (ps.take as.length).zip as = ps.zip as := by
  intro as
  induction as with
  | nil => intro ps; simp
  | cons a as ih =>
    intro ps
    cases ps with
    | nil => simp
    | cons p ps => simp [ih ps]

theorem bind_append_null (names tail : Obj) (w : World) :
    bind_append names .null tail w = .ok tail w := by
  rw [bind_append]; rfl

/-- `bind_append` on parameters without the marker and at most as many values:
it returns the frames of the pairs in front of `tail`, and changes nothing but
the allocator and, by the marker, the symbol table. -/
theorem bind_append_frames (ps as : List Obj) (names values tail : Obj) (w : World)
    (hw : TableInv w.brk w.symbols) (hn : Chain names ps .null) (hv : Chain values as .null)
    (hlen : as.length ≤ ps.length) (dot : Obj) (w1 : World)
    (hdot : intern ".".toList w = .ok dot w1) (hnot : ∀ p ∈ ps, ptrEq p dot = false) :
    ∃ b w2, bind_append names values tail w = .ok (mkFrames b (ps.zip as) tail) w2 ∧
      w2.stdout = w.stdout ∧ w2.look = w.look ∧ w2.stdin = w.stdin ∧ w2.token = w.token ∧
      TableInv w2.brk w2.symbols ∧ (∀ x, InTable x w.symbols → InTable x w2.symbols) := by
  cases as with
  | nil =>
    simp only [Chain] at hv
    subst hv
    exact ⟨0, w, by simp [bind_append_null, mkFrames], rfl, rfl, rfl, rfl, hw, fun _ h => h⟩
  | cons a as =>
    cases values with
    | Pair va vd vn =>
      have hw1 := intern_preserves _ _ _ _ hw hdot
      have hf := findEntry_after_intern _ _ _ _ hw hdot
      have hio := intern_io _ _ _ _ hw hdot
      obtain ⟨nrest, hnr⟩ := chain_take ps names (a :: as).length hn hlen
      have hpre := bind_append_prefix tail dot (a :: as) (ps.take (a :: as).length) names
        (.Pair va vd vn) nrest .null w1
        (by simp only [List.length_take]; omega) hnr hv hw1 hf
        (fun p hp => hnot p (List.mem_of_mem_take hp))
      obtain ⟨_, _, hi1, _, _, _, hsub, _⟩ := intern_twice ".".toList w hw
      rw [hdot] at hi1
      simp only [Res.ok.injEq] at hi1
      rw [← hi1.2] at hsub
      refine ⟨w1.brk, w1.alloc (3 * (a :: as).length), ?_, hio.2.2.2, hio.1, hio.2.2.1, hio.2.1,
        TableInv.mono (Nat.le_add_right _ _) hw1, hsub⟩
      rw [bind_append_interned names tail va vd vn w dot w1 hdot hw, hpre, bind_append_null,
        zip_take_left]
      rfl
    | _ => simp [Chain] at hv

/-- C8. `bind_append` prepends and shares: for parameters `ps` without the
variadic marker and at most as many values `as`, it returns without failing
an environment that is the frames `(p1 a1) … (pm am)`, one for each value,
followed by the parent itself; parameters beyond the values get no frame; it
prints nothing, and every lookup in the parent returns after the call what it
returned before it. -/
theorem bind_append_prepends (ps as : List Obj) (names values parent : Obj) (w : World)
    (hw : Reachable w) (hn : Chain names ps .null) (hv : Chain values as .null)
    (hlen : as.length ≤ ps.length) (dot : Obj) (w1 : World)
    (hdot : intern ".".toList w = .ok dot w1) (hnot : ∀ p ∈ ps, ptrEq p dot = false) :
    ∃ env w2, bind_append names values parent w = .ok env w2 ∧
      Extends env (ps.zip as) parent ∧ w2.stdout = w.stdout ∧
      ∀ (fs : List (Obj × Obj)) (s : Obj), Assoc parent fs →
        ∃ r, lookup s parent w = .ok r w ∧ lookup s parent w2 = .ok r w2 := by
  obtain ⟨b, w2, h1, h2, _⟩ :=
    bind_append_frames ps as names values parent w hw.tableInv hn hv hlen dot w1 hdot hnot
  refine ⟨_, w2, h1, extends_mkFrames parent _ b, h2, fun fs s hfs => ?_⟩
  exact ⟨_, lookup_assoc s w fs parent hfs, lookup_assoc s w2 fs parent hfs⟩

/-- C8 for the parameters `(x y)` and the single value `a`, in front of a
parent environment. -/
theorem bind_append_prepends_witness :
    ∃ env w2,
      bind_append (.Pair 14 (.Symbol 11 ['x']) (.Pair 13 (.Symbol 12 ['y']) .null))
        (.Pair 16 (.Symbol 15 ['a']) .null) parentEnv (World.init []) = .ok env w2 ∧
      Extends env ([Obj.Symbol 11 ['x'], Obj.Symbol 12 ['y']].zip [Obj.Symbol 15 ['a']])
        parentEnv ∧
      w2.stdout = (World.init []).stdout ∧
      ∀ (fs : List (Obj × Obj)) (s : Obj), Assoc parentEnv fs →
        ∃ r, lookup s parentEnv (World.init []) = .ok r (World.init []) ∧
          lookup s parentEnv w2 = .ok r w2 :=
  bind_append_prepends [.Symbol 11 ['x'], .Symbol 12 ['y']] [.Symbol 15 ['a']] _ _ parentEnv
    (World.init []) (Reachable.start _ rfl) (by simp [Chain]) (by simp [Chain]) (by simp)
    (.Symbol 1 ".".toList) ((World.init []).withSymbol ".".toList) (by decide!)
    (by decide)


/-! ## Closures -/

/-- C7, at the input where code and claim part: with as many arguments as
simple parameters the loop of `bind_append` ends before it reaches the
marker, the rest parameter gets no frame, and its lookup falls through to the
enclosing environment; here `xs` yields `b`, the value bound outside, not the
empty list.  With an argument left over the rest parameter is bound to the
remaining list. -/
theorem variadic_rest_unbound_when_no_args_remain :
    output 30 "((lambda (xs) ((lambda (x . xs) xs) (quote a))) (quote b))" = some "b\n" ∧
    output 30 "((lambda (x . xs) xs) (quote a) (quote b) (quote c))" = some "(b c)\n" := by
  decide!

theorem _apply_closure (ev : Obj → Obj → Run Obj) (fuel c : Nat) (params body D args : Obj)
    (w : World) :
    _apply ev fuel (.Closure c params body D) args w =
      (bind_append params args D w).bind fun env w => ev body env w := rfl

theorem apply_closure (ev : Obj → Obj → Run Obj) (fuel c : Nat) (params body D : Obj)
    (e : Nat) (head aexprs env : Obj) (w : World) :
    apply ev fuel (.Closure c params body D) (.Pair e head aexprs) env w =
      (map aexprs ev env w).bind fun args w =>
        _apply ev fuel (.Closure c params body D) args w := rfl

theorem flambda_run (e1 e2 e3 : Nat) (head params body rest env : Obj) (w : World) :
    flambda (.Pair e1 head (.Pair e2 params (.Pair e3 body rest))) env w =
      .ok (.Closure w.brk params body env) (w.alloc 1) := rfl

/-- C6. Closure application is lexically scoped: `lambda` builds a closure of
the parameters and the body over the environment `D` it is evaluated in; a
call form whose head evaluated to that closure, in any environment `C`,
evaluates its arguments in `C` and applies the closure to the values; and
applying the closure to values `v1 … vk`, for parameters `p1 … pk` other than
the marker, evaluates the body in an environment that is the frames
`(p1 v1) … (pk vk)` followed by `D`: the result depends on `C` through the
argument values only.  In particular `((lambda (x) x) (quote a))` evaluates
to `a`. -/
theorem closure_application (fuel c : Nat) (params body D args : Obj) (ps vs : List Obj)
    (w : World) (hw : Reachable w) (hp : Chain params ps .null) (hv : Chain args vs .null)
    (hlen : vs.length = ps.length) (dot : Obj) (w1 : World)
    (hdot : intern ".".toList w = .ok dot w1) (hnot : ∀ p ∈ ps, ptrEq p dot = false) :
    (∀ (e1 e2 e3 : Nat) (head rest : Obj) (w0 : World),
      flambda (.Pair e1 head (.Pair e2 params (.Pair e3 body rest))) D w0 =
        .ok (.Closure w0.brk params body D) (w0.alloc 1)) ∧
    (∀ (e : Nat) (head aexprs C : Obj) (w0 : World),
      apply (eval fuel) fuel (.Closure c params body D) (.Pair e head aexprs) C w0 =
        (map aexprs (eval fuel) C w0).bind fun args w =>
          _apply (eval fuel) fuel (.Closure c params body D) args w) ∧
    (∃ env w2, Extends env (ps.zip vs) D ∧ w2.stdout = w.stdout ∧
      _apply (eval fuel) fuel (.Closure c params body D) args w = eval fuel body env w2 ∧
      ∀ (s : Obj) (w3 : World), lookup s env w3 =
        match firstFrame s (ps.zip vs) with
        | some f => .ok (some f.2) w3
        | none => lookup s D w3) ∧
    output 20 "((lambda (x) x) (quote a))" = some "a\n" := by
  refine ⟨fun _ _ _ _ _ _ => rfl, fun _ _ _ _ _ => rfl, ?_, by decide!⟩
  obtain ⟨b, w2, h1, h2, _⟩ :=
    bind_append_frames ps vs params args D w hw.tableInv hp hv (by omega) dot w1 hdot hnot
  refine ⟨_, w2, extends_mkFrames D _ b, h2, ?_,
    fun s w3 => lookup_extends s w3 _ _ D (extends_mkFrames D _ b)⟩
  rw [_apply_closure, h1]
  rfl

/-- C6 for the closure of `(lambda (x) x)` over a parent environment, applied
to the value `a`. -/
theorem closure_application_witness :
    ∃ env w2, Extends env ([Obj.Symbol 11 ['x']].zip [Obj.Symbol 15 ['a']]) parentEnv ∧
      w2.stdout = (World.init []).stdout ∧
      _apply (eval 5) 5 (.Closure 17 (.Pair 14 (.Symbol 11 ['x']) .null) (.Symbol 11 ['x'])
          parentEnv) (.Pair 16 (.Symbol 15 ['a']) .null) (World.init []) =
        eval 5 (.Symbol 11 ['x']) env w2 ∧
      ∀ (s : Obj) (w3 : World), lookup s env w3 =
        match firstFrame s ([Obj.Symbol 11 ['x']].zip [Obj.Symbol 15 ['a']]) with
        | some f => .ok (some f.2) w3
        | none => lookup s parentEnv w3 :=
  (closure_application 5 17 (.Pair 14 (.Symbol 11 ['x']) .null) (.Symbol 11 ['x']) parentEnv
    (.Pair 16 (.Symbol 15 ['a']) .null) [.Symbol 11 ['x']] [.Symbol 15 ['a']]
    (World.init []) (Reachable.start _ rfl) (by simp [Chain]) (by simp [Chain]) rfl
    (.Symbol 1 ".".toList) ((World.init []).withSymbol ".".toList) (by decide!)
    (by decide)).2.2.1

/-! ## `cond` -/

theorem extends_split : ∀ (fs gs : List (Obj × Obj)) (env tl : Obj),
    Extends env (fs ++ gs) tl → ∃ mid, Extends env fs mid ∧ Extends mid gs tl := by
  intro fs
  induction fs with
  | nil => intro gs env tl h; exact ⟨env, by simp [Extends], h⟩
  | cons f fs ih =>
    intro gs env tl h
    cases env with
    | Pair a d n =>
      cases d with
      | Pair b key rest =>
        cases rest with
        | Pair c value r2 =>
          cases r2 with
          | null =>
            simp only [List.cons_append, Extends] at h
            obtain ⟨mid, h1, h2⟩ := ih gs n tl h.2.2
            exact ⟨mid, ⟨h.1, h.2.1, h1⟩, h2⟩
          | _ => simp [Extends] at h
        | _ => simp [Extends] at h
      | _ => simp [Extends] at h
    | _ => simp [Extends] at h

theorem fcondLoop_clause (ev : Obj → Obj → Run Obj) (a b c : Nat) (t r next env : Obj)
    (w : World) :
    fcondLoop ev (.Pair a (.Pair b t (.Pair c r .null)) next) env w =
      (ev t env w).bind fun v w =>
        if v.isNull then fcondLoop ev next env w else ev r env w := by
  rw [fcondLoop]
  simp only [fcondStep, run_bind, car_pair, cdr_pair, Res.bind_ok]
  cases ev t env w with
  | fail e => rfl
  | ok v w1 => cases v <;> rfl

/-- The loop of `fcond` passes the clauses whose tests evaluate to absent,
evaluating nothing but their tests. -/
theorem fcondLoop_skip (ev : Obj → Obj → Run Obj) (env : Obj) : ∀ (pre : List (Obj × Obj))
    (clauses mid : Obj) (w w1 : World), Extends clauses pre mid →
    AllAbsent ev env (pre.map Prod.fst) w w1 →
    fcondLoop ev clauses env w = fcondLoop ev mid env w1 := by
  intro pre
  induction pre with
  | nil =>
    intro clauses mid w w1 h ha
    simp only [Extends] at h
    subst h
    cases ha
    rfl
  | cons f pre ih =>
    intro clauses mid w w1 h ha
    cases clauses with
    | Pair a d n =>
      cases d with
      | Pair b key rest =>
        cases rest with
        | Pair c value r2 =>
          cases r2 with
          | null =>
            simp only [Extends] at h
            obtain ⟨hk, hv, hn⟩ := h
            subst hk hv
            cases ha with
            | cons _ _ _ w2 _ h1 h2 =>
              rw [fcondLoop_clause, h1]
              exact ih n mid w2 w1 hn h2
          | _ => simp [Extends] at h
        | _ => simp [Extends] at h
      | _ => simp [Extends] at h
    | _ => simp [Extends] at h

theorem eval_cond_form (fuel e a : Nat) (head clauses env : Obj) (w : World)
    (hhead : eval (fuel + 1) head env w = .ok (.Syntax a .fcond) w) :
    eval (fuel + 2) (.Pair e head clauses) env w = fcondLoop (eval (fuel + 1)) clauses env w := by
  rw [eval_succ]
  simp only [evalBody, run_bind, hhead, Res.bind_ok]
  rfl

/-- C10. `cond` is first-match with short circuit: in a form whose head
evaluates to the builtin `cond`, with clauses `(t1 r1) … (tn rn)`, if the
tests before `ti` evaluate to absent and `ti` to a value that is not absent,
the form evaluates as `ri` does in the world the tests left, so that nothing
else is evaluated: no later test or result, and no result of an earlier
clause; if all tests evaluate to absent, or there is no clause, the value is
absent and the world is the one the tests left.  In particular
`(cond ((null? (quote a)) (quote no)) ((quote t) (quote yes)))` evaluates to
`yes`. -/
theorem cond_first_match (fuel e a : Nat) (head clauses env : Obj)
    (cs : List (Obj × Obj)) (w : World)
    (hhead : eval (fuel + 1) head env w = .ok (.Syntax a .fcond) w)
    (hcl : Assoc clauses cs) :
    (∀ (pre post : List (Obj × Obj)) (t r v : Obj) (w1 w2 : World),
      cs = pre ++ (t, r) :: post →
      AllAbsent (eval (fuel + 1)) env (pre.map Prod.fst) w w1 →
      eval (fuel + 1) t env w1 = .ok v w2 → v ≠ .null →
      eval (fuel + 2) (.Pair e head clauses) env w = eval (fuel + 1) r env w2) ∧
    (∀ w1 : World, AllAbsent (eval (fuel + 1)) env (cs.map Prod.fst) w w1 →
      eval (fuel + 2) (.Pair e head clauses) env w = .ok .null w1) ∧
    output 20 "(cond ((null? (quote a)) (quote no)) ((quote t) (quote yes)))" =
      some "yes\n" := by
  refine ⟨?_, ?_, by decide!⟩
  · intro pre post t r v w1 w2 hcs hpre ht hv
    subst hcs
    obtain ⟨mid, h1, h2⟩ := extends_split pre ((t, r) :: post) clauses .null hcl
    rw [eval_cond_form fuel e a head clauses env w hhead,
      fcondLoop_skip _ env pre clauses mid w w1 h1 hpre]
    cases mid with
    | Pair a1 d n =>
      cases d with
      | Pair b key rest =>
        cases rest with
        | Pair c value r2 =>
          cases r2 with
          | null =>
            simp only [Extends] at h2
            obtain ⟨hk, hv2, _⟩ := h2
            subst hk hv2
            rw [fcondLoop_clause, ht]
            cases v with
            | null => exact absurd rfl hv
            | _ => rfl
          | _ => simp [Extends] at h2
        | _ => simp [Extends] at h2
      | _ => simp [Extends] at h2
    | _ => simp [Extends] at h2
  · intro w1 hall
    rw [eval_cond_form fuel e a head clauses env w hhead,
      fcondLoop_skip _ env cs clauses .null w w1 hcl hall]
    rfl

/-- C10 for `(cond (nil no) (cond yes))` where `nil` is bound to absent: the
form evaluates as `yes` does. -/
theorem cond_first_match_witness :
    eval 2 condForm condEnv (World.init []) =
      eval 1 (.Symbol 3 "yes".toList) condEnv (World.init []) :=
  (cond_first_match 0 50 5 (.Symbol 1 "cond".toList)
    (mkFrames 30 [(.Symbol 2 "nil".toList, .Symbol 4 "no".toList),
      (.Symbol 1 "cond".toList, .Symbol 3 "yes".toList)] .null) condEnv
    [(.Symbol 2 "nil".toList, .Symbol 4 "no".toList),
      (.Symbol 1 "cond".toList, .Symbol 3 "yes".toList)] (World.init [])
    (by decide!) (extends_mkFrames .null _ 30)).1
    [(.Symbol 2 "nil".toList, .Symbol 4 "no".toList)] []
    (.Symbol 1 "cond".toList) (.Symbol 3 "yes".toList) (.Syntax 5 .fcond)
    (World.init []) (World.init []) rfl
    (AllAbsent.cons _ _ _ _ _ (by decide!) (AllAbsent.nil _)) (by decide!) (by decide)


/-! ## What every run preserves -/

theorem Grows.refl {w : World} (h : TableInv w.brk w.symbols) : Grows w w :=
  ⟨h, fun _ hx => hx, Nat.le_refl _⟩

theorem Grows.trans {w w1 w2 : World} (h1 : Grows w w1) (h2 : Grows w1 w2) : Grows w w2 :=
  ⟨h2.1, fun x hx => h2.2.1 x (h1.2.1 x hx), Nat.le_trans h1.2.2 h2.2.2⟩

theorem safe_pure {α : Type} (a : α) : Safe (pure a : Run α) :=
  ⟨fun w b w1 hw h => by
    simp only [run_pure, Res.ok.injEq] at h
    rw [← h.2]; exact Grows.refl hw⟩

theorem safe_fault {α : Type} (e : Fault) : Safe (fault e : Run α) :=
  ⟨fun w b w1 _ h => by simp at h⟩

theorem safe_bind {α β : Type} {m : Run α} {f : α → Run β} (hm : Safe m)
    (hf : ∀ a, Safe (f a)) : Safe (m >>= f) :=
  ⟨fun w b w2 hw h => by
    rw [run_bind] at h
    cases hmw : m w with
    | fail e => rw [hmw] at h; simp at h
    | ok a w1 =>
      rw [hmw, Res.bind_ok] at h
      have g1 := hm.grows w a w1 hw hmw
      exact g1.trans ((hf a).grows w1 b w2 g1.1 h)⟩

theorem safe_of_same {α : Type} {m : Run α}
    (h : ∀ (w : World) (a : α) (w1 : World), m w = .ok a w1 →
      w1.symbols = w.symbols ∧ w.brk ≤ w1.brk) : Safe m :=
  ⟨fun w a w1 hw hm => by
    obtain ⟨h1, h2⟩ := h w a w1 hm
    exact ⟨by rw [h1]; exact TableInv.mono h2 hw, fun x hx => by rw [h1]; exact hx, h2⟩⟩

theorem safe_tagalloc : Safe tagalloc :=
  safe_of_same fun w a w1 h => by
    simp only [tagalloc, Res.ok.injEq] at h
    rw [← h.2]; exact ⟨rfl, Nat.le_add_right _ _⟩

theorem safe_getchar : Safe getchar :=
  safe_of_same fun w a w1 h => by
    unfold getchar at h
    cases hs : w.stdin with
    | nil => simp only [hs, Res.ok.injEq] at h; rw [← h.2]; exact ⟨rfl, Nat.le_refl _⟩
    | cons c cs => simp only [hs, Res.ok.injEq] at h; rw [← h.2]; exact ⟨rfl, Nat.le_refl _⟩

theorem safe_printf (s : List Char) : Safe (printf s) :=
  safe_of_same fun w a w1 h => by
    simp only [printf, Res.ok.injEq] at h
    rw [← h.2]; exact ⟨rfl, Nat.le_refl _⟩

theorem safe_puts (s : List Char) : Safe (puts s) :=
  safe_of_same fun w a w1 h => by
    simp only [puts, Res.ok.injEq] at h
    rw [← h.2]; exact ⟨rfl, Nat.le_refl _⟩

theorem safe_setLook (c : Option Char) : Safe (setLook c) :=
  safe_of_same fun w a w1 h => by
    simp only [setLook, Res.ok.injEq] at h
    rw [← h.2]; exact ⟨rfl, Nat.le_refl _⟩

theorem safe_gettoken : Safe gettoken :=
  safe_of_same fun w a w1 h => by
    unfold gettoken at h
    simp only at h
    split at h
    · unfold getchar at h
      cases hs : (skipSpaces w.look w.stdin).2 with
      | nil => simp only [hs, Res.bind_ok, Res.ok.injEq] at h; rw [← h.2]; exact ⟨rfl, Nat.le_refl _⟩
      | cons c cs =>
        simp only [hs, Res.bind_ok, Res.ok.injEq] at h; rw [← h.2]; exact ⟨rfl, Nat.le_refl _⟩
    · simp only [Res.ok.injEq] at h; rw [← h.2]; exact ⟨rfl, Nat.le_refl _⟩

theorem safe_car (x : Obj) : Safe (car x) := by
  cases x <;> first | exact safe_pure _ | exact safe_fault _

theorem safe_cdr (x : Obj) : Safe (cdr x) := by
  cases x <;> first | exact safe_pure _ | exact safe_fault _

theorem safe_tagOf (x : Obj) : Safe (tagOf x) := by
  cases x <;> first | exact safe_pure _ | exact safe_fault _

theorem safe_closureParams (x : Obj) : Safe (closureParams x) := by
  cases x <;> first | exact safe_pure _ | exact safe_fault _

theorem safe_closureBody (x : Obj) : Safe (closureBody x) := by
  cases x <;> first | exact safe_pure _ | exact safe_fault _

theorem safe_closureEnv (x : Obj) : Safe (closureEnv x) := by
  cases x <;> first | exact safe_pure _ | exact safe_fault _

theorem safe_intern (s : List Char) : Safe (intern s) :=
  ⟨fun w a w1 hw h => by
    obtain ⟨o, w2, h1, _, h3, _, h5, _⟩ := intern_twice s w hw
    rw [h] at h1
    simp only [Res.ok.injEq] at h1
    obtain ⟨rfl, rfl⟩ := h1
    refine ⟨h3, h5, ?_⟩
    rw [intern_eq s w hw] at h
    cases hf : findEntry s w.symbols with
    | some e => simp only [hf, Res.ok.injEq] at h; rw [← h.2]
    | none =>
      simp only [hf, Res.ok.injEq] at h; rw [← h.2]
      simp only [World.withSymbol]; omega⟩

theorem safe_cons (x y : Obj) : Safe (cons x y) := safe_bind safe_tagalloc fun _ => safe_pure _

theorem safe_newsymbol (s : List Char) : Safe (newsymbol s) :=
  safe_bind safe_tagalloc fun _ => safe_pure _

theorem safe_newprimop (f : PrimFn) : Safe (newprimop f) :=
  safe_bind safe_tagalloc fun _ => safe_pure _

theorem safe_newclosure (p b e : Obj) : Safe (newclosure p b e) :=
  safe_bind safe_tagalloc fun _ => safe_pure _

theorem safe_newsyntax (f : SynFn) : Safe ( newsyntax f) :=
  safe_bind safe_tagalloc fun _ => safe_pure _

theorem safe_newmacro (p b e : Obj) : Safe ( newmacro p b e) :=
  safe_bind safe_tagalloc fun _ => safe_pure _

theorem safe_e_true : Safe e_true := by
  unfold e_true
  repeat (first
    | exact safe_pure _ | exact safe_intern _ | exact safe_cons _ _
    | apply safe_bind | intro _)

theorem safe_ite_world {α : Type} (c : World → Prop) [DecidablePred c] {m1 m2 : Run α}
    (h1 : Safe m1) (h2 : Safe m2) : Safe (fun w => if c w then m1 w else m2 w) :=
  ⟨fun w a w1 hw h => by
    by_cases hc : c w
    · simp only [hc, if_true] at h; exact h1.grows w a w1 hw h
    · simp only [hc, if_false] at h; exact h2.grows w a w1 hw h⟩

theorem safe_print_obj (v : Obj) : ∀ h : Bool, Safe (print_obj v h) := by
  induction v with
  | null => intro h; rw [print_obj]; exact safe_printf _
  | Symbol a s => intro h; rw [print_obj]; exact safe_printf _
  | Closure a p b e => intro h; rw [print_obj]; exact safe_printf _
  | Primitive a f => intro h; simp only [print_obj]; exact safe_pure _
  | Macro a p b e => intro h; simp only [print_obj]; exact safe_pure _
  | Syntax a f => intro h; simp only [print_obj]; exact safe_pure _
  | Pair p d n ihd ihn =>
    intro h
    cases n with
    | null =>
      rw [print_obj.eq_3]
      split <;> repeat (first
        | exact safe_printf _ | exact safe_pure _ | exact ihd _ | apply safe_bind | intro _)
    | Pair q d2 n2 =>
      rw [print_obj.eq_4]
      split <;> repeat (first
        | exact safe_printf _ | exact safe_pure _ | exact ihd _ | exact ihn _
        | apply safe_bind | intro _)
    | _ =>
      rw [print_obj.eq_5 _ _ _ _ (by intro e; cases e) (by intro _ _ _ e; cases e)]
      split <;> repeat (first
        | exact safe_printf _ | exact safe_pure _ | exact ihd _ | exact ihn _
        | apply safe_bind | intro _)

theorem safe_getobjWith {gl : Run Obj} (h : Safe gl) : Safe (getobjWith gl) :=
  safe_ite_world (fun w => deref w.token = '(') h
    ⟨fun w a w1 hw hi => (safe_intern w.token).grows w a w1 hw hi⟩

theorem getlist_succ_eq (fuel : Nat) :
    getlist (fuel + 1) =
      (gettoken >>= fun _ => fun w =>
        if deref w.token = ')' then (pure .null : Run Obj) w
        else (getobjWith (getlist fuel) >>= fun tmp =>
          getlist fuel >>= fun rest => cons tmp rest) w) := rfl

theorem safe_getlist : ∀ fuel : Nat, Safe (getlist fuel) := by
  intro fuel
  induction fuel with
  | zero => exact safe_fault _
  | succ k ih =>
    rw [getlist_succ_eq]
    refine safe_bind safe_gettoken fun _ => safe_ite_world (fun w => deref w.token = ')')
      (safe_pure _) ?_
    exact safe_bind (safe_getobjWith ih) fun _ => safe_bind ih fun _ => safe_cons _ _

theorem safe_getobj (fuel : Nat) : Safe (getobj fuel) := safe_getobjWith (safe_getlist fuel)

theorem safe_freadobj (fuel : Nat) (a : Obj) : Safe (freadobj fuel a) := by
  unfold freadobj
  repeat (first
    | exact safe_getchar | exact safe_setLook _ | exact safe_gettoken | exact safe_getobj _
    | apply safe_bind | intro _)

theorem safe_callPrim (fuel : Nat) (f : PrimFn) (a : Obj) : Safe (callPrim fuel f a) := by
  cases f <;> simp only [callPrim]
  case freadobj => exact safe_freadobj _ _
  all_goals
    first
    | unfold fcons | unfold fcar | unfold fcdr | unfold feq | unfold fpair | unfold fatom
    | unfold fnull | unfold fwriteobj
  all_goals
    repeat (first
      | exact safe_pure _ | exact safe_car _ | exact safe_cdr _ | exact safe_cons _ _
      | exact safe_tagOf _ | exact safe_e_true | exact safe_print_obj _ _ | exact safe_puts _
      | apply safe_bind | intro _ | split)


theorem safe_map (fn : Obj → Obj → Run Obj) (context : Obj) (hfn : ∀ e env, Safe (fn e env)) :
    ∀ list : Obj, Safe (map list fn context) := by
  intro list
  induction list with
  | null => rw [map]; exact safe_pure _
  | Pair a d n _ ihn =>
    rw [map]; unfold mapStep
    repeat (first
      | exact safe_pure _ | exact safe_car _ | exact safe_cons _ _ | exact hfn _ _ | exact ihn
      | apply safe_bind | intro _)
  | Closure a p b e ihp _ _ =>
    rw [map]; unfold mapStep
    repeat (first
      | exact safe_pure _ | exact safe_car _ | exact safe_cons _ _ | exact hfn _ _ | exact ihp
      | apply safe_bind | intro _)
  | Macro a p b e ihp _ _ =>
    rw [map]; unfold mapStep
    repeat (first
      | exact safe_pure _ | exact safe_car _ | exact safe_cons _ _ | exact hfn _ _ | exact ihp
      | apply safe_bind | intro _)
  | _ =>
    simp only [map]; unfold mapStep
    repeat (first
      | exact safe_pure _ | exact safe_fault _ | exact safe_car _ | exact safe_cons _ _
      | exact hfn _ _ | apply safe_bind | intro _)

theorem safe_bindStep (names values tail : Obj) (rest : Obj → Run Obj)
    (hrest : ∀ n, Safe (rest n)) : Safe (bindStep names values tail rest) := by
  unfold bindStep
  repeat (first
    | exact safe_pure _ | exact safe_car _ | exact safe_cdr _ | exact safe_cons _ _
    | exact safe_intern _ | exact hrest _ | apply safe_bind | intro _ | split)

theorem safe_bind_append (tail : Obj) : ∀ values names : Obj,
    Safe (bind_append names values tail) := by
  intro values
  induction values with
  | null => intro names; rw [bind_append]; exact safe_pure _
  | Pair a d n _ ihn => intro names; rw [bind_append]; exact safe_bindStep _ _ _ _ ihn
  | Closure a p b e ihp _ _ => intro names; rw [bind_append]; exact safe_bindStep _ _ _ _ ihp
  | Macro a p b e ihp _ _ => intro names; rw [bind_append]; exact safe_bindStep _ _ _ _ ihp
  | _ =>
    intro names; simp only [bind_append]
    exact safe_bindStep _ _ _ _ fun _ => safe_fault _

theorem safe_apply_ (ev : Obj → Obj → Run Obj) (hev : ∀ e env, Safe (ev e env)) (fuel : Nat)
    (fn args : Obj) : Safe (_apply ev fuel fn args) := by
  cases fn <;> simp only [_apply]
  case null => exact safe_fault _
  case Primitive => exact safe_callPrim _ _ _
  all_goals
    repeat (first
      | exact safe_pure _ | exact safe_bind_append _ _ _ | exact hev _ _ | exact safe_puts _
      | exact safe_printf _ | exact safe_print_obj _ _ | apply safe_bind | intro _)

theorem safe_fapplyLoop (ev : Obj → Obj → Run Obj) (hev : ∀ e env, Safe (ev e env))
    (env : Obj) : ∀ tmp : Obj, Safe (fapplyLoop ev tmp env) := by
  intro tmp
  induction tmp with
  | null => rw [fapplyLoop]; exact hev _ _
  | Pair a d n _ ihn =>
    rw [fapplyLoop]; unfold fapplyStep
    split <;> repeat (first
      | exact safe_pure _ | exact safe_car _ | exact safe_cons _ _ | exact hev _ _ | exact ihn
      | apply safe_bind | intro _)
  | Closure a p b e ihp _ _ =>
    rw [fapplyLoop]; unfold fapplyStep
    split <;> repeat (first
      | exact safe_pure _ | exact safe_car _ | exact safe_cons _ _ | exact hev _ _ | exact ihp
      | apply safe_bind | intro _)
  | Macro a p b e ihp _ _ =>
    rw [fapplyLoop]; unfold fapplyStep
    split <;> repeat (first
      | exact safe_pure _ | exact safe_car _ | exact safe_cons _ _ | exact hev _ _ | exact ihp
      | apply safe_bind | intro _)
  | _ => simp only [fapplyLoop]; exact safe_fault _

theorem safe_fcondLoop (ev : Obj → Obj → Run Obj) (hev : ∀ e env, Safe (ev e env))
    (env : Obj) : ∀ exp : Obj, Safe (fcondLoop ev exp env) := by
  intro exp
  induction exp with
  | null => rw [fcondLoop]; exact safe_pure _
  | Pair a d n _ ihn =>
    rw [fcondLoop]; unfold fcondStep
    repeat (first
      | exact safe_pure _ | exact safe_car _ | exact safe_cdr _ | exact hev _ _ | exact ihn
      | apply safe_bind | intro _ | split)
  | Closure a p b e ihp _ _ =>
    rw [fcondLoop]; unfold fcondStep
    repeat (first
      | exact safe_pure _ | exact safe_car _ | exact safe_cdr _ | exact hev _ _ | exact ihp
      | apply safe_bind | intro _ | split)
  | Macro a p b e ihp _ _ =>
    rw [fcondLoop]; unfold fcondStep
    repeat (first
      | exact safe_pure _ | exact safe_car _ | exact safe_cdr _ | exact hev _ _ | exact ihp
      | apply safe_bind | intro _ | split)
  | _ =>
    simp only [fcondLoop]; unfold fcondStep
    repeat (first
      | exact safe_pure _ | exact safe_fault _ | exact safe_car _ | exact safe_cdr _
      | exact hev _ _ | apply safe_bind | intro _ | split)

theorem safe_fletLoop : ∀ exp : Obj, Safe (fletLoop exp) := by
  intro exp
  induction exp with
  | null => rw [fletLoop]; exact safe_pure _
  | Pair a d n _ ihn =>
    rw [fletLoop]; unfold fletStep
    repeat (first
      | exact safe_pure _ | exact safe_car _ | exact safe_cdr _ | exact safe_cons _ _
      | exact ihn | apply safe_bind | intro _)
  | Closure a p b e ihp _ _ =>
    rw [fletLoop]; unfold fletStep
    repeat (first
      | exact safe_pure _ | exact safe_car _ | exact safe_cdr _ | exact safe_cons _ _
      | exact ihp | apply safe_bind | intro _)
  | Macro a p b e ihp _ _ =>
    rw [fletLoop]; unfold fletStep
    repeat (first
      | exact safe_pure _ | exact safe_car _ | exact safe_cdr _ | exact safe_cons _ _
      | exact ihp | apply safe_bind | intro _)
  | _ =>
    simp only [fletLoop]; unfold fletStep
    repeat (first
      | exact safe_pure _ | exact safe_fault _ | exact safe_car _ | exact safe_cdr _
      | exact safe_cons _ _ | apply safe_bind | intro _)

theorem safe_callSyn (ev : Obj → Obj → Run Obj) (hev : ∀ e env, Safe (ev e env)) (fuel : Nat)
    (f : SynFn) (exp env : Obj) : Safe (callSyn ev fuel f exp env) := by
  cases f <;> simp only [callSyn]
  all_goals
    first
    | unfold fapply | unfold fquote | unfold flambda | unfold fcond | unfold flet
    | unfold fmacro
  all_goals
    repeat (first
      | exact safe_pure _ | exact safe_car _ | exact safe_cdr _ | exact safe_cons _ _
      | exact safe_intern _ | exact hev _ _ | exact safe_fapplyLoop ev hev _ _
      | exact safe_apply_ ev hev _ _ _ | exact safe_newclosure _ _ _
      | exact safe_fcondLoop ev hev _ _ | exact safe_fletLoop _
      | exact safe_closureParams _ | exact safe_closureBody _ | exact safe_closureEnv _
      | exact safe_newmacro _ _ _ | apply safe_bind | intro _)

theorem safe_apply (ev : Obj → Obj → Run Obj) (hev : ∀ e env, Safe (ev e env)) (fuel : Nat)
    (fn exp env : Obj) : Safe (apply ev fuel fn exp env) := by
  unfold apply
  refine safe_bind (safe_cdr _) fun args => ?_
  cases fn
  all_goals simp only
  all_goals
    repeat (first
      | exact safe_pure _ | exact safe_fault _ | exact safe_bind_append _ _ _ | exact hev _ _
      | exact safe_callSyn ev hev _ _ _ _ | exact safe_map _ _ hev _
      | exact safe_apply_ ev hev _ _ _ | apply safe_bind | intro _)

theorem safe_lookup (exp : Obj) : ∀ env : Obj, Safe (lookup exp env) := by
  intro env
  induction env with
  | null => rw [lookup]; exact safe_pure _
  | Pair a d n _ ihn =>
    rw [lookup]; unfold lookupStep
    repeat (first
      | exact safe_pure _ | exact safe_car _ | exact safe_cdr _ | exact ihn
      | apply safe_bind | intro _ | split)
  | Closure a p b e ihp _ _ =>
    rw [lookup]; unfold lookupStep
    repeat (first
      | exact safe_pure _ | exact safe_car _ | exact safe_cdr _ | exact ihp
      | apply safe_bind | intro _ | split)
  | Macro a p b e ihp _ _ =>
    rw [lookup]; unfold lookupStep
    repeat (first
      | exact safe_pure _ | exact safe_car _ | exact safe_cdr _ | exact ihp
      | apply safe_bind | intro _ | split)
  | _ =>
    simp only [lookup]; unfold lookupStep
    repeat (first
      | exact safe_pure _ | exact safe_fault _ | exact safe_car _ | exact safe_cdr _
      | apply safe_bind | intro _ | split)

theorem safe_evalBody (ev : Obj → Obj → Run Obj) (hev : ∀ e env, Safe (ev e env)) (fuel : Nat)
    (exp env : Obj) : Safe (evalBody ev fuel exp env) := by
  cases exp <;> simp only [evalBody]
  all_goals
    repeat (first
      | exact safe_pure _ | exact safe_fault _ | exact safe_lookup _ _ | exact hev _ _
      | exact safe_printf _ | exact safe_puts _ | exact safe_print_obj _ _
      | exact safe_apply ev hev _ _ _ _ | apply safe_bind | intro _ | split)

/-- Whatever `eval` does, it keeps the symbol table well-formed and only adds
to it. -/
theorem safe_eval : ∀ (fuel : Nat) (exp env : Obj), Safe (eval fuel exp env) := by
  intro fuel
  induction fuel with
  | zero => intro exp env; exact safe_fault _
  | succ k ih => intro exp env; rw [eval_succ]; exact safe_evalBody _ ih _ _ _


/-! ## `let` -/

theorem evalList_cons (ev : Obj → Obj → Run Obj) (env e : Obj) (es : List Obj) (w : World) :
    evalList ev env (e :: es) w =
      (ev e env w).bind fun v w2 =>
        (evalList ev env es (w2.alloc 1)).bind fun vs w3 => .ok (v :: vs) w3 := by
  rw [evalList]; rfl

theorem map_pair (ev : Obj → Obj → Run Obj) (env : Obj) (a : Nat) (d n : Obj) (w : World) :
    map (.Pair a d n) ev env w =
      (ev d env w).bind fun v w2 =>
        (map n ev env (w2.alloc 1)).bind fun tl w3 => .ok (.Pair w2.brk v tl) w3 := by
  rw [map]; rfl

theorem evalList_length (ev : Obj → Obj → Run Obj) (env : Obj) : ∀ (es : List Obj) (w : World)
    (vals : List Obj) (w1 : World), evalList ev env es w = .ok vals w1 →
    vals.length = es.length := by
  intro es
  induction es with
  | nil => intro w vals w1 h; simp only [evalList, run_pure, Res.ok.injEq] at h; rw [← h.1]
  | cons e es ih =>
    intro w vals w1 h
    rw [evalList_cons] at h
    cases h1 : ev e env w with
    | fail err => simp [h1] at h
    | ok v w2 =>
      rw [h1, Res.bind_ok] at h
      cases h2 : evalList ev env es (w2.alloc 1) with
      | fail err => simp [h2] at h
      | ok vs w3 =>
        rw [h2, Res.bind_ok] at h
        simp only [Res.ok.injEq] at h
        rw [← h.1, List.length_cons, ih _ _ _ h2, List.length_cons]

theorem safe_evalList (ev : Obj → Obj → Run Obj) (hev : ∀ e env, Safe (ev e env)) (env : Obj) :
    ∀ es : List Obj, Safe (evalList ev env es) := by
  intro es
  induction es with
  | nil => exact safe_pure _
  | cons e es ih =>
    rw [evalList]
    exact safe_bind (hev _ _) fun _ => safe_bind safe_tagalloc fun _ =>
      safe_bind ih fun _ => safe_pure _

/-- `map` over a proper list of expressions is `evalList`, the values linked
into a fresh list. -/
theorem map_chain (ev : Obj → Obj → Run Obj) (env : Obj) : ∀ (es : List Obj) (list : Obj)
    (w : World), Chain list es .null →
    (∀ (vals : List Obj) (w1 : World), evalList ev env es w = .ok vals w1 →
      ∃ args, Chain args vals .null ∧ map list ev env w = .ok args w1) ∧
    (∀ err : Fault, evalList ev env es w = .fail err → map list ev env w = .fail err) := by
  intro es
  induction es with
  | nil =>
    intro list w h
    simp only [Chain] at h
    subst h
    refine ⟨fun vals w1 hv => ?_, fun err hv => ?_⟩
    · simp only [evalList, run_pure, Res.ok.injEq] at hv
      rw [← hv.1, ← hv.2]
      exact ⟨.null, by simp [Chain], rfl⟩
    · simp [evalList] at hv
  | cons e es ih =>
    intro list w h
    cases list with
    | Pair a d n =>
      simp only [Chain] at h
      obtain ⟨rfl, hn⟩ := h
      rw [map_pair, evalList_cons]
      cases h1 : ev d env w with
      | fail err =>
        refine ⟨fun vals w1 hv => ?_, fun err1 hv => ?_⟩
        · simp at hv
        · simpa using hv
      | ok v w2 =>
        simp only [Res.bind_ok]
        obtain ⟨ih1, ih2⟩ := ih n (w2.alloc 1) hn
        cases h2 : evalList ev env es (w2.alloc 1) with
        | fail err =>
          refine ⟨fun vals w1 hv => ?_, fun err1 hv => ?_⟩
          · simp at hv
          · rw [ih2 err h2]; simpa using hv
        | ok vs w3 =>
          obtain ⟨args, ha1, ha2⟩ := ih1 vs w3 h2
          refine ⟨fun vals w1 hv => ?_, fun err1 hv => ?_⟩
          · simp only [Res.bind_ok, Res.ok.injEq] at hv
            rw [← hv.1, ← hv.2, ha2]
            exact ⟨.Pair w2.brk v args, by simp only [Chain]; exact ⟨trivial, ha1⟩, rfl⟩
          · simp at hv
    | _ => simp [Chain] at h

/-- The loop of `flet` over bindings `(n1 v1) … (nk vk)`: it returns the list of
the names and the list of the expressions, two cells allocated per binding. -/
theorem fletLoop_assoc : ∀ (bs : List (Obj × Obj)) (bindings : Obj) (w : World),
    Assoc bindings bs →
    ∃ ns vs, fletLoop bindings w = .ok (ns, vs) (w.alloc (2 * bs.length)) ∧
      Chain ns (bs.map Prod.fst) .null ∧ Chain vs (bs.map Prod.snd) .null := by
  intro bs
  induction bs with
  | nil =>
    intro bindings w h
    simp only [Assoc, Extends] at h
    subst h
    exact ⟨.null, .null, rfl, by simp [Chain], by simp [Chain]⟩
  | cons f bs ih =>
    intro bindings w h
    cases bindings with
    | Pair a d n =>
      cases d with
      | Pair b key rest =>
        cases rest with
        | Pair c value r2 =>
          cases r2 with
          | null =>
            simp only [Assoc, Extends] at h
            obtain ⟨hk, hv, hn⟩ := h
            obtain ⟨ns, vs, h1, h2, h3⟩ := ih n (w.alloc 2) hn
            refine ⟨.Pair w.brk key ns, .Pair (w.brk + 1) value vs, ?_, ?_, ?_⟩
            · rw [fletLoop]
              simp only [fletStep, run_bind, car_pair, cdr_pair, Res.bind_ok, cons_alloc,
                World.alloc_alloc, h1, run_pure, setNext]
              simp only [World.alloc, List.length_cons, Res.ok.injEq, true_and]
              congr 1
              omega
            · simp only [List.map_cons, Chain]; exact ⟨hk, h2⟩
            · simp only [List.map_cons, Chain]; exact ⟨hv, h3⟩
          | _ => simp [Assoc, Extends] at h
        | _ => simp [Assoc, Extends] at h
      | _ => simp [Assoc, Extends] at h
    | _ => simp [Assoc, Extends] at h


theorem eval_pair (k e : Nat) (h t env : Obj) (w : World) :
    eval (k + 1) (.Pair e h t) env w =
      (eval k h env w).bind fun f w => apply (eval k) k f (.Pair e h t) env w := rfl

theorem eval_symbol (k p : Nat) (s : List Char) (env : Obj) (w : World) :
    eval (k + 1) (.Symbol p s) env w =
      (lookup (.Symbol p s) env w).bind fun r w =>
        match r with
        | some value => .ok value w
        | none => .ok .null
          (w.emit ("unbound variable: ".toList ++ strdup s ++ "\n".toList)) := by
  rw [eval_succ]
  simp only [evalBody, run_bind]
  cases lookup (.Symbol p s) env w with
  | fail e => rfl
  | ok r w1 =>
    cases r with
    | some v => rfl
    | none =>
      simp only [Res.bind_ok, print_obj, printf_run, run_bind, run_pure, World.emit_emit]
      rfl

theorem apply_syntax (ev : Obj → Obj → Run Obj) (fuel a e : Nat) (f : SynFn) (h t env : Obj)
    (w : World) :
    apply ev fuel (.Syntax a f) (.Pair e h t) env w = callSyn ev fuel f (.Pair e h t) env w :=
  rfl

theorem flet_run (ev : Obj → Obj → Run Obj) (e e2 e3 : Nat)
    (head bindings body rest env : Obj) (w : World) :
    flet ev (.Pair e head (.Pair e2 bindings (.Pair e3 body rest))) env w =
      (fletLoop bindings w).bind fun heads w =>
        (intern "lambda".toList w).bind fun lam w =>
          ev (.Pair (w.brk + 3) (.Pair (w.brk + 2) lam (.Pair (w.brk + 1) heads.1
            (.Pair w.brk body .null))) heads.2) env (w.alloc 4) := by
  simp only [flet, run_bind, car_pair, cdr_pair, Res.bind_ok]
  cases fletLoop bindings w with
  | fail err => rfl
  | ok heads w1 =>
    simp only [Res.bind_ok]
    cases hi : intern "lambda".toList w1 with
    | fail err => simp only [run_bind, hi, Res.bind_fail]
    | ok lam w2 =>
      simp only [run_bind, hi, Res.bind_ok, cons_alloc, World.alloc_alloc]
      rfl

/-- A symbol of the table with another name than `.` is not the marker that
`intern(".")` returns. -/
theorem not_marker (w : World) (hw : TableInv w.brk w.symbols) (p : Nat) (s : List Char)
    (hin : InTable (.Symbol p s) w.symbols) (hs : s ≠ ".".toList) (dot : Obj) (w1 : World)
    (hdot : intern ".".toList w = .ok dot w1) : ptrEq (.Symbol p s) dot = false := by
  obtain ⟨q, w2, h1, _, _, _, _, h6⟩ := intern_exact ".".toList w hw (by decide) (by decide)
  rw [hdot] at h1
  simp only [Res.ok.injEq] at h1
  obtain ⟨rfl, _⟩ := h1
  cases hp : ptrEq (.Symbol p s) (.Symbol q ".".toList) with
  | false => rfl
  | true =>
    exfalso
    have hp1 : (Obj.Symbol p s).ptr = (Obj.Symbol q ".".toList).ptr := by
      simpa [ptrEq] using hp
    rcases h6 with h6 | h6
    · have := inTable_unique _ _ _ _ hw hin h6 hp1
      simp only [Obj.Symbol.injEq] at this
      exact hs this.2
    · obtain ⟨a1, n1, e1, hlt, _⟩ := inTable_symbol _ _ _ hw hin
      simp only [Obj.Symbol.injEq] at e1
      simp only [Obj.ptr, Option.some.injEq] at hp1
      omega

/-- The `let` form, in an environment where `let` and `lambda` are the
builtins: `flet` builds the lists of names and expressions and the form
`((lambda names body) expressions…)`, whose evaluation makes the closure of
names and body over `env`, evaluates the expressions with `map` and applies
the closure to the values. -/
theorem eval_let_form (fuel e e2 e3 a b : Nat) (head bindings body rest env lam : Obj)
    (bs : List (Obj × Obj)) (w : World) (hw : TableInv w.brk w.symbols)
    (hlet : eval (fuel + 3) head env w = .ok (.Syntax a .flet) w)
    (hf : findEntry "lambda".toList w.symbols = some lam)
    (hlam : ∀ w1 : World, lookup lam env w1 = .ok (some (.Syntax b .flambda)) w1)
    (hb : Assoc bindings bs) :
    ∃ ns vs c, Chain ns (bs.map Prod.fst) .null ∧ Chain vs (bs.map Prod.snd) .null ∧
      eval (fuel + 4) (.Pair e head (.Pair e2 bindings (.Pair e3 body rest))) env w =
        (map vs (eval (fuel + 2)) env (w.alloc (2 * bs.length + 5))).bind fun args w1 =>
          _apply (eval (fuel + 2)) (fuel + 2) (.Closure c ns body env) args w1 := by
  obtain ⟨ns, vs, hloop, hns, hvs⟩ := fletLoop_assoc bs bindings w hb
  obtain ⟨_, p, s, rfl, _⟩ := findEntry_inTable _ _ _ hf
  have hint : intern "lambda".toList (w.alloc (2 * bs.length)) =
      .ok (.Symbol p s) (w.alloc (2 * bs.length)) :=
    intern_of_findEntry _ _ _ (TableInv.mono (Nat.le_add_right _ _) hw) hf
  refine ⟨ns, vs, w.brk + (2 * bs.length + 4), hns, hvs, ?_⟩
  rw [eval_pair, hlet, Res.bind_ok, apply_syntax]
  simp only [callSyn]
  rw [flet_run, hloop, Res.bind_ok, hint, Res.bind_ok]
  rw [eval_pair, eval_pair, eval_symbol, hlam, Res.bind_ok]
  simp only [Res.bind_ok, apply_syntax, callSyn, flambda_run, apply_closure, World.alloc_alloc]
  have e1 : 2 * bs.length + 4 + 1 = 2 * bs.length + 5 := by omega
  rw [e1]
  rfl

/-- C9, as amended. `let` semantics: in an environment where `let` and
`lambda` both resolve to the builtin forms, for bindings `(n1 v1) … (nk vk)`
whose names are interned symbols other than the marker, the form
`(let ((n1 v1) … (nk vk)) body)` evaluates the `vi` once each, left to right,
in `env` (`evalList`), and then evaluates as `body` does in an environment
that is the frames `(ni value-of-vi)` followed by `env`; a fault among the
`vi` is the fault of the form.  In particular
`(let ((x (quote a)) (y (quote b))) (cons x y))` evaluates to `(a . b)`. -/
theorem let_semantics (fuel e e2 e3 a b : Nat) (head bindings body rest env lam : Obj)
    (bs : List (Obj × Obj)) (w : World) (hw : Reachable w)
    (hlet : eval (fuel + 3) head env w = .ok (.Syntax a .flet) w)
    (hf : findEntry "lambda".toList w.symbols = some lam)
    (hlam : ∀ w1 : World, lookup lam env w1 = .ok (some (.Syntax b .flambda)) w1)
    (hb : Assoc bindings bs)
    (hnames : ∀ n ∈ bs.map Prod.fst, ∃ p s, n = .Symbol p s ∧ InTable n w.symbols ∧
      s ≠ ".".toList) :
    (∀ (vals : List Obj) (w1 : World),
      evalList (eval (fuel + 2)) env (bs.map Prod.snd) (w.alloc (2 * bs.length + 5)) =
        .ok vals w1 →
      ∃ env1 w2, Extends env1 ((bs.map Prod.fst).zip vals) env ∧ w2.stdout = w1.stdout ∧
        eval (fuel + 4) (.Pair e head (.Pair e2 bindings (.Pair e3 body rest))) env w =
          eval (fuel + 2) body env1 w2) ∧
    (∀ err : Fault,
      evalList (eval (fuel + 2)) env (bs.map Prod.snd) (w.alloc (2 * bs.length + 5)) =
        .fail err →
      eval (fuel + 4) (.Pair e head (.Pair e2 bindings (.Pair e3 body rest))) env w =
        .fail err) ∧
    output 20 "(let ((x (quote a)) (y (quote b))) (cons x y))" = some "(a . b)\n" := by
  have hT := hw.tableInv
  obtain ⟨ns, vs, c, hns, hvs, heq⟩ :=
    eval_let_form fuel e e2 e3 a b head bindings body rest env lam bs w hT hlet hf hlam hb
  obtain ⟨hm1, hm2⟩ := map_chain (eval (fuel + 2)) env (bs.map Prod.snd) vs
    (w.alloc (2 * bs.length + 5)) hvs
  refine ⟨fun vals w1 hev => ?_, fun err hev => ?_, by decide!⟩
  · obtain ⟨args, ha1, ha2⟩ := hm1 vals w1 hev
    have hT0 : TableInv (w.alloc (2 * bs.length + 5)).brk (w.alloc (2 * bs.length + 5)).symbols :=
      TableInv.mono (Nat.le_add_right _ _) hT
    have hg := (safe_evalList _ (safe_eval (fuel + 2)) env _).grows _ _ _ hT0 hev
    obtain ⟨q, w3, hdot, _⟩ := intern_exact ".".toList w1 hg.1 (by decide) (by decide)
    have hnot : ∀ n ∈ bs.map Prod.fst, ptrEq n (.Symbol q ".".toList) = false := by
      intro n hn
      obtain ⟨p, s, rfl, hin, hs⟩ := hnames n hn
      exact not_marker w1 hg.1 p s (hg.2.1 _ hin) hs _ _ hdot
    have hlen : vals.length ≤ (bs.map Prod.fst).length := by
      rw [evalList_length _ _ _ _ _ _ hev]; simp
    obtain ⟨b0, w2, h1, h2, _⟩ := bind_append_frames (bs.map Prod.fst) vals ns args env w1
      hg.1 hns ha1 hlen _ _ hdot hnot
    refine ⟨_, w2, extends_mkFrames env _ b0, h2, ?_⟩
    rw [heq, ha2, Res.bind_ok, _apply_closure, h1]
    rfl
  · rw [heq, hm2 err hev]
    rfl


theorem letEnvShadowed_assoc :
    Assoc letEnvShadowed [(.Symbol 3 "lambda".toList, .Symbol 9 ['a']),
      (.Symbol 1 "let".toList, .Syntax 11 .flet),
      (.Symbol 3 "lambda".toList, .Syntax 12 .flambda),
      (.Symbol 5 "quote".toList, .Syntax 13 .fquote)] := by
  simp [Assoc, Extends, letEnvShadowed, letEnv, mkFrames]

theorem lookup_let_shadowed (w : World) :
    lookup (.Symbol 1 "let".toList) letEnvShadowed w = .ok (some (.Syntax 11 .flet)) w := by
  rw [lookup_assoc _ w _ letEnvShadowed letEnvShadowed_assoc]
  rfl

theorem lookup_lambda_shadowed (w : World) :
    lookup (.Symbol 3 "lambda".toList) letEnvShadowed w = .ok (some (.Symbol 9 ['a'])) w := by
  rw [lookup_assoc _ w _ letEnvShadowed letEnvShadowed_assoc]
  rfl

theorem lookup_x_shadowed (w : World) :
    lookup (.Symbol 7 ['x']) letEnvShadowed w = .ok none w := by
  rw [lookup_assoc _ w _ letEnvShadowed letEnvShadowed_assoc]
  rfl

theorem lookup_quote_shadowed (w : World) :
    lookup (.Symbol 5 "quote".toList) letEnvShadowed w = .ok (some (.Syntax 13 .fquote)) w := by
  rw [lookup_assoc _ w _ letEnvShadowed letEnvShadowed_assoc]
  rfl

theorem apply_null (ev : Obj → Obj → Run Obj) (fuel e : Nat) (h t env : Obj) (w : World) :
    apply ev fuel .null (.Pair e h t) env w = .fail .nullDeref := rfl

/-- C9 as stated fails where `lambda` is rebound. In the environment
`letEnvShadowed`, `let` and `quote` resolve to the builtins and `lambda` is
bound to a symbol.  For the form `(let ((x (quote a))) x)`: the head resolves
to the builtin `let`; in every environment made of the frame `(x a)` followed
by `letEnvShadowed` the body `x` evaluates to `a`; `(quote a)` evaluates to
`a`; and yet the form itself, with any fuel from 5 on, dereferences a null
pointer, because `flet` evaluates the form `((lambda (x) x) (quote a))` in the
environment of the call.  The program does the same on
`((lambda (lambda) (let ((x (quote a))) x)) (quote b))`. -/
theorem let_fails_when_lambda_is_rebound :
    (∀ (fuel : Nat) (w : World),
      eval (fuel + 1) (.Symbol 1 "let".toList) letEnvShadowed w = .ok (.Syntax 11 .flet) w) ∧
    (∀ (fuel : Nat) (env1 : Obj) (w2 : World),
      Extends env1 [(.Symbol 7 ['x'], .Symbol 9 ['a'])] letEnvShadowed →
      eval (fuel + 1) (.Symbol 7 ['x']) env1 w2 = .ok (.Symbol 9 ['a']) w2) ∧
    (∀ (fuel : Nat) (w : World),
      eval (fuel + 2) (.Pair 47 (.Symbol 5 "quote".toList) (.Pair 46 (.Symbol 9 ['a']) .null))
        letEnvShadowed w = .ok (.Symbol 9 ['a']) w) ∧
    (∀ fuel : Nat, eval (fuel + 5) letForm letEnvShadowed letWorld = .fail .nullDeref) ∧
    main 30 (World.init "((lambda (lambda) (let ((x (quote a))) x)) (quote b))".toList) =
      .fail .nullDeref := by
  refine ⟨fun fuel w => ?_, fun fuel env1 w2 h => ?_, fun fuel w => ?_, fun fuel => ?_,
    by decide!⟩
  · rw [eval_symbol, lookup_let_shadowed]; rfl
  · rw [eval_symbol, lookup_extends _ w2 _ env1 _ h]
    rfl
  · rw [eval_pair, eval_symbol, lookup_quote_shadowed]
    rfl
  · have hloop : fletLoop letBindings letWorld = .ok (.Pair 211 (.Symbol 7 ['x']) .null,
        .Pair 212 (.Pair 47 (.Symbol 5 "quote".toList) (.Pair 46 (.Symbol 9 ['a']) .null)) .null)
        (letWorld.alloc 2) := by decide!
    have hint : intern "lambda".toList (letWorld.alloc 2) =
        .ok (.Symbol 3 "lambda".toList) (letWorld.alloc 2) := by decide!
    rw [letForm, eval_pair, eval_symbol, lookup_let_shadowed]
    simp only [Res.bind_ok, apply_syntax, callSyn]
    rw [flet_run, hloop, Res.bind_ok, hint, Res.bind_ok]
    rw [eval_pair, eval_pair, eval_symbol, lookup_lambda_shadowed]
    simp only [Res.bind_ok, apply, cdr_pair, run_bind, map_pair]
    rw [eval_pair, eval_symbol, lookup_x_shadowed]
    simp only [Res.bind_ok, apply_null, Res.bind_fail]

theorem reachable_letWorld : Reachable letWorld :=
  Reachable.other _ _
    (Reachable.intern _ "a".toList (.Symbol 9 ['a']) _
      (Reachable.intern _ "x".toList (.Symbol 7 ['x']) _
        (Reachable.intern _ "quote".toList (.Symbol 5 "quote".toList) _
          (Reachable.intern _ "lambda".toList (.Symbol 3 "lambda".toList) _
            (Reachable.intern (World.init []) "let".toList (.Symbol 1 "let".toList)
              ((World.init []).withSymbol "let".toList) (Reachable.start _ rfl) (by decide!))
            (by decide! : intern "lambda".toList ((World.init []).withSymbol "let".toList) =
              .ok (.Symbol 3 "lambda".toList)
                (((World.init []).withSymbol "let".toList).withSymbol "lambda".toList)))
          (by decide! : intern "quote".toList
              (((World.init []).withSymbol "let".toList).withSymbol "lambda".toList) =
              .ok (.Symbol 5 "quote".toList)
                ((((World.init []).withSymbol "let".toList).withSymbol "lambda".toList).withSymbol
                  "quote".toList)))
        (by decide! : intern "x".toList
            ((((World.init []).withSymbol "let".toList).withSymbol "lambda".toList).withSymbol
              "quote".toList) =
            .ok (.Symbol 7 ['x'])
              (((((World.init []).withSymbol "let".toList).withSymbol "lambda".toList).withSymbol
                "quote".toList).withSymbol "x".toList)))
      (by decide! : intern "a".toList
          (((((World.init []).withSymbol "let".toList).withSymbol "lambda".toList).withSymbol
            "quote".toList).withSymbol "x".toList) =
          .ok (.Symbol 9 ['a'])
            ((((((World.init []).withSymbol "let".toList).withSymbol "lambda".toList).withSymbol
              "quote".toList).withSymbol "x".toList).withSymbol "a".toList)))
    (rfl : letWorld.symbols = _) (by decide)

theorem inTable_x_letWorld : InTable (.Symbol 7 ['x']) letWorld.symbols := by
  have h : letWorld.symbols = .Pair 10 (.Symbol 9 ['a']) (.Pair 8 (.Symbol 7 ['x'])
      (.Pair 6 (.Symbol 5 "quote".toList) (.Pair 4 (.Symbol 3 "lambda".toList)
        (.Pair 2 (.Symbol 1 "let".toList) .null)))) := by decide!
  rw [h]
  exact Or.inr (Or.inl rfl)

theorem lookup_lambda_letEnv (w : World) :
    lookup (.Symbol 3 "lambda".toList) letEnv w = .ok (some (.Syntax 12 .flambda)) w := by
  rw [lookup_assoc _ w _ letEnv (extends_mkFrames .null _ 20)]
  rfl

/-- C9, as amended, for the form `(let ((x (quote a))) x)` in an environment
in which `let`, `lambda` and `quote` are the builtins: it evaluates as `x`
does in an environment that is the frame `(x a)` followed by that
environment. -/
theorem let_semantics_witness :
    ∃ env1 w2, Extends env1 ([Obj.Symbol 7 ['x']].zip [Obj.Symbol 9 ['a']]) letEnv ∧
      w2.stdout = (letWorld.alloc 8).stdout ∧
      eval 4 letForm letEnv letWorld = eval 2 (.Symbol 7 ['x']) env1 w2 :=
  (let_semantics 0 53 52 51 11 12 (.Symbol 1 "let".toList) letBindings (.Symbol 7 ['x']) .null
    letEnv (.Symbol 3 "lambda".toList)
    [(.Symbol 7 ['x'], .Pair 47 (.Symbol 5 "quote".toList) (.Pair 46 (.Symbol 9 ['a']) .null))]
    letWorld reachable_letWorld (by decide!) (by decide!) lookup_lambda_letEnv
    (by simp [Assoc, Extends, letBindings])
    (fun n hn => by
      simp only [List.map_cons, List.map_nil, List.mem_singleton] at hn
      subst hn
      exact ⟨7, ['x'], rfl, inTable_x_letWorld, by decide⟩)).1
    [.Symbol 9 ['a']] (letWorld.alloc 8) (by decide!)


/-! ## The accessors off pairs -/

/-- C15, at the inputs where code and claim part. `fpair` and `fatom` read
the tag of their argument without testing it for null, so on an absent
argument they dereference the null pointer, where `fnull` tests the pointer
and returns the canonical true.  On every other argument the three return the
canonical true or absent as the claim says.  The program fails on
`(pair? null)`, `(symbol? null)` and `(pair? (quote ()))`. -/
theorem predicates_dereference_absent :
    (∀ (c : Nat) (v rest : Obj) (w : World), fpair (.Pair c v rest) w =
      match v with
      | .null => .fail .nullDeref
      | .Pair _ _ _ => e_true w
      | _ => .ok e_false w) ∧
    (∀ (c : Nat) (v rest : Obj) (w : World), fatom (.Pair c v rest) w =
      match v with
      | .null => .fail .nullDeref
      | .Symbol _ _ => e_true w
      | _ => .ok e_false w) ∧
    (∀ (c : Nat) (v rest : Obj) (w : World), fnull (.Pair c v rest) w =
      match v with
      | .null => e_true w
      | _ => .ok e_false w) ∧
    main 20 (World.init "(pair? null)".toList) = .fail .nullDeref ∧
    main 20 (World.init "(symbol? null)".toList) = .fail .nullDeref ∧
    main 20 (World.init "(pair? (quote ()))".toList) = .fail .nullDeref ∧
    output 20 "(null? null)" = some "(quote t)\n" ∧
    output 20 "(pair? (quote (a)))" = some "(quote t)\n" ∧
    output 20 "(symbol? (quote a))" = some "(quote t)\n" ∧
    output 20 "(pair? (quote a))" = some "null\n" := by
  refine ⟨fun c v rest w => ?_, fun c v rest w => ?_, fun c v rest w => ?_, by decide!,
    by decide!, by decide!, by decide!, by decide!, by decide!, by decide!⟩
  · cases v <;> rfl
  · cases v <;> rfl
  · cases v <;> rfl

/-! ## A closure as an expression -/

/-- C18, at the input where code and claim part. `eval` of a Closure
evaluates the body in the environment `eval` was called with, not in the one
the closure captured: for the closure with body `x` captured where `x` is
`a`, evaluated where `x` is `b`, the result is `b`, and evaluating the body
in the captured environment gives `a`. -/
theorem eval_closure_uses_current_env :
    (∀ (fuel c : Nat) (params body D E : Obj) (w : World),
      eval (fuel + 1) (.Closure c params body D) E w = eval fuel body E w) ∧
    eval 2 (.Closure 40 .null (.Symbol 1 ['x'])
        (mkFrames 10 [(.Symbol 1 ['x'], .Symbol 2 ['a'])] .null))
      (mkFrames 20 [(.Symbol 1 ['x'], .Symbol 3 ['b'])] .null) (World.init []) =
      .ok (.Symbol 3 ['b']) (World.init []) ∧
    eval 1 (.Symbol 1 ['x']) (mkFrames 10 [(.Symbol 1 ['x'], .Symbol 2 ['a'])] .null)
      (World.init []) = .ok (.Symbol 2 ['a']) (World.init []) :=
  ⟨fun _ _ _ _ _ _ _ => rfl, by decide!, by decide!⟩

/-! ## The printer on the other variants -/

/-- What `print_obj` does on any value: it returns, having printed a text
that depends on the value and on `head_of_list` only. -/
theorem print_obj_emits (v : Obj) : ∀ h : Bool, ∃ s : List Char, ∀ w : World,
    print_obj v h w = .ok () (w.emit s) := by
  induction v with
  | null => intro h; exact ⟨_, fun w => by rw [print_obj, printf_run]⟩
  | Symbol a s => intro h; exact ⟨_, fun w => by rw [print_obj, printf_run]⟩
  | Closure a p b e => intro h; exact ⟨_, fun w => by rw [print_obj, printf_run]⟩
  | Primitive a f =>
    intro h; exact ⟨[], fun w => by simp only [print_obj, run_pure, World.emit_nil]⟩
  | Macro a p b e =>
    intro h; exact ⟨[], fun w => by simp only [print_obj, run_pure, World.emit_nil]⟩
  | Syntax a f =>
    intro h; exact ⟨[], fun w => by simp only [print_obj, run_pure, World.emit_nil]⟩
  | Pair p d n ihd ihn =>
    intro h
    obtain ⟨sd, hd⟩ := ihd true
    obtain ⟨sn, hn⟩ := ihn false
    cases n with
    | null =>
      refine ⟨(if h then "(".toList else []) ++ sd ++ ")".toList, fun w => ?_⟩
      rw [print_obj.eq_3]
      cases h <;>
      simp only [run_bind, Res.bind_ok, hd, printf_run, World.emit_emit, run_pure, if_true,
        if_false, Bool.false_eq_true, strdup_lit_open, strdup_lit_close, List.nil_append,
        List.append_assoc, World.emit_nil]
    | Pair q d2 n2 =>
      refine ⟨(if h then "(".toList else []) ++ sd ++ " ".toList ++ sn, fun w => ?_⟩
      rw [print_obj.eq_4]
      cases h <;>
      simp only [run_bind, Res.bind_ok, hd, hn, printf_run, World.emit_emit, run_pure, if_true,
        if_false, Bool.false_eq_true, strdup_lit_open, strdup_lit_space, List.nil_append,
        List.append_assoc, World.emit_nil]
    | _ =>
      refine ⟨(if h then "(".toList else []) ++ sd ++ " . ".toList ++ sn ++ ")".toList,
        fun w => ?_⟩
      rw [print_obj.eq_5 _ _ _ _ (by intro e; cases e) (by intro _ _ _ e; cases e)]
      cases h <;>
      simp only [run_bind, Res.bind_ok, hd, hn, printf_run, World.emit_emit, run_pure, if_true,
        if_false, Bool.false_eq_true, strdup_lit_open, strdup_lit_close, strdup_lit_dot,
        List.nil_append, List.append_assoc, World.emit_nil]

/-- C19, at the input where code and claim part. `print_obj` returns on every
value of the six variants and on absent, and prints `<CLOSURE>` for every
Closure, whatever it holds; but it has no branch for the tag `_Macro`, and
for a Macro, as for a Primitive and a Syntax, it prints nothing: the program
prints an empty line for `(macro (lambda (x) x))`. -/
theorem print_obj_prints_nothing_for_macro :
    (∀ (v : Obj) (h : Bool) (w : World), ∃ s : List Char, print_obj v h w = .ok () (w.emit s)) ∧
    (∀ (a : Nat) (p b e : Obj) (h : Bool) (w : World),
      print_obj (.Closure a p b e) h w = .ok () (w.emit "<CLOSURE>".toList)) ∧
    (∀ (a : Nat) (p b e : Obj) (h : Bool) (w : World),
      print_obj (.Macro a p b e) h w = .ok () w) ∧
    output 20 "(lambda (x) x)" = some "<CLOSURE>\n" ∧
    output 20 "(macro (lambda (x) x))" = some "\n" := by
  refine ⟨fun v h w => ?_, fun a p b e h w => ?_, fun a p b e h w => ?_, by decide!, by decide!⟩
  · obtain ⟨s, hs⟩ := print_obj_emits v h
    exact ⟨s, hs w⟩
  · rw [print_obj, printf_run]; rfl
  · simp only [print_obj, run_pure]

/-! ## Heads that cannot be called -/

theorem puts_run (s : List Char) (w : World) :
    puts s w = .ok () (w.emit (strdup s ++ ['\n'])) := by
  simp [puts, World.emit, List.append_assoc]

theorem strdup_lit_not_applicable :
    strdup "not applicable: ".toList ++ ['\n'] = "not applicable: \n".toList := by decide

theorem strdup_lit_newline : strdup "\n".toList = "\n".toList := by decide

/-- C14, at the input where code and claim part. A call form is evaluated by
evaluating its head and handing the value to `apply`.  When the value is a
Symbol or a Pair, `apply` evaluates the arguments and `_apply` prints the
diagnostic and returns absent, as the claim says; when it is absent, as for an
unbound head, `apply` reads its tag and dereferences the null pointer.  The
program fails on `(foo)`. -/
theorem call_with_absent_head_fails :
    (∀ (fuel e : Nat) (h t env : Obj) (w : World),
      eval (fuel + 1) (.Pair e h t) env w =
        (eval fuel h env w).bind fun f w1 => apply (eval fuel) fuel f (.Pair e h t) env w1) ∧
    (∀ (ev : Obj → Obj → Run Obj) (fuel e : Nat) (h t env : Obj) (w : World),
      apply ev fuel .null (.Pair e h t) env w = .fail .nullDeref) ∧
    (∀ (ev : Obj → Obj → Run Obj) (fuel a e : Nat) (s : List Char) (h t env : Obj) (w : World),
      apply ev fuel (.Symbol a s) (.Pair e h t) env w =
        (map t ev env w).bind fun _ w2 =>
          .ok .null (w2.emit ("not applicable: \n".toList ++ strdup s ++ "\n".toList))) ∧
    (∀ (a : Nat) (d n : Obj), ∃ s : List Char,
      ∀ (ev : Obj → Obj → Run Obj) (fuel e : Nat) (h t env : Obj) (w : World),
        apply ev fuel (.Pair a d n) (.Pair e h t) env w =
          (map t ev env w).bind fun _ w2 =>
            .ok .null (w2.emit ("not applicable: \n".toList ++ s ++ "\n".toList))) ∧
    main 20 (World.init "(foo)".toList) = .fail .nullDeref ∧
    output 20 "((quote a))" = some "not applicable: \na\nnull\n" ∧
    output 20 "((quote (a b)) (quote c))" = some "not applicable: \n(a b)\nnull\n" := by
  refine ⟨fun _ _ _ _ _ _ => rfl, fun _ _ _ _ _ _ _ => rfl, ?_, ?_, by decide!, by decide!,
    by decide!⟩
  · intro ev fuel a e s h t env w
    simp only [apply, cdr_pair, run_bind, Res.bind_ok]
    cases map t ev env w with
    | fail err => rfl
    | ok vals w2 =>
      simp only [Res.bind_ok, _apply, run_bind, puts_run, print_obj, printf_run, run_pure,
        World.emit_emit, strdup_lit_not_applicable, strdup_lit_newline,
        List.append_assoc]
  · intro a d n
    obtain ⟨s, hs⟩ := print_obj_emits (.Pair a d n) true
    refine ⟨s, fun ev fuel e h t env w => ?_⟩
    simp only [apply, cdr_pair, run_bind, Res.bind_ok]
    cases map t ev env w with
    | fail err => rfl
    | ok vals w2 =>
      simp only [Res.bind_ok, _apply, run_bind, puts_run, hs, printf_run, run_pure,
        World.emit_emit, strdup_lit_not_applicable, strdup_lit_newline,
        List.append_assoc]


/-! ## Macros -/

theorem fmacro_run (ev : Obj → Obj → Run Obj) (e e2 cl : Nat)
    (head c rest env params body D : Obj) (w w1 : World)
    (h : ev c env w = .ok (.Closure cl params body D) w1) :
    fmacro ev (.Pair e head (.Pair e2 c rest)) env w =
      .ok (.Macro w1.brk params body D) (w1.alloc 1) := by
  simp only [ fmacro, run_bind, cdr_pair, car_pair, Res.bind_ok, h]
  rfl

theorem apply_of_macro (ev : Obj → Obj → Run Obj) (fuel m e : Nat)
    (params body D head args env : Obj) (w : World) :
    apply ev fuel (.Macro m params body D) (.Pair e head args) env w =
      (bind_append params args D w).bind fun env1 w1 => ev body env1 w1 := rfl

theorem ptrEq_symbol_self (p : Nat) (s : List Char) :
    ptrEq (.Symbol p s) (.Symbol p s) = true := by
  simp [ptrEq, Obj.ptr]

/-- C11. Macro application passes the arguments unevaluated and returns the
value of the body as it is: `(macro c)`, where `c` evaluates to a closure of
`params` and `body` over `D`, is the Macro of `params` and `body` over `D`; a
call form whose head evaluates to that Macro, in any environment, evaluates
to what `body` evaluates to in `bind_append(params, args, D)`, `args` being
the rest of the form as it stands.  In particular, where `macro`, `lambda`
and `quote` are the builtins and `x` is an interned symbol other than the
marker, `((macro (lambda (x) x)) e)` evaluates to the object `e` itself for
every expression `e`, printing nothing, as `(quote e)` does. -/
theorem macro_application (fuel a b q pm pl pq px : Nat) (sm sl sq sx : List Char)
    (env : Obj) (w : World) (hw : Reachable w)
    (hmac : ∀ w1 : World,
      lookup (.Symbol pm sm) env w1 = .ok (some (.Syntax a SynFn.fmacro)) w1)
    (hlam : ∀ w1 : World, lookup (.Symbol pl sl) env w1 = .ok (some (.Syntax b .flambda)) w1)
    (hquote : ∀ w1 : World, lookup (.Symbol pq sq) env w1 = .ok (some (.Syntax q .fquote)) w1)
    (hx : InTable (.Symbol px sx) w.symbols) (hdot : sx ≠ ".".toList) :
    (∀ (ev : Obj → Obj → Run Obj) (e e2 cl : Nat) (head c rest cenv params body D : Obj)
        (w0 w1 : World), ev c cenv w0 = .ok (.Closure cl params body D) w1 →
      fmacro ev (.Pair e head (.Pair e2 c rest)) cenv w0 =
        .ok (.Macro w1.brk params body D) (w1.alloc 1)) ∧
    (∀ (k e m : Nat) (head args E params body D : Obj) (w0 w1 : World),
      eval k head E w0 = .ok (.Macro m params body D) w1 →
      eval (k + 1) (.Pair e head args) E w0 =
        (bind_append params args D w1).bind fun env1 w2 => eval k body env1 w2) ∧
    (∀ e : Obj, ∃ w2,
      eval (fuel + 4)
        (identityMacroForm (.Symbol pm sm) (.Symbol pl sl) (.Symbol px sx) e) env w =
        .ok e w2 ∧ w2.stdout = w.stdout) ∧
    (∀ (e : Obj) (e1 e2 : Nat) (rest : Obj),
      eval (fuel + 2) (.Pair e1 (.Symbol pq sq) (.Pair e2 e rest)) env w = .ok e w) ∧
    output 20 "((macro (lambda (x) x)) (cons a b))" = some "(cons a b)\n" ∧
    output 20 "(quote (cons a b))" = some "(cons a b)\n" := by
  refine ⟨fun ev e e2 cl head c rest cenv params body D w0 w1 h =>
      fmacro_run ev e e2 cl head c rest cenv params body D w0 w1 h,
    fun k e m head args E params body D w0 w1 h => ?_, fun e => ?_, fun e e1 e2 rest => ?_,
    by decide!, by decide!⟩
  · rw [eval_pair, h, Res.bind_ok, apply_of_macro]
  · have hT : TableInv (w.alloc 2).brk (w.alloc 2).symbols :=
      TableInv.mono (Nat.le_add_right _ _) hw.tableInv
    obtain ⟨d, w3, hd, _⟩ := intern_exact ".".toList (w.alloc 2) hT (by decide) (by decide)
    have hnot : ∀ p ∈ [Obj.Symbol px sx], ptrEq p (.Symbol d ".".toList) = false := by
      intro p hp
      simp only [List.mem_singleton] at hp
      subst hp
      exact not_marker (w.alloc 2) hT px sx hx hdot _ _ hd
    obtain ⟨b0, w2, h1, h2, _⟩ := bind_append_frames [.Symbol px sx] [e]
      (.Pair 64 (.Symbol px sx) .null) (.Pair 62 e .null) env (w.alloc 2) hT
      (by simp [Chain]) (by simp [Chain]) (by simp) _ _ hd hnot
    have hclo : eval (fuel + 2) (.Pair 66 (.Symbol pl sl) (.Pair 65
        (.Pair 64 (.Symbol px sx) .null) (.Pair 63 (.Symbol px sx) .null))) env w =
        .ok (.Closure w.brk (.Pair 64 (.Symbol px sx) .null) (.Symbol px sx) env)
          (w.alloc 1) := by
      rw [eval_pair, eval_symbol, hlam]
      simp only [Res.bind_ok, apply_syntax, callSyn, flambda_run]
    refine ⟨w2, ?_, h2⟩
    rw [identityMacroForm, eval_pair, eval_pair, eval_symbol, hmac]
    simp only [Res.bind_ok, apply_syntax, callSyn]
    rw [fmacro_run _ _ _ _ _ _ _ _ _ _ _ _ _ hclo, Res.bind_ok, apply_of_macro]
    have e1 : (w.alloc 1).alloc 1 = w.alloc 2 := by rw [World.alloc_alloc]
    rw [e1, h1, Res.bind_ok, eval_symbol,
      lookup_extends _ w2 _ _ _ (extends_mkFrames env _ b0)]
    simp only [List.zip_cons_cons, List.zip_nil_right, firstFrame, List.find?, ptrEq_symbol_self,
      Res.bind_ok]
  · rw [eval_pair, eval_symbol, hquote]
    rfl

theorem reachable_withSymbol (w : World) (sym : List Char) (hw : Reachable w)
    (hf : findEntry sym w.symbols = none) : Reachable (w.withSymbol sym) :=
  Reachable.intern w sym (.Symbol w.brk (strdup sym)) _ hw
    (by rw [intern_eq sym w hw.tableInv, hf])

theorem reachable_alloc (w : World) (n : Nat) (hw : Reachable w) : Reachable (w.alloc n) :=
  Reachable.other w _ hw rfl (Nat.le_add_right _ _)

theorem reachable_macroWorld : Reachable macroWorld :=
  reachable_alloc _ _ (reachable_withSymbol _ _ (reachable_withSymbol _ _
    (reachable_withSymbol _ _ (reachable_withSymbol _ _ (Reachable.start _ rfl) (by decide!))
      (by decide!)) (by decide!)) (by decide!))

theorem lookup_macroEnv (w : World) :
    lookup (.Symbol 1 "macro".toList) macroEnv w = .ok (some (.Syntax 11 SynFn.fmacro)) w ∧
    lookup (.Symbol 3 "lambda".toList) macroEnv w = .ok (some (.Syntax 12 .flambda)) w ∧
    lookup (.Symbol 5 "quote".toList) macroEnv w = .ok (some (.Syntax 13 .fquote)) w := by
  refine ⟨?_, ?_, ?_⟩ <;>
  · rw [lookup_assoc _ w _ macroEnv (extends_mkFrames .null _ 20)]
    rfl

theorem inTable_x_macroWorld : InTable (.Symbol 7 ['x']) macroWorld.symbols := by
  have h : macroWorld.symbols = .Pair 8 (.Symbol 7 ['x'])
      (.Pair 6 (.Symbol 5 "quote".toList) (.Pair 4 (.Symbol 3 "lambda".toList)
        (.Pair 2 (.Symbol 1 "macro".toList) .null))) := by decide!
  rw [h]
  exact Or.inl rfl

/-- C11 for the expression `(x)` in an environment in which `macro`, `lambda`
and `quote` are the builtins: `((macro (lambda (x) x)) (x))` evaluates to
the list `(x)` it holds. -/
theorem macro_application_witness :
    ∃ w2, eval 4 (identityMacroForm (.Symbol 1 "macro".toList) (.Symbol 3 "lambda".toList)
        (.Symbol 7 ['x']) (.Pair 61 (.Symbol 7 ['x']) .null)) macroEnv macroWorld =
      .ok (.Pair 61 (.Symbol 7 ['x']) .null) w2 ∧ w2.stdout = macroWorld.stdout :=
  (macro_application 0 11 12 13 1 3 5 7 "macro".toList "lambda".toList "quote".toList ['x']
    macroEnv macroWorld reachable_macroWorld (fun w => (lookup_macroEnv w).1)
    (fun w => (lookup_macroEnv w).2.1) (fun w => (lookup_macroEnv w).2.2)
    inTable_x_macroWorld (by decide)).2.2.1 (.Pair 61 (.Symbol 7 ['x']) .null)


/-! ## The `apply` form -/

theorem chain_append_tail : ∀ (xs : List Obj) (o tl : Obj) (ys : List Obj),
    Chain o xs tl → Chain tl ys .null → Chain o (xs ++ ys) .null := by
  intro xs
  induction xs with
  | nil => intro o tl ys h1 h2; simp only [Chain] at h1; subst h1; exact h2
  | cons x xs ih =>
    intro o tl ys h1 h2
    cases o with
    | Pair a d n => exact ⟨h1.1, ih n tl ys h1.2 h2⟩
    | _ => simp [Chain] at h1

theorem fapplyLoop_last (ev : Obj → Obj → Run Obj) (a : Nat) (l env : Obj) (w : World) :
    fapplyLoop ev (.Pair a l .null) env w = ev l env w := by
  rw [fapplyLoop]; rfl

theorem fapplyLoop_pair (ev : Obj → Obj → Run Obj) (a b : Nat) (d d2 n2 env : Obj) (w : World) :
    fapplyLoop ev (.Pair a d (.Pair b d2 n2)) env w =
      (ev d env w).bind fun v w2 =>
        (fapplyLoop ev (.Pair b d2 n2) env (w2.alloc 1)).bind fun tl w3 =>
          .ok (.Pair w2.brk v tl) w3 := by
  rw [fapplyLoop]; rfl

/-- The loop of `fapply` over the expressions `a1 … an l`: it evaluates them
in order, allocating a cell after each of the `ai`, and returns the chain of
the values of the `ai` that ends in the value of `l`. -/
theorem fapplyLoop_chain (ev : Obj → Obj → Run Obj) (env l : Obj) : ∀ (as : List Obj)
    (tmp : Obj) (w : World), Chain tmp (as ++ [l]) .null →
    (∀ (vals : List Obj) (w1 : World) (lv : Obj) (w2 : World),
      evalList ev env as w = .ok vals w1 → ev l env w1 = .ok lv w2 →
      ∃ head, Chain head vals lv ∧ fapplyLoop ev tmp env w = .ok head w2) ∧
    (∀ err : Fault, evalList ev env as w = .fail err → fapplyLoop ev tmp env w = .fail err) ∧
    (∀ (vals : List Obj) (w1 : World) (err : Fault),
      evalList ev env as w = .ok vals w1 → ev l env w1 = .fail err →
      fapplyLoop ev tmp env w = .fail err) := by
  intro as
  induction as with
  | nil =>
    intro tmp w h
    cases tmp with
    | Pair a d n =>
      simp only [List.nil_append, Chain] at h
      obtain ⟨rfl, rfl⟩ := h
      refine ⟨fun vals w1 lv w2 hv hl => ?_, fun err hv => ?_, fun vals w1 err hv hl => ?_⟩
      · simp only [evalList, run_pure, Res.ok.injEq] at hv
        obtain ⟨rfl, rfl⟩ := hv
        exact ⟨lv, by simp [Chain], by rw [fapplyLoop_last, hl]⟩
      · simp [evalList] at hv
      · simp only [evalList, run_pure, Res.ok.injEq] at hv
        obtain ⟨rfl, rfl⟩ := hv
        rw [fapplyLoop_last, hl]
    | _ => simp [Chain] at h
  | cons a as ih =>
    intro tmp w h
    cases tmp with
    | Pair p d n =>
      simp only [List.cons_append, Chain] at h
      obtain ⟨rfl, hn⟩ := h
      cases n with
      | Pair q d2 n2 =>
        rw [fapplyLoop_pair, evalList_cons]
        cases hd : ev d env w with
        | fail e0 =>
          simp only [Res.bind_fail]
          exact ⟨fun _ _ _ _ hv => by simp at hv, fun err hv => by simpa using hv,
            fun _ _ _ hv => by simp at hv⟩
        | ok v w2 =>
          simp only [Res.bind_ok]
          obtain ⟨ih1, ih2, ih3⟩ := ih (.Pair q d2 n2) (w2.alloc 1) hn
          cases hr : evalList ev env as (w2.alloc 1) with
          | fail e0 =>
            rw [ih2 e0 hr]
            simp only [Res.bind_fail]
            exact ⟨fun _ _ _ _ hv => by simp at hv, fun err hv => by simpa using hv,
              fun _ _ _ hv => by simp at hv⟩
          | ok vs w3 =>
            simp only [Res.bind_ok, Res.ok.injEq]
            refine ⟨fun vals w1 lv w4 hv hl => ?_, fun err hv => by simp at hv,
              fun vals w1 err hv hl => ?_⟩
            · obtain ⟨rfl, rfl⟩ := hv
              obtain ⟨tl, ht1, ht2⟩ := ih1 vs w3 lv w4 hr hl
              exact ⟨.Pair w2.brk v tl, ⟨rfl, ht1⟩, by rw [ht2]; rfl⟩
            · obtain ⟨rfl, rfl⟩ := hv
              rw [ih3 vs w3 err hr hl]
              rfl
      | null => cases as <;> simp [Chain] at hn
      | _ => cases as <;> simp [Chain] at hn
    | _ => simp [Chain] at h

theorem fapply_run (ev : Obj → Obj → Run Obj) (fuel e e2 : Nat) (head f rest env : Obj)
    (w : World) :
    fapply ev fuel (.Pair e head (.Pair e2 f rest)) env w =
      (fapplyLoop ev rest env w).bind fun args w2 =>
        (ev f env w2).bind fun fv w3 => _apply ev fuel fv args w3 := by
  simp only [fapply, run_bind, cdr_pair, Res.bind_ok]
  cases fapplyLoop ev rest env w with
  | fail err => rfl
  | ok args w2 => rfl

theorem apply_primitive (ev : Obj → Obj → Run Obj) (fuel c e : Nat) (pfn : PrimFn)
    (head aexprs env : Obj) (w : World) :
    apply ev fuel (.Primitive c pfn) (.Pair e head aexprs) env w =
      (map aexprs ev env w).bind fun args w1 => _apply ev fuel (.Primitive c pfn) args w1 :=
  rfl

/-- C12. The `apply` form: where the head of `(apply f a1 … an l)` evaluates
to the builtin `apply`, the form evaluates `a1 … an` and then `l`, in order,
and then `f`, all in `env`, and the result is `_apply` of the value of `f` to
the list that holds the values of `a1 … an` and continues with the value of
`l`: when that is a proper list `(u1 … um)`, to the proper list of the
`n + m` values.  A call form whose head evaluated to a Primitive or a Closure
is likewise `_apply` of it to the proper list of the values of its arguments.
In particular `(apply cons (quote a) (quote (b)))` and
`(cons (quote a) (quote b))` both give `(a . b)`. -/
theorem apply_form (fuel a e e2 : Nat) (head f rest env l : Obj) (as : List Obj) (w : World)
    (happly : eval (fuel + 1) head env w = .ok (.Syntax a .fapply) w)
    (hargs : Chain rest (as ++ [l]) .null) :
    (∀ (vals : List Obj) (w1 : World) (lv : Obj) (w2 : World) (fv : Obj) (w3 : World),
      evalList (eval (fuel + 1)) env as w = .ok vals w1 →
      eval (fuel + 1) l env w1 = .ok lv w2 → eval (fuel + 1) f env w2 = .ok fv w3 →
      ∃ args, Chain args vals lv ∧ (∀ us, Chain lv us .null → Chain args (vals ++ us) .null) ∧
        eval (fuel + 2) (.Pair e head (.Pair e2 f rest)) env w =
          _apply (eval (fuel + 1)) (fuel + 1) fv args w3) ∧
    (∀ (k c e3 : Nat) (pfn : PrimFn) (h aexprs E : Obj) (es vals : List Obj) (w0 w1 : World),
      Chain aexprs es .null → evalList (eval k) E es w0 = .ok vals w1 →
      ∃ args, Chain args vals .null ∧
        apply (eval k) k (.Primitive c pfn) (.Pair e3 h aexprs) E w0 =
          _apply (eval k) k (.Primitive c pfn) args w1) ∧
    (∀ (k c e3 : Nat) (params body D h aexprs E : Obj) (es vals : List Obj) (w0 w1 : World),
      Chain aexprs es .null → evalList (eval k) E es w0 = .ok vals w1 →
      ∃ args, Chain args vals .null ∧
        apply (eval k) k (.Closure c params body D) (.Pair e3 h aexprs) E w0 =
          _apply (eval k) k (.Closure c params body D) args w1) ∧
    output 20 "(apply cons (quote a) (quote (b)))" = some "(a . b)\n" ∧
    output 20 "(cons (quote a) (quote b))" = some "(a . b)\n" ∧
    output 30 "(apply (lambda (x y z) (cons z (cons y x))) (quote a) (quote (b c)))" =
      some "(c b . a)\n" ∧
    output 30 "((lambda (x y z) (cons z (cons y x))) (quote a) (quote b) (quote c))" =
      some "(c b . a)\n" := by
  refine ⟨fun vals w1 lv w2 fv w3 hv hl hf => ?_,
    fun k c e3 pfn h aexprs E es vals w0 w1 hc hv => ?_,
    fun k c e3 params body D h aexprs E es vals w0 w1 hc hv => ?_,
    by decide!, by decide!, by decide!, by decide!⟩
  · obtain ⟨args, h1, h2⟩ :=
      (fapplyLoop_chain (eval (fuel + 1)) env l as rest w hargs).1 vals w1 lv w2 hv hl
    refine ⟨args, h1, fun us hus => chain_append_tail vals args lv us h1 hus, ?_⟩
    rw [eval_pair, happly, Res.bind_ok, apply_syntax]
    simp only [callSyn]
    rw [fapply_run, h2, Res.bind_ok, hf, Res.bind_ok]
  · obtain ⟨args, h1, h2⟩ := (map_chain (eval k) E es aexprs w0 hc).1 vals w1 hv
    exact ⟨args, h1, by rw [apply_primitive, h2, Res.bind_ok]⟩
  · obtain ⟨args, h1, h2⟩ := (map_chain (eval k) E es aexprs w0 hc).1 vals w1 hv
    exact ⟨args, h1, by rw [apply_closure, h2, Res.bind_ok]⟩

/-- C12 for the form `(apply cons (quote a) (quote (b)))` in an environment in
which `apply`, `quote` and `cons` are the builtins: it is `_apply` of the
primitive to a list that holds `a` and continues with the list `(b)`. -/
theorem apply_form_witness :
    ∃ args, Chain args [.Symbol 7 ['a']] (.Pair 42 (.Symbol 9 ['b']) .null) ∧
      (∀ us, Chain (.Pair 42 (.Symbol 9 ['b']) .null) us .null →
        Chain args ([.Symbol 7 ['a']] ++ us) .null) ∧
      eval 3 applyForm applyEnv applyWorld =
        _apply (eval 2) 2 (.Primitive 13 .fcons) args (applyWorld.alloc 1) :=
  (apply_form 1 11 49 48 (.Symbol 1 "apply".toList) (.Symbol 5 "cons".toList)
    (.Pair 47 quoteA (.Pair 46 quoteListB .null)) applyEnv quoteListB [quoteA] applyWorld
    (by decide!) (by simp [Chain])).1 [.Symbol 7 ['a']] (applyWorld.alloc 1)
    (.Pair 42 (.Symbol 9 ['b']) .null) (applyWorld.alloc 1) (.Primitive 13 .fcons)
    (applyWorld.alloc 1) (by decide!) (by decide!) (by decide!)


/-! ## Names beyond the bound -/

/-- The result of `strncmp` over `n` characters depends on the first `n`
characters of its first argument only. -/
theorem strncmp_take (n : Nat) : ∀ (a b name : List Char), a.take n = b.take n →
    strncmp a name n = strncmp b name n := by
  induction n with
  | zero => intro a b name _; simp [strncmp]
  | succ n ih =>
    intro a b name h
    rw [strncmp_succ, strncmp_succ]
    cases a with
    | nil =>
      cases b with
      | nil => rfl
      | cons d ds => simp at h
    | cons c cs =>
      cases b with
      | nil => simp at h
      | cons d ds =>
        simp only [List.take_succ_cons, List.cons.injEq] at h
        obtain ⟨rfl, h2⟩ := h
        simp only [deref, List.headD_cons, List.tail_cons]
        rw [ih cs ds name.tail h2]

theorem findEntry_congr (a b : List Char)
    (h : ∀ name : List Char, strncmp a name SYMBOL_MAX = strncmp b name SYMBOL_MAX) :
    ∀ t : Obj, findEntry a t = findEntry b t := by
  intro t
  induction t with
  | Pair p d n _ ih =>
    cases d with
    | Symbol q name => simp only [findEntry, h name, ih]
    | _ => simp [findEntry]
  | _ => simp [findEntry]

/-- C17 fails as stated. The names of 32 characters `x…xa` and `x…xb` agree
on their first 31 characters, and `intern` makes two symbols of them:
`strncmp` compares `SYMBOL_MAX` = 32 characters. -/
theorem intern_distinguishes_at_position_32 :
    (List.replicate 31 'x' ++ ['a']).take 31 = (List.replicate 31 'x' ++ ['b']).take 31 ∧
    intern (List.replicate 31 'x' ++ ['a']) (World.init []) =
      .ok (.Symbol 1 (List.replicate 31 'x' ++ ['a']))
        ((World.init []).withSymbol (List.replicate 31 'x' ++ ['a'])) ∧
    intern (List.replicate 31 'x' ++ ['b'])
        ((World.init []).withSymbol (List.replicate 31 'x' ++ ['a'])) =
      .ok (.Symbol 3 (List.replicate 31 'x' ++ ['b']))
        (((World.init []).withSymbol (List.replicate 31 'x' ++ ['a'])).withSymbol
          (List.replicate 31 'x' ++ ['b'])) ∧
    ptrEq (.Symbol 1 (List.replicate 31 'x' ++ ['a']))
      (.Symbol 3 (List.replicate 31 'x' ++ ['b'])) = false := by
  decide!

/-- C17, as amended. Collision beyond the bound: in every reachable state of
the symbol table, for two names that agree on their first `SYMBOL_MAX` = 32
characters, `intern` of the one returns, and `intern` of the other then
returns the same object and leaves the table as it is; the statement is
symmetric in the two names, so it holds whichever is interned first. -/
theorem intern_collision (w : World) (hw : Reachable w) (a b : List Char)
    (h : a.take SYMBOL_MAX = b.take SYMBOL_MAX) :
    ∃ o w1, intern a w = .ok o w1 ∧ intern b w1 = .ok o w1 := by
  obtain ⟨o, w1, h1, _, hT1, _⟩ := intern_twice a w hw.tableInv
  have hf := findEntry_after_intern a w o w1 hw.tableInv h1
  rw [findEntry_congr a b (fun name => strncmp_take SYMBOL_MAX a b name h)] at hf
  exact ⟨o, w1, h1, intern_of_findEntry b w1 o hT1 hf⟩

/-- C17, as amended, at the names `x…xa` and `x…xb` of 33 characters that
agree on the first 32, in the initial state. -/
theorem intern_collision_witness :
    ∃ o w1, intern (List.replicate 32 'x' ++ ['a']) (World.init []) = .ok o w1 ∧
      intern (List.replicate 32 'x' ++ ['b']) w1 = .ok o w1 :=
  intern_collision (World.init []) (Reachable.start _ rfl) (List.replicate 32 'x' ++ ['a'])
    (List.replicate 32 'x' ++ ['b']) (by decide)


/-! ## Runs longer than the token buffer -/

theorem tokenLoop_full : ∀ (name : List Char) (index : Nat) (s : List Char),
    (∀ c ∈ name, is_space c = false ∧ is_parens c = false) →
    index + name.length = SYMBOL_MAX - 1 →
    tokenLoop index (name ++ s).head? (name ++ s).tail = (name, s.head?, s.tail) := by
  intro name
  induction name with
  | nil =>
    intro index s _ hlen
    have hi : ¬ index < SYMBOL_MAX - 1 := by simp only [List.length_nil] at hlen; omega
    cases s with
    | nil => rfl
    | cons c cs => cases cs <;> simp [tokenLoop, hi]
  | cons x name ih =>
    intro index s hn hlen
    have hx := hn x (by simp)
    have hi : index < SYMBOL_MAX - 1 := by simp only [List.length_cons] at hlen; omega
    have ih1 := ih (index + 1) s (fun y hy => hn y (by simp [hy]))
      (by simp only [List.length_cons] at hlen; omega)
    cases h : name ++ s with
    | nil =>
      simp only [List.append_eq_nil] at h
      simp [h.1, h.2, tokenLoop, hx, hi]
    | cons d ds =>
      rw [h] at ih1
      simp only [List.cons_append, List.head?_cons, List.tail_cons, h]
      simp only [List.head?_cons, List.tail_cons] at ih1
      simp [tokenLoop, hx, hi, ih1]

/-- `gettoken` before a run of characters of an atom, after any spaces: when
the run is followed by a delimiter or the end of the input, or fills the
buffer, the token is the run and the reader stands right after it. -/
theorem gettoken_chunk (w : World) (sp name s : List Char)
    (hsp : ∀ x ∈ sp, is_space x = true) (hne : name ≠ [])
    (hch : ∀ c ∈ name, is_space c = false ∧ is_parens c = false)
    (hlen : name.length ≤ SYMBOL_MAX - 1)
    (hs : name.length = SYMBOL_MAX - 1 ∨ ∀ c ∈ s.head?, is_space c = true ∨ is_parens c = true)
    (h : AtStream w (sp ++ name ++ s)) :
    gettoken w = .ok () { w with token := name, look := s.head?, stdin := s.tail } := by
  obtain ⟨x, xs, rfl⟩ := List.exists_cons_of_ne_nil hne
  have hx := hch x (by simp)
  have hsk := skipSpaces_spec sp (x :: xs ++ s) hsp
    (by intro d hd; simp only [List.cons_append, List.head?_cons, Option.mem_def,
          Option.some.injEq] at hd
        subst hd; exact hx.1)
  have htl : tokenLoop 0 (x :: xs ++ s).head? (x :: xs ++ s).tail = (x :: xs, s.head?, s.tail) := by
    rcases hs with hs | hs
    · exact tokenLoop_full (x :: xs) 0 s hch (by omega)
    · exact tokenLoop_spec (x :: xs) 0 s hch (by omega) hs
  unfold gettoken
  rw [List.append_assoc] at h
  rw [h.1, h.2, hsk]
  simp only [List.cons_append, List.head?_cons, toChar, hx.2, Bool.false_eq_true, if_false,
    List.tail_cons]
  simp only [List.cons_append, List.head?_cons, List.tail_cons] at htl
  rw [htl]

/-- C16 fails as stated. Before the run `x…xyz` of 33 characters and a
newline, `gettoken` yields the first 31 characters and stands at `y`, not at
the newline; the next `gettoken` yields the excess `yz` as a token of its
own.  The program reads `(quote (x…xyz))` as a list of two symbols. -/
theorem gettoken_leaves_the_excess :
    gettoken { World.init (List.replicate 30 'x' ++ "yz\n".toList) with look := some 'x' } =
      .ok () { World.init ("z\n".toList) with look := some 'y', token := List.replicate 31 'x' } ∧
    gettoken { World.init ("z\n".toList) with look := some 'y', token := List.replicate 31 'x' } =
      .ok () { World.init [] with look := some '\n', token := "yz".toList } ∧
    output 20 "(quote (xxxxxxxxxxxxxxxxxxxxxxxxxxxxxxxyz))" =
      some "(xxxxxxxxxxxxxxxxxxxxxxxxxxxxxxx yz)\n" := by
  decide!

/-- C16, as amended. Token truncation splits the run: before a run of more
than 31 characters, none of them a space, a newline or a parenthesis, and
after any spaces, `gettoken` yields the first 31 characters of the run as the
token and consumes these and one character of lookahead only, changing
nothing else; the reader then stands at the excess, and the next `gettoken`
yields the first 31 characters of the excess as the next token. -/
theorem gettoken_splits_long_run (w : World) (sp run s : List Char)
    (hsp : ∀ x ∈ sp, is_space x = true)
    (hrun : ∀ c ∈ run, is_space c = false ∧ is_parens c = false)
    (hlen : SYMBOL_MAX - 1 < run.length)
    (hs : ∀ c ∈ s.head?, is_space c = true ∨ is_parens c = true)
    (h : AtStream w (sp ++ run ++ s)) :
    ∃ w1 w2, gettoken w = .ok () w1 ∧
      w1 = { w with token := run.take 31, look := (run.drop 31 ++ s).head?,
                    stdin := (run.drop 31 ++ s).tail } ∧
      AtStream w1 (run.drop 31 ++ s) ∧
      gettoken w1 = .ok () w2 ∧ w2.token = (run.drop 31).take 31 ∧
      AtStream w2 (run.drop 62 ++ s) := by
  have hl : SYMBOL_MAX - 1 = 31 := rfl
  rw [hl] at hlen
  have h1 : gettoken w = .ok ()
      { w with token := run.take 31, look := (run.drop 31 ++ s).head?,
               stdin := (run.drop 31 ++ s).tail } := by
    apply gettoken_chunk w sp (run.take 31) (run.drop 31 ++ s) hsp
    · intro e
      have := congrArg List.length e
      simp only [List.length_take, List.length_nil] at this
      omega
    · exact fun c hc => hrun c (List.mem_of_mem_take hc)
    · simp only [List.length_take, hl]; omega
    · left; simp only [List.length_take, hl]; omega
    · rw [← List.append_assoc, List.append_assoc sp, List.take_append_drop]
      exact h
  have hex : run.drop 31 = (run.drop 31).take 31 ++ run.drop 62 := by
    rw [show run.drop 62 = (run.drop 31).drop 31 by rw [List.drop_drop], List.take_append_drop]
  have h2 : gettoken
      { w with token := run.take 31, look := (run.drop 31 ++ s).head?,
               stdin := (run.drop 31 ++ s).tail } =
      .ok ()
      { w with token := (run.drop 31).take 31, look := (run.drop 62 ++ s).head?,
               stdin := (run.drop 62 ++ s).tail } := by
    apply gettoken_chunk _ [] ((run.drop 31).take 31) (run.drop 62 ++ s) (by simp)
    · intro e
      have := congrArg List.length e
      simp only [List.length_take, List.length_drop, List.length_nil] at this
      omega
    · exact fun c hc => hrun c (List.mem_of_mem_drop (List.mem_of_mem_take hc))
    · simp only [List.length_take, hl]; omega
    · by_cases hlong : 62 ≤ run.length
      · left; simp only [List.length_take, List.length_drop, hl]; omega
      · right
        rw [List.drop_eq_nil_of_le (by omega), List.nil_append]
        exact hs
    · simp only [List.nil_append]
      rw [← List.append_assoc, ← hex]
      exact ⟨rfl, rfl⟩
  exact ⟨_, _, h1, rfl, ⟨rfl, rfl⟩, h2, rfl, ⟨rfl, rfl⟩⟩

/-- C16, as amended, at the run `x…xyz` of 33 characters before a newline. -/
theorem gettoken_splits_long_run_witness :
    ∃ w1 w2,
      gettoken { World.init (List.replicate 30 'x' ++ "yz\n".toList) with look := some 'x' } =
        .ok () w1 ∧
      w1 =
        { ({ World.init (List.replicate 30 'x' ++ "yz\n".toList) with look := some 'x' } :
            World) with
          token := (List.replicate 31 'x' ++ "yz".toList).take 31,
          look := ((List.replicate 31 'x' ++ "yz".toList).drop 31 ++ "\n".toList).head?,
          stdin := ((List.replicate 31 'x' ++ "yz".toList).drop 31 ++ "\n".toList).tail } ∧
      AtStream w1 ((List.replicate 31 'x' ++ "yz".toList).drop 31 ++ "\n".toList) ∧
      gettoken w1 = .ok () w2 ∧
      w2.token = ((List.replicate 31 'x' ++ "yz".toList).drop 31).take 31 ∧
      AtStream w2 ((List.replicate 31 'x' ++ "yz".toList).drop 62 ++ "\n".toList) :=
  gettoken_splits_long_run
    { World.init (List.replicate 30 'x' ++ "yz\n".toList) with look := some 'x' } []
    (List.replicate 31 'x' ++ "yz".toList) "\n".toList (by simp) (by decide) (by decide)
    (by decide) ⟨by decide, by decide⟩


/-! ## The reader on any layout -/

theorem exampleSrc_text : exampleSrc.text false = "( a (b)\n)".toList := by decide

theorem strncmp_strdup_left (n : Nat) : ∀ a b : List Char,
    strncmp (strdup a) b n = strncmp a b n := by
  induction n with
  | zero => intro a b; simp [strncmp]
  | succ n ih =>
    intro a b
    cases a with
    | nil => rfl
    | cons c cs =>
      by_cases hc : c = NUL
      · subst hc
        rw [strdup_cons, if_pos rfl, strncmp_succ, strncmp_succ]
        simp [deref]
      · rw [strdup_cons, if_neg hc, strncmp_succ, strncmp_succ]
        simp only [deref, List.headD_cons, List.tail_cons]
        rw [ih cs b.tail]

theorem length_strdup_le : ∀ s : List Char, (strdup s).length ≤ s.length := by
  intro s
  induction s with
  | nil => simp [strdup_nil]
  | cons c cs ih =>
    rw [strdup_cons]
    split
    · simp
    · simp only [List.length_cons]; omega

/-- On a well-formed table `intern` of a string shorter than the bound
returns the symbol named by the string up to its terminator, an entry of the
table after the call, and touches nothing but the table and the allocator. -/
theorem intern_strdup (s : List Char) (w : World) (h : TableInv w.brk w.symbols)
    (hlen : s.length < SYMBOL_MAX) :
    ∃ p w1, intern s w = .ok (.Symbol p (strdup s)) w1 ∧ TableInv w1.brk w1.symbols ∧
      InTable (.Symbol p (strdup s)) w1.symbols ∧
      (∀ x, InTable x w.symbols → InTable x w1.symbols) ∧
      w1.look = w.look ∧ w1.token = w.token ∧ w1.stdin = w.stdin ∧ w1.stdout = w.stdout := by
  obtain ⟨o, w1, h1, _, h3, h4, h5, a, name, rfl, hc⟩ := intern_twice s w h
  obtain ⟨a1, n1, e, _, hn⟩ := inTable_symbol _ _ _ h3 h4
  simp only [Obj.Symbol.injEq] at e
  obtain ⟨rfl, rfl⟩ := e
  rw [← strncmp_strdup_left] at hc
  have := eq_of_strncmp_eq_zero SYMBOL_MAX (strdup s) name hc
    (Nat.lt_of_le_of_lt (length_strdup_le s) hlen) (nul_not_mem_strdup s) hn
  subst this
  exact ⟨a, w1, h1, h3, h4, h5, intern_io s w _ w1 h h1⟩

theorem isAtomChar_spec {c : Char} (h : isAtomChar c = true) :
    is_space c = false ∧ is_parens c = false := by
  simpa [isAtomChar] using h

/-- What follows an atom inside a well-formed list, when the rest does not
begin with an atom: a space, a newline or a parenthesis. -/
theorem Src.text_head (t : Src) (s : List Char) (hwf : t.wf true = true)
    (hst : t.startsAtom = false) :
    ∀ c ∈ (t.text true ++ s).head?, is_space c = true ∨ is_parens c = true := by
  cases t with
  | atom name => simp [Src.wf] at hwf
  | close sp =>
    cases sp with
    | nil => simp [Src.text, is_parens]
    | cons x sp =>
      simp only [Src.wf, List.all_cons, Bool.and_eq_true] at hwf
      simp [Src.text, hwf.1]
  | item sp e rest =>
    cases sp with
    | cons x sp =>
      simp only [Src.wf, List.all_cons, Bool.and_eq_true] at hwf
      simp [Src.text, hwf.1.1.1.1]
    | nil =>
      cases e with
      | atom name => simp [Src.startsAtom] at hst
      | close sp2 => simp [Src.text, is_parens]
      | item sp2 e2 r2 => simp [Src.text, is_parens]

theorem Src.wf_tail (t : Src) (h : t.wf false = true) (hna : ∀ name, t ≠ .atom name) :
    t.wf true = true := by
  cases t with
  | atom name => exact absurd rfl (hna name)
  | close sp => simpa [Src.wf] using h
  | item sp e rest => simpa [Src.wf] using h

theorem Src.atom_or_list (e : Src) :
    (∃ name, e = .atom name) ∨
      (e.text false = '(' :: e.text true ∧ (e.wf false = true → e.wf true = true)) := by
  cases e with
  | atom name => exact Or.inl ⟨name, rfl⟩
  | close sp => exact Or.inr ⟨by simp [Src.text], fun h => by simpa [Src.wf] using h⟩
  | item sp e rest => exact Or.inr ⟨by simp [Src.text], fun h => by simpa [Src.wf] using h⟩

theorem Src.wf_atom {name : List Char} (h : (Src.atom name).wf false = true) :
    name ≠ [] ∧ name.length ≤ SYMBOL_MAX - 1 ∧
      ∀ c ∈ name, is_space c = false ∧ is_parens c = false := by
  simp only [Src.wf, Bool.not_false, Bool.true_and, Bool.and_eq_true, Bool.not_eq_true',
    List.isEmpty_eq_false, decide_eq_true_eq, List.all_eq_true] at h
  exact ⟨h.1.1, h.1.2, fun c hc => isAtomChar_spec (h.2 c hc)⟩

theorem deref_atom {name : List Char} (hne : name ≠ [])
    (hch : ∀ c ∈ name, is_space c = false ∧ is_parens c = false) :
    deref name ≠ ')' ∧ deref name ≠ '(' := by
  obtain ⟨x, xs, rfl⟩ := List.exists_cons_of_ne_nil hne
  have hx := (hch x (by simp)).2
  constructor <;>
  · intro e
    simp only [deref, List.headD_cons] at e
    rw [e] at hx
    simp [is_parens] at hx

/-- `getlist` reads the rest of a list in any layout: standing before the
text of the remaining elements and the closing parenthesis, it returns the
list of these elements, all symbols interned, and stands after the
parenthesis. -/
theorem getlist_reads (t : Src) : t.wf true = true → ∀ (fuel : Nat), t.fuel ≤ fuel →
    ∀ (w : World) (s : List Char), TableInv w.brk w.symbols → AtStream w (t.text true ++ s) →
    ∃ c1 w1, getlist fuel w = .ok c1 w1 ∧ c1.erase = t.value ∧
      TableInv w1.brk w1.symbols ∧ AtStream w1 s ∧ w1.stdout = w.stdout ∧
      Interned w1.symbols c1 ∧ (∀ x, InTable x w.symbols → InTable x w1.symbols) := by
  induction t with
  | atom name => intro h; simp [Src.wf] at h
  | close sp =>
    intro hwf fuel hf w s hw hst
    obtain ⟨k, rfl⟩ : ∃ k, fuel = k + 1 := ⟨fuel - 1, by simp only [Src.fuel] at hf; omega⟩
    have hsp : ∀ x ∈ sp, is_space x = true := by simpa [Src.wf] using hwf
    have hg := gettoken_paren w sp ')' s hsp (by decide) (by simpa [Src.text] using hst)
    refine ⟨.null, { w with token := [')'], look := s.head?, stdin := s.tail }, ?_, rfl, hw,
      ⟨rfl, rfl⟩, rfl, trivial, fun _ hx => hx⟩
    rw [getlist_succ, hg]
    simp [deref]
  | item sp e rest ihe ihr =>
    intro hwf fuel hf w s hw hst
    simp only [Src.wf, Bool.and_eq_true] at hwf
    obtain ⟨⟨⟨hsp0, hwe⟩, hwr⟩, hsep⟩ := hwf
    have hsp : ∀ x ∈ sp, is_space x = true := by simpa using hsp0
    obtain ⟨k, rfl⟩ : ∃ k, fuel = k + 1 := ⟨fuel - 1, by simp only [Src.fuel] at hf; omega⟩
    have hke : e.fuel ≤ k := by simp only [Src.fuel] at hf; omega
    have hkr : rest.fuel ≤ k := by simp only [Src.fuel] at hf; omega
    rcases Src.atom_or_list e with ⟨name, rfl⟩ | ⟨htx, hwt⟩
    · obtain ⟨hne, hlen, hch⟩ := Src.wf_atom hwe
      have hs : name.length = SYMBOL_MAX - 1 ∨
          ∀ c ∈ (rest.text true ++ s).head?, is_space c = true ∨ is_parens c = true := by
        simp only [Bool.or_eq_true, decide_eq_true_eq, Bool.not_eq_true'] at hsep
        rcases hsep with h1 | h1
        · exact Or.inl h1
        · exact Or.inr (Src.text_head rest s hwr h1)
      have hg := gettoken_chunk w sp name (rest.text true ++ s) hsp hne hch hlen hs
        (by simpa [Src.text, List.append_assoc] using hst)
      obtain ⟨q, w1, hi, hw1, hin1, hsub1, hl, _, hsin, hout⟩ := intern_strdup name
        { w with token := name, look := (rest.text true ++ s).head?,
                 stdin := (rest.text true ++ s).tail }
        hw (by simp only [SYMBOL_MAX] at hlen ⊢; omega)
      obtain ⟨n1, w2, hn1, he, hw2, hst2, hout2, hint2, hsub2⟩ := ihr hwr k hkr w1 s hw1
        ⟨hl, hsin⟩
      refine ⟨.Pair w2.brk (.Symbol q (strdup name)) n1, { w2 with brk := w2.brk + 1 }, ?_, ?_,
        TableInv.mono (by simp) hw2, hst2, ?_, ⟨hsub2 _ hin1, hint2⟩, ?_⟩
      · rw [getlist_succ, hg]
        obtain ⟨hd1, hd2⟩ := deref_atom hne hch
        simp only [Res.bind_ok, hd1, if_false, getobjWith, hd2, hi, hn1, cons_run]
      · simp only [Obj.erase, he, Src.value]
      · simp only [hout2, hout]
      · exact fun y hy => hsub2 _ (hsub1 _ hy)
    · have hg := gettoken_paren w sp '(' (e.text true ++ (rest.text true ++ s)) hsp (by decide)
        (by simpa [Src.text, htx, List.append_assoc] using hst)
      obtain ⟨c1, w1, hc1, he1, hw1, hst1, hout1, hint1, hsub1⟩ := ihe (hwt hwe) k hke
        { w with token := ['('], look := (e.text true ++ (rest.text true ++ s)).head?,
                 stdin := (e.text true ++ (rest.text true ++ s)).tail }
        (rest.text true ++ s) hw ⟨rfl, rfl⟩
      obtain ⟨n1, w2, hn1, he, hw2, hst2, hout2, hint2, hsub2⟩ := ihr hwr k hkr w1 s hw1 hst1
      refine ⟨.Pair w2.brk c1 n1, { w2 with brk := w2.brk + 1 }, ?_, ?_,
        TableInv.mono (by simp) hw2, hst2, ?_, ⟨interned_mono hsub2 _ hint1, hint2⟩, ?_⟩
      · rw [getlist_succ, hg]
        simp only [Res.bind_ok, deref, List.headD_cons, getobjWith, if_true, hc1, hn1, cons_run]
        simp
      · simp only [Obj.erase, he, he1, Src.value]
      · simp only [hout2, hout1]
      · exact fun y hy => hsub2 _ (hsub1 _ hy)

theorem isSExp_erase (v : Obj) : isSExp v.erase = isSExp v := by
  induction v with
  | Pair p d n ihd ihn =>
    simp only [Obj.erase, isSExp, ihd, ihn]
    cases n <;> rfl
  | _ => simp [Obj.erase, isSExp]

theorem Src.value_isSExp (t : Src) : ∀ b : Bool, t.wf b = true →
    isSExp t.value = true ∧ (b = true → t.value = .null ∨ ∃ d n, t.value = .Pair 0 d n) := by
  induction t with
  | atom name =>
    intro b h
    refine ⟨rfl, fun hb => ?_⟩
    subst hb
    simp [Src.wf] at h
  | close sp => intro b _; exact ⟨rfl, fun _ => Or.inl rfl⟩
  | item sp e rest ihe ihr =>
    intro b h
    simp only [Src.wf, Bool.and_eq_true] at h
    obtain ⟨⟨⟨_, hwe⟩, hwr⟩, _⟩ := h
    refine ⟨?_, fun _ => Or.inr ⟨_, _, rfl⟩⟩
    have h1 := (ihe false hwe).1
    obtain ⟨h2, h3⟩ := ihr true hwr
    simp only [Src.value, isSExp, h1, h2, Bool.and_self, Bool.true_and]
    rcases h3 rfl with h4 | ⟨d, n, h4⟩ <;> rw [h4]

/-- At the end of the input `getlist` does not return: `gettoken` yields the
empty token, which is not `)`, and `getlist` calls itself again, whatever the
fuel. -/
theorem getlist_at_eof : ∀ (fuel : Nat) (w : World), TableInv w.brk w.symbols →
    AtStream w [] → getlist fuel w = .fail .outOfFuel := by
  intro fuel
  induction fuel with
  | zero => intro w _ _; rfl
  | succ k ih =>
    intro w hw h
    have hg : gettoken w = .ok () { w with token := [], look := none, stdin := [] } := by
      unfold gettoken
      rw [h.1, h.2]
      rfl
    obtain ⟨q, w1, hi, hw1, _, _, hl, _, hsin, _⟩ := intern_strdup []
      { w with token := [], look := none, stdin := [] } hw (by decide)
    have h1 := ih w1 hw1 ⟨hl, hsin⟩
    rw [getlist_succ, hg]
    have hd1 : deref [] ≠ ')' := by decide
    have hd2 : deref [] ≠ '(' := by decide
    simp only [Res.bind_ok, hd1, if_false, getobjWith, hd2, hi, h1, Res.bind_fail]

/-- C20 fails as stated. On the input that begins with an atom of 40
characters and a newline, `gettoken` and `getobj` return the symbol of the
first 31 characters and stand inside the atom, at its 32nd character, with 8
characters and the newline still in the input. -/
theorem reader_stops_inside_long_atom :
    (gettoken >>= fun _ => getobj 5)
      { World.init (List.replicate 39 'x' ++ ['\n']) with look := some 'x' } =
    .ok (.Symbol 1 (List.replicate 31 'x'))
      { (World.init (List.replicate 8 'x' ++ ['\n'])).withSymbol (List.replicate 31 'x') with
        look := some 'x', token := List.replicate 31 'x' } := by
  decide!

/-- C20, as amended. Reader termination and exact consumption: when the input
holds, after any spaces and newlines, a complete expression in any layout
(an atom of at most 31 characters, or a parenthesised list that is closed
before the end of the input, a run of more than 31 atom characters counting
as atoms of 31 characters and a last one) and then `rest`, which after a
shorter atom begins with a delimiter or is empty, then `gettoken` followed by
`getobj`, with the fuel the nesting needs, returns a value with the structure
the layout denotes, made only of symbols, absent and proper lists, its
symbols interned; it has consumed exactly the characters before `rest` and
one character of lookahead, and printed nothing.  The closing parenthesis is
needed: at the end of the input `getlist` calls itself whatever the fuel, as
on the input `(a`. -/
theorem reader_reads_expression (src : Src) (hwf : src.wf false = true) (w : World)
    (hw : Reachable w) (sp rest : List Char) (hsp : ∀ x ∈ sp, is_space x = true)
    (hend : src.endsBefore rest) (hin : AtStream w (sp ++ src.text false ++ rest))
    (fuel : Nat) (hf : src.fuel ≤ fuel) :
    (∃ v w1, (gettoken >>= fun _ => getobj fuel) w = .ok v w1 ∧ v.erase = src.value ∧
      isSExp v = true ∧ Interned w1.symbols v ∧ AtStream w1 rest ∧ w1.stdout = w.stdout) ∧
    (∀ (k : Nat) (w0 : World), Reachable w0 → AtStream w0 [] →
      getlist k w0 = .fail .outOfFuel) ∧
    (∀ k : Nat, (gettoken >>= fun _ => getobj k)
      { World.init ['a'] with look := some '(' } = .fail .outOfFuel) := by
  refine ⟨?_, fun k w0 h0 hs => getlist_at_eof k w0 h0.tableInv hs, fun k => ?_⟩
  · have hT := hw.tableInv
    rcases Src.atom_or_list src with ⟨name, rfl⟩ | ⟨htx, hwt⟩
    · obtain ⟨hne, hlen, hch⟩ := Src.wf_atom hwf
      have hg := gettoken_chunk w sp name rest hsp hne hch hlen hend
        (by simpa [Src.text] using hin)
      obtain ⟨q, w1, hi, hw1, hin1, _, hl, _, hsin, hout⟩ := intern_strdup name
        { w with token := name, look := rest.head?, stdin := rest.tail }
        hT (by simp only [SYMBOL_MAX] at hlen ⊢; omega)
      refine ⟨.Symbol q (strdup name), w1, ?_, rfl, rfl, hin1, ⟨hl, hsin⟩, hout⟩
      simp only [run_bind, hg, Res.bind_ok, getobj, getobjWith, (deref_atom hne hch).2,
        if_false, hi]
    · have hg := gettoken_paren w sp '(' (src.text true ++ rest) hsp (by decide)
        (by simpa [htx, List.append_assoc] using hin)
      obtain ⟨c1, w1, hc1, he1, _, hst1, hout1, hint1, _⟩ := getlist_reads src (hwt hwf) fuel hf
        { w with token := ['('], look := (src.text true ++ rest).head?,
                 stdin := (src.text true ++ rest).tail }
        rest hT ⟨rfl, rfl⟩
      refine ⟨c1, w1, ?_, he1, ?_, hint1, hst1, hout1⟩
      · simp only [run_bind, hg, Res.bind_ok, getobj, getobjWith, deref, List.headD_cons,
          if_true, hc1]
      · rw [← isSExp_erase, he1]
        exact (Src.value_isSExp src false hwf).1
  · have hg : gettoken { World.init ['a'] with look := some '(' } =
        .ok () { World.init [] with look := some 'a', token := ['('] } := by decide!
    simp only [run_bind, hg, Res.bind_ok, getobj, getobjWith, deref, List.headD_cons, if_true]
    cases k with
    | zero => rfl
    | succ k =>
      have hg2 : gettoken { World.init [] with look := some 'a', token := ['('] } =
          .ok () { World.init [] with look := none, token := ['a'] } := by decide!
      have hi : intern ['a'] { World.init [] with look := none, token := ['a'] } =
          .ok (.Symbol 1 ['a'])
            (({ World.init [] with look := none, token := ['a'] } : World).withSymbol ['a']) := by
        decide!
      have h1 := getlist_at_eof k
        (({ World.init [] with look := none, token := ['a'] } : World).withSymbol ['a'])
        (by simp [World.withSymbol, World.init, TableInv, strdup, NUL]) ⟨rfl, rfl⟩
      rw [getlist_succ, hg2]
      have hd1 : deref ['a'] ≠ ')' := by decide
      have hd2 : deref ['a'] ≠ '(' := by decide
      simp only [Res.bind_ok, hd1, if_false, getobjWith, hd2, hi, h1, Res.bind_fail]

/-- C20, as amended, for the input of two spaces, the list `( a (b)`, a
newline, `)` and the text ` c`. -/
theorem reader_reads_expression_witness :
    ∃ v w1, (gettoken >>= fun _ => getobj 4)
        { World.init (" ( a (b)\n) c".toList) with look := some ' ' } = .ok v w1 ∧
      v.erase = exampleSrc.value ∧ isSExp v = true ∧ Interned w1.symbols v ∧
      AtStream w1 " c".toList ∧
      w1.stdout = ({ World.init (" ( a (b)\n) c".toList) with look := some ' ' } : World).stdout :=
  (reader_reads_expression exampleSrc (by decide)
    { World.init (" ( a (b)\n) c".toList) with look := some ' ' } (Reachable.start _ rfl)
    "  ".toList " c".toList (by decide) trivial ⟨by decide, by decide⟩ 4 (by decide)).1

end MicroLisp
